import Mathlib

/-!
Shallow embedding of `src/binary_merkle_tree.rs`: the BLAKE3 compression
core, `ChunkState`, the reference streaming `Blake3Hasher`, and the
`BinaryMerkleTree` with its construction, single-leaf update and bulk
update algorithms.  Machine integers (`u32`, `u64`, `u8`) are modelled as
`Nat` with explicit reductions modulo `2^32` / `2^64` / `2^256` exactly
where the Rust code can wrap.  Byte buffers and word arrays are `List Nat`.
-/

/-- `OUT_LEN` from the source. -/
def OUT_LEN : Nat := 32
/-- `BLOCK_LEN` from the source. -/
def BLOCK_LEN : Nat := 64
/-- `CHUNK_LEN` from the source. -/
def CHUNK_LEN : Nat := 1024

/-- `CHUNK_START` flag bit. -/
def CHUNK_START : Nat := 1
/-- `CHUNK_END` flag bit. -/
def CHUNK_END : Nat := 2
/-- `PARENT` flag bit. -/
def PARENT : Nat := 4
/-- `ROOT` flag bit. -/
def ROOT : Nat := 8

/-- The BLAKE3 initial vector `IV` from the source. -/
def IV : List Nat :=
  [0x6A09E667, 0xBB67AE85, 0x3C6EF372, 0xA54FF53A,
   0x510E527F, 0x9B05688C, 0x1F83D9AB, 0x5BE0CD19]

/-- The construction-time `FLAGS` constant (zero). -/
def FLAGS : Nat := 0

/-- 32-bit wrapping addition (`u32::wrapping_add`). -/
def add32 (a b : Nat) : Nat := (a + b) % 4294967296

/-- `u32::rotate_right`. Inputs are `< 2^32`. -/
def rotr32 (x r : Nat) : Nat :=
  (x >>> r) ||| ((x <<< (32 - r)) % 4294967296)

/-- The `g` mixing function from the source, acting on a 16-word state list. -/
def g (state : List Nat) (a b c d : Nat) (mx my : Nat) : List Nat :=
  let s1 := state.set a (add32 (add32 (state.getD a 0) (state.getD b 0)) mx)
  let s2 := s1.set d (rotr32 ((s1.getD d 0) ^^^ (s1.getD a 0)) 16)
  let s3 := s2.set c (add32 (s2.getD c 0) (s2.getD d 0))
  let s4 := s3.set b (rotr32 ((s3.getD b 0) ^^^ (s3.getD c 0)) 12)
  let s5 := s4.set a (add32 (add32 (s4.getD a 0) (s4.getD b 0)) my)
  let s6 := s5.set d (rotr32 ((s5.getD d 0) ^^^ (s5.getD a 0)) 8)
  let s7 := s6.set c (add32 (s6.getD c 0) (s6.getD d 0))
  s7.set b (rotr32 ((s7.getD b 0) ^^^ (s7.getD c 0)) 7)

/-- One round of the compression function: four column mixes then four
diagonal mixes, as in `round` in the source. -/
def roundFn (state m : List Nat) : List Nat :=
  let s := state
  let s := g s 0 4 8 12 (m.getD 0 0) (m.getD 1 0)
  let s := g s 1 5 9 13 (m.getD 2 0) (m.getD 3 0)
  let s := g s 2 6 10 14 (m.getD 4 0) (m.getD 5 0)
  let s := g s 3 7 11 15 (m.getD 6 0) (m.getD 7 0)
  let s := g s 0 5 10 15 (m.getD 8 0) (m.getD 9 0)
  let s := g s 1 6 11 12 (m.getD 10 0) (m.getD 11 0)
  let s := g s 2 7 8 13 (m.getD 12 0) (m.getD 13 0)
  g s 3 4 9 14 (m.getD 14 0) (m.getD 15 0)

/-- `MSG_PERMUTATION` from the source. -/
def MSG_PERMUTATION : List Nat := [2, 6, 3, 10, 7, 0, 4, 13, 1, 11, 12, 5, 9, 14, 15, 8]

/-- `permute` from the source: reorder the 16 message words. -/
def permuteMsg (m : List Nat) : List Nat :=
  MSG_PERMUTATION.map (fun i => m.getD i 0)

/-- `compress` from the source: 7 rounds with message permutation between
rounds, then the feed-forward xor. Returns the 16-word output state. -/
def compress (chainingValue blockWords : List Nat) (counter blockLen flags : Nat) :
    List Nat :=
  let counterLow := counter % 4294967296
  let counterHigh := (counter >>> 32) % 4294967296
  let st0 := chainingValue.take 8 ++ IV.take 4 ++ [counterLow, counterHigh, blockLen, flags]
  let b0 := blockWords
  let s1 := roundFn st0 b0
  let b1 := permuteMsg b0
  let s2 := roundFn s1 b1
  let b2 := permuteMsg b1
  let s3 := roundFn s2 b2
  let b3 := permuteMsg b2
  let s4 := roundFn s3 b3
  let b4 := permuteMsg b3
  let s5 := roundFn s4 b4
  let b5 := permuteMsg b4
  let s6 := roundFn s5 b5
  let b6 := permuteMsg b5
  let s7 := roundFn s6 b6
  (List.range 16).map (fun i =>
    if i < 8 then (s7.getD i 0) ^^^ (s7.getD (i + 8) 0)
    else (s7.getD i 0) ^^^ (chainingValue.getD (i - 8) 0))

/-- `first_8_words` from the source. -/
def first8Words (compressionOut : List Nat) : List Nat := compressionOut.take 8

/-- `Output` from the source: the deferred-finalisation record stored at
every tree node. -/
structure Output where
  input_chaining_value : List Nat
  block_words : List Nat
  counter : Nat
  block_len : Nat
  flags : Nat
deriving DecidableEq, Repr

/-- `Output::chaining_value` from the source. -/
def Output.chaining_value (o : Output) : List Nat :=
  first8Words (compress o.input_chaining_value o.block_words o.counter o.block_len o.flags)

/-- Serialise one word to its 4 little-endian bytes (`u32::to_le_bytes`). -/
def wordLEBytes (w : Nat) : List Nat :=
  [w % 256, w / 256 % 256, w / 65536 % 256, w / 16777216 % 256]

/-- `Output::root_output_bytes` from the source, writing into a destination
of length `outLen`: blocks of 64 bytes, each produced by `compress` with the
block counter and `flags | ROOT`, serialised little-endian; the final block
is truncated to the bytes that fit. -/
def Output.root_output_bytes (o : Output) (outLen : Nat) : List Nat :=
  (List.range ((outLen + 63) / 64)).flatMap (fun i =>
    ((compress o.input_chaining_value o.block_words i o.block_len
        (o.flags ||| ROOT)).flatMap wordLEBytes).take (outLen - 64 * i))

/-- `parent_output` from the source. -/
def parent_output (leftChildCV rightChildCV keyWords : List Nat) (flags : Nat) :
    Output :=
  { input_chaining_value := keyWords
    block_words := leftChildCV.take 8 ++ rightChildCV.take 8
    counter := 0
    block_len := BLOCK_LEN
    flags := PARENT ||| flags }

/-- `parent_cv` from the source. -/
def parent_cv (leftChildCV rightChildCV keyWords : List Nat) (flags : Nat) :
    List Nat :=
  (parent_output leftChildCV rightChildCV keyWords flags).chaining_value

/-- `words_from_little_endian_bytes` from the source: group bytes into
little-endian 32-bit words (complete 4-byte groups only, as
`chunks_exact(4)`). -/
def bytesToWords : List Nat → List Nat
  | b0 :: b1 :: b2 :: b3 :: rest =>
      (b0 + b1 * 256 + b2 * 65536 + b3 * 16777216) :: bytesToWords rest
  | _ => []

/-- `ChunkState` from the source. `block` is the 64-byte buffer (kept at
length 64, zero-padded); `block_len` and `blocks_compressed` are `u8`. -/
structure ChunkState where
  chaining_value : List Nat
  chunk_counter : Nat
  block : List Nat
  block_len : Nat
  blocks_compressed : Nat
  flags : Nat
deriving DecidableEq, Repr

/-- `ChunkState::new` from the source. -/
def ChunkState.new (keyWords : List Nat) (chunkCounter flags : Nat) : ChunkState :=
  { chaining_value := keyWords
    chunk_counter := chunkCounter
    block := List.replicate BLOCK_LEN 0
    block_len := 0
    blocks_compressed := 0
    flags := flags }

/-- `ChunkState::len` from the source. -/
def ChunkState.len (s : ChunkState) : Nat :=
  BLOCK_LEN * s.blocks_compressed + s.block_len

/-- `ChunkState::start_flag` from the source. -/
def ChunkState.start_flag (s : ChunkState) : Nat :=
  if s.blocks_compressed = 0 then CHUNK_START else 0

/-- One buffer-compression step of `ChunkState::update`: compress the full
block buffer into the chaining value and clear the buffer. -/
def ChunkState.compressStep (s : ChunkState) : ChunkState :=
  let blockWords := bytesToWords s.block
  { s with
    chaining_value :=
      first8Words (compress s.chaining_value blockWords s.chunk_counter BLOCK_LEN
        (s.flags ||| s.start_flag))
    blocks_compressed := (s.blocks_compressed + 1) % 256
    block := List.replicate BLOCK_LEN 0
    block_len := 0 }

/-- Loop body of `ChunkState::update`, with explicit fuel so that the
definition is structurally recursive (each iteration consumes at least one
input byte, so `fuel = |input|` always suffices; see
`ChunkState.update`).  Each iteration first compresses a full buffer, then
copies `take = min(BLOCK_LEN - block_len, |input|)` bytes into the buffer.
When `take = 0` with input remaining the Rust loop would never terminate
(unreachable: it requires the `block_len ≤ BLOCK_LEN` invariant to fail);
the embedding returns the state unchanged there to stay total. -/
def ChunkState.updateLoop : Nat → ChunkState → List Nat → ChunkState
  | 0, s, _ => s
  | fuel + 1, s, input =>
    if input.isEmpty then s
    else
      let s1 := if s.block_len = BLOCK_LEN then s.compressStep else s
      let want := BLOCK_LEN - s1.block_len
      let take := min want input.length
      if take = 0 then s1
      else
        let s2 : ChunkState :=
          { s1 with
            block := s1.block.take s1.block_len ++ input.take take
                      ++ s1.block.drop (s1.block_len + take)
            block_len := (s1.block_len + take) % 256 }
        ChunkState.updateLoop fuel s2 (input.drop take)

/-- `ChunkState::update` from the source. -/
def ChunkState.update (s : ChunkState) (input : List Nat) : ChunkState :=
  ChunkState.updateLoop input.length s input

/-- `ChunkState::output` from the source. -/
def ChunkState.output (s : ChunkState) : Output :=
  { input_chaining_value := s.chaining_value
    block_words := bytesToWords s.block
    counter := s.chunk_counter
    block_len := s.block_len
    flags := s.flags ||| s.start_flag ||| CHUNK_END }

/-- `parent_cv` composed over the hasher CV stack: see `Blake3Hasher`. -/
structure Blake3Hasher where
  chunk_state : ChunkState
  key_words : List Nat
  cv_stack : List (List Nat)
  flags : Nat
deriving DecidableEq, Repr

/-- `Blake3Hasher::new_internal` from the source.  The fixed 54-entry array
with its length counter is modelled as a list whose head is the stack top. -/
def Blake3Hasher.new_internal (keyWords : List Nat) (flags : Nat) : Blake3Hasher :=
  { chunk_state := ChunkState.new keyWords 0 flags
    key_words := keyWords
    cv_stack := []
    flags := flags }

/-- `Blake3Hasher::new` from the source. -/
def Blake3Hasher.new : Blake3Hasher := Blake3Hasher.new_internal IV 0

/-- The merge loop of `Blake3Hasher::add_chunk_chaining_value`: while the
total chunk count is even, pop the stack top and fold it with the new CV;
finally push.  Structural fuel replaces the `total_chunks >>= 1` variant
(the loop runs at most `log2 totalChunks` times, so `fuel = totalChunks`
suffices).  Popping an empty stack would panic in Rust (unreachable); the
embedding pushes and stops there. -/
def addChunkCVLoop (keyWords : List Nat) (flags : Nat) :
    Nat → List (List Nat) → List Nat → Nat → List (List Nat)
  | 0, stack, newCV, _ => newCV :: stack
  | fuel + 1, stack, newCV, totalChunks =>
    if totalChunks % 2 = 1 then newCV :: stack
    else
      match stack with
      | [] => newCV :: stack
      | top :: rest =>
          addChunkCVLoop keyWords flags fuel rest
            (parent_cv top newCV keyWords flags) (totalChunks >>> 1)

/-- `Blake3Hasher::add_chunk_chaining_value` from the source. -/
def Blake3Hasher.add_chunk_chaining_value (h : Blake3Hasher)
    (newCV : List Nat) (totalChunks : Nat) : Blake3Hasher :=
  { h with cv_stack := addChunkCVLoop h.key_words h.flags totalChunks h.cv_stack newCV totalChunks }

/-- Loop body of `Blake3Hasher::update` with structural fuel (each
iteration consumes at least one input byte, so `fuel = |input|`
suffices). -/
def Blake3Hasher.updateLoop : Nat → Blake3Hasher → List Nat → Blake3Hasher
  | 0, h, _ => h
  | fuel + 1, h, input =>
    if input.isEmpty then h
    else
      let h1 :=
        if h.chunk_state.len = CHUNK_LEN then
          let chunkCV := h.chunk_state.output.chaining_value
          let totalChunks := h.chunk_state.chunk_counter + 1
          let h2 := h.add_chunk_chaining_value chunkCV totalChunks
          { h2 with chunk_state := ChunkState.new h.key_words totalChunks h.flags }
        else h
      let want := CHUNK_LEN - h1.chunk_state.len
      let take := min want input.length
      if take = 0 then h1
      else
        Blake3Hasher.updateLoop fuel
          { h1 with chunk_state := h1.chunk_state.update (input.take take) }
          (input.drop take)

/-- `Blake3Hasher::update` from the source. -/
def Blake3Hasher.update (h : Blake3Hasher) (input : List Nat) : Blake3Hasher :=
  Blake3Hasher.updateLoop input.length h input

/-- `Blake3Hasher::finalize` from the source, producing `outLen` bytes:
fold the CV stack from top to bottom as right-edge parents over the
current chunk's `Output`, then take `root_output_bytes`. -/
def Blake3Hasher.finalize (h : Blake3Hasher) (outLen : Nat) : List Nat :=
  (h.cv_stack.foldl
    (fun output cv => parent_output cv output.chaining_value h.key_words h.flags)
    h.chunk_state.output).root_output_bytes outLen

/-- Loop body of `BinaryMerkleTree::process_input_to_chunks` with
structural fuel (each iteration consumes at least one input byte). -/
def processInputLoop (keyWords : List Nat) (flags : Nat) :
    Nat → ChunkState → List Output → List Nat → ChunkState × List Output
  | 0, chunkState, outputs, _ => (chunkState, outputs)
  | fuel + 1, chunkState, outputs, input =>
    if input.isEmpty then (chunkState, outputs)
    else
      let p :=
        if chunkState.len = CHUNK_LEN then
          (ChunkState.new keyWords (chunkState.chunk_counter + 1) flags,
           outputs ++ [chunkState.output])
        else (chunkState, outputs)
      let want := CHUNK_LEN - p.1.len
      let take := min want input.length
      if take = 0 then p
      else
        processInputLoop keyWords flags fuel
          (p.1.update (input.take take)) p.2 (input.drop take)

/-- `BinaryMerkleTree::process_input_to_chunks` from the source. -/
def process_input_to_chunks (input : List Nat) (keyWords : List Nat) (flags : Nat) :
    List Output :=
  let p := processInputLoop keyWords flags input.length (ChunkState.new keyWords 0 flags) [] input
  let outputs := if p.1.len > 0 then p.2 ++ [p.1.output] else p.2
  if outputs.isEmpty then [(ChunkState.new keyWords 0 flags).output] else outputs

/-- `usize::next_power_of_two`, by doubling (fuel `n` suffices since the
loop doubles from 1 and runs at most `log2 n + 1 ≤ n` times for `n ≥ 1`;
for `n ≤ 1` the answer is 1). -/
def nextPow2Loop (n : Nat) : Nat → Nat → Nat
  | 0, p => p
  | fuel + 1, p => if n ≤ p then p else nextPow2Loop n fuel (2 * p)

/-- `next_power_of_two` as used in `new_from_leaves`. -/
def nextPowerOfTwo (n : Nat) : Nat := nextPow2Loop n n 1

/-- Default `Output` used for the (never reached) out-of-bounds reads of
the tree vector; the Rust code would panic there. -/
def dOut : Output :=
  { input_chaining_value := [], block_words := [], counter := 0, block_len := 0, flags := 0 }

/-- `BinaryMerkleTree` from the source. -/
structure BinaryMerkleTree where
  tree : List Output
  actual_leaves : Nat
  number_of_leaves : Nat
  leaf_start_index : Nat
  key_words : List Nat
  flags : Nat
deriving DecidableEq, Repr

/-- `BinaryMerkleTree::num_leaves` from the source. -/
def BinaryMerkleTree.num_leaves (t : BinaryMerkleTree) : Nat := t.number_of_leaves

/-- `BinaryMerkleTree::root` from the source: a copy of `tree[1]` with
`ROOT` OR-ed into its flags. -/
def BinaryMerkleTree.root (t : BinaryMerkleTree) : Output :=
  let r := t.tree.getD 1 dOut
  { r with flags := r.flags ||| ROOT }

/-- `BinaryMerkleTree::get_sibling_index` from the source. -/
def get_sibling_index (index : Nat) : Nat := index ^^^ 1

/-- `BinaryMerkleTree::is_left` from the source. -/
def is_left (index : Nat) : Bool := index % 2 = 0

/-- `BinaryMerkleTree::get_parent_index` from the source. -/
def get_parent_index (index : Nat) : Nat := index >>> 1

/-- `BinaryMerkleTree::get_left_and_right_node_indices_from_index` from the
source: boolean indexing into the pair `[current, sibling]`. -/
def get_left_and_right_node_indices_from_index (currentIndex : Nat) : Nat × Nat :=
  let siblingIndex := get_sibling_index currentIndex
  let nodePair := [currentIndex, siblingIndex]
  (nodePair.getD (if is_left siblingIndex then 1 else 0) 0,
   nodePair.getD (if is_left currentIndex then 1 else 0) 0)

/-- The level-finding loop inside `BinaryMerkleTree::get_tree_indices`,
with structural fuel (`nodes_in_level` at least halves each iteration, so
`fuel = actual_leaves` suffices). -/
def levelSearchLoop (leafStartIndex currentIndex : Nat) : Nat → Nat → Nat → Nat
  | 0, level, _ => level
  | fuel + 1, level, nodesInLevel =>
    if nodesInLevel ≤ 1 then level
    else
      let nodes2 := (nodesInLevel + 1) / 2
      if currentIndex ≥ leafStartIndex >>> level then level
      else levelSearchLoop leafStartIndex currentIndex fuel (level + 1) nodes2

/-- `⌈n/2⌉` iterated `k` times: the populations loop in
`get_tree_indices`. -/
def ceilHalfIter : Nat → Nat → Nat
  | n, 0 => n
  | n, k + 1 => ceilHalfIter ((n + 1) / 2) k

/-- `BinaryMerkleTree::get_tree_indices` from the source. -/
def BinaryMerkleTree.get_tree_indices (t : BinaryMerkleTree) (currentIndex : Nat) :
    Nat × Nat × Nat × Bool :=
  let currentLevel :=
    if currentIndex ≥ t.leaf_start_index then 0
    else levelSearchLoop t.leaf_start_index currentIndex t.actual_leaves 0 t.actual_leaves
  let levelStart := t.leaf_start_index >>> currentLevel
  let nodesInLevel :=
    if currentLevel = 0 then t.actual_leaves
    else ceilHalfIter t.actual_leaves currentLevel
  let lr := get_left_and_right_node_indices_from_index currentIndex
  let parentIndex := get_parent_index currentIndex
  (lr.1, lr.2, parentIndex, decide (lr.2 < levelStart + nodesInLevel))

/-- The leaf-copying loop at the start of `create_tree_from_leaves`. -/
def writeLeavesLoop : List Output → Nat → List Output → List Output
  | t, _, [] => t
  | t, i, leaf :: rest => writeLeavesLoop (t.set i leaf) (i + 1) rest

/-- One parent-level pass of `create_tree_from_leaves`: for each parent
position either promote the lone left child or combine both children. -/
def buildParentsRow (keyWords : List Nat) (flags : Nat) (t : List Output)
    (currentLevelStart nodesAtCurrentLevel parentLevelStart nodesInParentLevel : Nat) :
    List Output :=
  (List.range nodesInParentLevel).foldl
    (fun tr i =>
      let leftIndex := currentLevelStart + 2 * i
      let rightIndex := leftIndex + 1
      let parentIndex := parentLevelStart + i
      if 2 * i + 1 ≥ nodesAtCurrentLevel then
        tr.set parentIndex (tr.getD leftIndex dOut)
      else
        tr.set parentIndex
          (parent_output (tr.getD leftIndex dOut).chaining_value
            (tr.getD rightIndex dOut).chaining_value keyWords flags))
    t

/-- The bottom-up level loop of `create_tree_from_leaves`, with structural
fuel (`current_level_start` halves each iteration, so `fuel =
leaf_start_index` suffices). -/
def buildLevelsLoop (keyWords : List Nat) (flags : Nat) :
    Nat → List Output → Nat → Nat → List Output
  | 0, t, _, _ => t
  | fuel + 1, t, currentLevelStart, nodesAtCurrentLevel =>
    if currentLevelStart ≤ 1 then t
    else
      let parentLevelStart := currentLevelStart / 2
      let nodesInParentLevel := (nodesAtCurrentLevel + 1) / 2
      let t2 := buildParentsRow keyWords flags t currentLevelStart nodesAtCurrentLevel
        parentLevelStart nodesInParentLevel
      buildLevelsLoop keyWords flags fuel t2 parentLevelStart nodesInParentLevel

/-- `BinaryMerkleTree::create_tree_from_leaves` from the source, acting on
the node vector. -/
def create_tree_from_leaves (keyWords : List Nat) (flags : Nat)
    (t : List Output) (leafStartIndex actualLeaves : Nat) (leaves : List Output) :
    List Output :=
  let t1 := writeLeavesLoop t leafStartIndex leaves
  if actualLeaves = 1 then t1.set 1 (t1.getD leafStartIndex dOut)
  else buildLevelsLoop keyWords flags leafStartIndex t1 leafStartIndex actualLeaves

/-- `BinaryMerkleTree::new_from_leaves` from the source. -/
def BinaryMerkleTree.new_from_leaves (leaves : List Output) (keyWords : List Nat)
    (flags : Nat) : BinaryMerkleTree :=
  let actualLeaves := leaves.length
  let numberOfLeaves := nextPowerOfTwo leaves.length
  let nodes : List Output := List.replicate (2 * numberOfLeaves)
    { input_chaining_value := keyWords
      block_words := List.replicate 16 0
      counter := 0
      block_len := 64
      flags := flags }
  { tree := create_tree_from_leaves keyWords flags nodes numberOfLeaves actualLeaves leaves
    actual_leaves := actualLeaves
    number_of_leaves := numberOfLeaves
    leaf_start_index := numberOfLeaves
    key_words := keyWords
    flags := flags }

/-- `BinaryMerkleTree::from_input` from the source. -/
def BinaryMerkleTree.from_input (input : List Nat) (keyWords : List Nat) (flags : Nat) :
    BinaryMerkleTree :=
  BinaryMerkleTree.new_from_leaves (process_input_to_chunks input keyWords flags) keyWords flags

/-- The upward propagation loop of `insert_leaf`, with structural fuel
(`nodes_in_this_level` at least halves each iteration, so
`fuel = actual_leaves` suffices). -/
def BinaryMerkleTree.insertLoop : Nat → BinaryMerkleTree → Nat → Nat → BinaryMerkleTree
  | 0, t, _, _ => t
  | fuel + 1, t, currentIndex, nodesInThisLevel =>
    if nodesInThisLevel ≤ 1 then t
    else
      let nodesParentLevel := (nodesInThisLevel + 1) / 2
      let q := t.get_tree_indices currentIndex
      let newNode :=
        if q.2.2.2 then
          parent_output (t.tree.getD q.1 dOut).chaining_value
            (t.tree.getD q.2.1 dOut).chaining_value t.key_words t.flags
        else t.tree.getD q.1 dOut
      let t2 := { t with tree := t.tree.set q.2.2.1 newNode }
      BinaryMerkleTree.insertLoop fuel t2 q.2.2.1 nodesParentLevel

/-- `BinaryMerkleTree::insert_leaf` from the source; `none` models the
`panic!` on an out-of-bounds leaf index. -/
def BinaryMerkleTree.insert_leaf (t : BinaryMerkleTree) (leafIndex : Nat)
    (leafOutput : Output) : Option BinaryMerkleTree :=
  if leafIndex ≥ t.actual_leaves then none
  else
    let realLeafIndex := leafIndex + t.leaf_start_index
    let t1 := { t with tree := t.tree.set realLeafIndex leafOutput }
    some (BinaryMerkleTree.insertLoop t.actual_leaves t1 realLeafIndex t.actual_leaves)

/-- The in-line `is_sorted` checker of `bulk_insert_leaves`, on a
non-empty list: adjacent pairs must be strictly ascending. -/
def strictlyAscending : List Nat → Bool
  | a :: b :: rest => a < b && strictlyAscending (b :: rest)
  | _ => true

/-- The leaf-writing loop of `bulk_insert_leaves` (over the zip of the
translated indices with the supplied outputs; `zip` truncates to the
shorter of the two, as Rust's `Iterator::zip` does). -/
def writeLeafHashes : List Output → List (Nat × Output) → List Output
  | t, [] => t
  | t, (i, o) :: rest => writeLeafHashes (t.set i o) rest

/-- The BFS queue loop of `bulk_insert_leaves`, with structural fuel.
Each iteration pops `current ≥ 2` and pushes `current / 2`, so the sum of
the queue entries strictly decreases; `fuel = sum + length + 1`
suffices. -/
def BinaryMerkleTree.bulkLoop : Nat → BinaryMerkleTree → List Nat → BinaryMerkleTree
  | 0, t, _ => t
  | fuel + 1, t, queue =>
    match queue with
    | [] => t
    | currentIndex :: rest =>
      if currentIndex = 1 then t
      else
        let siblingIndex := get_sibling_index currentIndex
        let rest2 :=
          match rest with
          | next :: tail => if next = siblingIndex then tail else rest
          | [] => rest
        let q := t.get_tree_indices currentIndex
        let newNode :=
          if q.2.2.2 then
            parent_output (t.tree.getD q.1 dOut).chaining_value
              (t.tree.getD q.2.1 dOut).chaining_value t.key_words t.flags
          else t.tree.getD q.1 dOut
        let t2 := { t with tree := t.tree.set q.2.2.1 newNode }
        BinaryMerkleTree.bulkLoop fuel t2 (rest2 ++ [q.2.2.1])

/-- `BinaryMerkleTree::bulk_insert_leaves` from the source.  The result is
`none` when the call panics (empty input: the `leaf_indices.len() - 1`
usize subtraction wraps and `is_sorted` probes `leaf_indices[0]` out of
bounds), `some (none, t)` when the sort check fails (the Rust `None`
return; no write precedes the check, so the tree is the unchanged input),
and `some (some (), t')` on success. -/
def BinaryMerkleTree.bulk_insert_leaves (t : BinaryMerkleTree)
    (leafIndices : List Nat) (leafHashes : List Output) :
    Option (Option Unit × BinaryMerkleTree) :=
  let leafOffset := t.num_leaves
  let idxs := leafIndices.map (fun i => i + leafOffset)
  if idxs.isEmpty then none
  else if strictlyAscending idxs = false then some (none, t)
  else
    let t1 := { t with tree := writeLeafHashes t.tree (idxs.zip leafHashes) }
    some (some (),
      BinaryMerkleTree.bulkLoop (idxs.foldl (· + ·) 0 + idxs.length + 1) t1 idxs)

/-! ## Specification-side definitions -/

/-- One level of the Merkle pairing: combine adjacent pairs with
`parent_output`, promote a trailing lone node unchanged. -/
def specStep (keyWords : List Nat) (flags : Nat) : List Output → List Output
  | a :: b :: rest =>
      parent_output a.chaining_value b.chaining_value keyWords flags
        :: specStep keyWords flags rest
  | l => l

/-- `specStep` iterated `k` times. -/
def stepIter (keyWords : List Nat) (flags : Nat) : Nat → List Output → List Output
  | 0, l => l
  | k + 1, l => stepIter keyWords flags k (specStep keyWords flags l)

/-- Number of `⌈·/2⌉` halvings needed to bring `n` down to at most 1
(fuel-based; `fuel = n` suffices). -/
def halvingsLoop : Nat → Nat → Nat
  | 0, _ => 0
  | fuel + 1, n => if n ≤ 1 then 0 else halvingsLoop fuel ((n + 1) / 2) + 1

/-- Number of halvings from `n` to 1: the height of the Merkle tree over
`n` leaves. -/
def halvings (n : Nat) : Nat := halvingsLoop n n

/-- The root `Output` of the level-by-level Merkle folding of a leaf
list. -/
def specRoot (keyWords : List Nat) (flags : Nat) (l : List Output) : Output :=
  (stepIter keyWords flags (halvings l.length) l).getD 0 dOut

/-- The chunk `Output` of `bytes` hashed at chunk counter `i`. -/
def chunk_output (keyWords : List Nat) (flags i : Nat) (bytes : List Nat) : Output :=
  ((ChunkState.new keyWords i flags).update bytes).output

/-- The leaf `Output`s of a byte sequence starting at chunk counter
`cnt`: one chunk output per `CHUNK_LEN`-sized piece, the last piece
possibly short or empty (fuel-based; `|B| ≤ CHUNK_LEN * fuel` with
`fuel ≥ 1` suffices). -/
def leavesFromLoop (keyWords : List Nat) (flags : Nat) : Nat → Nat → List Nat → List Output
  | 0, _, _ => []
  | fuel + 1, cnt, B =>
    if B.length ≤ CHUNK_LEN then [chunk_output keyWords flags cnt B]
    else chunk_output keyWords flags cnt (B.take CHUNK_LEN)
      :: leavesFromLoop keyWords flags fuel (cnt + 1) (B.drop CHUNK_LEN)

/-- The completed (non-final) chunk outputs of a byte sequence starting
at chunk counter `cnt`. -/
def initChunkOutputsLoop (keyWords : List Nat) (flags : Nat) :
    Nat → Nat → List Nat → List Output
  | 0, _, _ => []
  | fuel + 1, cnt, B =>
    if B.length ≤ CHUNK_LEN then []
    else chunk_output keyWords flags cnt (B.take CHUNK_LEN)
      :: initChunkOutputsLoop keyWords flags fuel (cnt + 1) (B.drop CHUNK_LEN)

/-- The `ChunkState` accumulating the final piece of a byte sequence. -/
def lastChunkStateLoop (keyWords : List Nat) (flags : Nat) :
    Nat → Nat → List Nat → ChunkState
  | 0, cnt, _ => ChunkState.new keyWords cnt flags
  | fuel + 1, cnt, B =>
    if B.length ≤ CHUNK_LEN then (ChunkState.new keyWords cnt flags).update B
    else lastChunkStateLoop keyWords flags fuel (cnt + 1) (B.drop CHUNK_LEN)

/-- The CV stack of the streaming hasher after absorbing the completed
chunks of `B`, starting from `stack` with `cnt` chunks already
absorbed. -/
def hasherStackLoop (keyWords : List Nat) (flags : Nat) :
    Nat → Nat → List (List Nat) → List Nat → List (List Nat)
  | 0, _, stack, _ => stack
  | fuel + 1, cnt, stack, B =>
    if B.length ≤ CHUNK_LEN then stack
    else hasherStackLoop keyWords flags fuel (cnt + 1)
      (addChunkCVLoop keyWords flags (cnt + 1) stack
        ((chunk_output keyWords flags cnt (B.take CHUNK_LEN)).chaining_value) (cnt + 1))
      (B.drop CHUNK_LEN)

/-- The leaf `Output`s of a byte sequence (one empty chunk for empty
input). -/
def leavesOfInput (keyWords : List Nat) (flags : Nat) (B : List Nat) : List Output :=
  leavesFromLoop keyWords flags (B.length + 1) 0 B

/-- The largest power of two strictly below `n` (for `n ≥ 2`); the BLAKE3
left-subtree size. -/
def prevPow2 (n : Nat) : Nat := nextPowerOfTwo n / 2

/-- The BLAKE3 recursive tree over a list of chunk outputs: split at the
largest power of two below the length (fuel-based; `fuel = |l|`
suffices). -/
def b3Loop (keyWords : List Nat) (flags : Nat) : Nat → List Output → Output
  | 0, l => l.getD 0 dOut
  | fuel + 1, l =>
    if l.length ≤ 1 then l.getD 0 dOut
    else parent_output
      (b3Loop keyWords flags fuel (l.take (prevPow2 l.length))).chaining_value
      (b3Loop keyWords flags fuel (l.drop (prevPow2 l.length))).chaining_value
      keyWords flags

/-- The BLAKE3 recursive tree over a list of chunk outputs. -/
def b3 (keyWords : List Nat) (flags : Nat) (l : List Output) : Output :=
  b3Loop keyWords flags l.length l

/-- `Blake3Hasher::finalize`'s right-edge fold of the CV stack (top of
the stack first). -/
def stackFinalize (keyWords : List Nat) (flags : Nat)
    (stack : List (List Nat)) (o : Output) : Output :=
  stack.foldl (fun output cv => parent_output cv output.chaining_value keyWords flags) o

/-- The CV stack discipline: the stack (head = top) partitions the list
of completed chunk outputs into segments of strictly increasing
power-of-two sizes, all at least `2^e`, each entry being the chaining
value of the BLAKE3 tree over its segment. -/
def SegStack (keyWords : List Nat) (flags : Nat) :
    List (List Nat) → List Output → Nat → Prop
  | [], l, _ => l = []
  | cv :: rest, l, e => ∃ l1 seg j, e ≤ j ∧ l = l1 ++ seg ∧ seg.length = 2 ^ j ∧
      cv = (b3 keyWords flags seg).chaining_value ∧
      SegStack keyWords flags rest l1 (j + 1)

/-- The number of chunks of a byte sequence (1 for empty input). -/
def numChunks (B : List Nat) : Nat := (leavesOfInput IV 0 B).length

/-- The Merkle-tree hash of the claims: `from_input(B, IV, 0).root()`
written through `root_output_bytes` into a 32-byte destination. -/
def merkleHash (B : List Nat) : List Nat :=
  (BinaryMerkleTree.from_input B IV 0).root.root_output_bytes 32

/-- The canonical BLAKE3 hash oracle of the claims: the streaming
`Blake3Hasher` updated with `B` and finalized into 32 bytes. -/
def blake3Hash (B : List Nat) : List Nat :=
  (Blake3Hasher.new.update B).finalize 32

/-- Apply a list of (index, output) leaf replacements to a leaf list. -/
def setLeaves (L : List Output) : List (Nat × Output) → List Output
  | [] => L
  | (i, o) :: rest => setLeaves (L.set i o) rest

/-- Splice a replacement chunk into a byte sequence: bytes of chunks
`0..i-1`, then the replacement, then the bytes of chunks `i+1..`. -/
def spliceChunk (B : List Nat) (i : Nat) (repl : List Nat) : List Nat :=
  B.take (CHUNK_LEN * i) ++ repl ++ B.drop (CHUNK_LEN * (i + 1))

/-- A concrete 1025-byte input (two chunks) used by counterexamples. -/
def cexBytes : List Nat := (List.range 1025).map (fun i => i % 256)

/-- A tiny concrete two-leaf tree used by counterexamples. -/
def cexTreeSmall : BinaryMerkleTree :=
  BinaryMerkleTree.new_from_leaves [chunk_output IV 0 0 [], chunk_output IV 0 1 []] IV 0

/-- The live-slot specification of the tree vector: for each level `k`
(0 = leaves, `halvings n` = root), the populated slots
`[2^(τ-k), 2^(τ-k) + pop_k)` hold the `k`-fold `specStep` of the leaf
list. -/
def LiveSpec (kw : List Nat) (f : Nat) (L : List Output) (tr : List Output) : Prop :=
  tr.length = 2 * 2 ^ halvings L.length ∧
  ∀ k j, k ≤ halvings L.length → j < ceilHalfIter L.length k →
    tr.getD (2 ^ (halvings L.length - k) + j) dOut = (stepIter kw f k L).getD j dOut

/-- Well-formedness of a `BinaryMerkleTree` value relative to its leaf
list: the bookkeeping fields are consistent and the node vector satisfies
`LiveSpec`. -/
def TreeWF (kw : List Nat) (f : Nat) (L : List Output) (t : BinaryMerkleTree) : Prop :=
  t.actual_leaves = L.length ∧
  t.number_of_leaves = 2 ^ halvings L.length ∧
  t.leaf_start_index = 2 ^ halvings L.length ∧
  t.key_words = kw ∧ t.flags = f ∧
  LiveSpec kw f L t.tree

/-- Three cheap concrete chunk outputs used as leaves in witnesses. -/
def cexLeaves3 : List Output :=
  [chunk_output IV 0 0 [1], chunk_output IV 0 1 [2], chunk_output IV 0 2 [3]]

/-- One upward step shared by `insert_leaf` and `bulk_insert_leaves`:
recompute the parent slot of `c` (promotion or parent combination). -/
def insertStepTree (t : BinaryMerkleTree) (c : Nat) : BinaryMerkleTree :=
  let q := t.get_tree_indices c
  let newNode :=
    if q.2.2.2 then
      parent_output (t.tree.getD q.1 dOut).chaining_value
        (t.tree.getD q.2.1 dOut).chaining_value t.key_words t.flags
    else t.tree.getD q.1 dOut
  { t with tree := t.tree.set q.2.2.1 newNode }

/-- Successive `insert_leaf` calls, stopping at the first panic. -/
def insertSeq (t : BinaryMerkleTree) : List (Nat × Output) → Option BinaryMerkleTree
  | [] => some t
  | (i, o) :: rest =>
    match t.insert_leaf i o with
    | none => none
    | some t2 => insertSeq t2 rest

/-- Whether an `Output`'s flags have the `ROOT` bit (bit 3, `ROOT = 8`)
set. -/
def hasRootBit (o : Output) : Bool := Nat.testBit o.flags 3

/-- A single mutating tree operation: an `insert_leaf` call or a
`bulk_insert_leaves` call. -/
inductive TreeOp where
  | ins : Nat → Output → TreeOp
  | bulk : List Nat → List Output → TreeOp
deriving DecidableEq

/-- The `Output` values an operation supplies to the tree. -/
def opOutputs : TreeOp → List Output
  | TreeOp.ins _ o => [o]
  | TreeOp.bulk _ os => os

/-- Apply one operation; `none` when the call panics or the bulk call does
not return the success value. -/
def applyOp (t : BinaryMerkleTree) : TreeOp → Option BinaryMerkleTree
  | TreeOp.ins i o => t.insert_leaf i o
  | TreeOp.bulk idxs os =>
    match t.bulk_insert_leaves idxs os with
    | some (some _, t2) => some t2
    | _ => none

/-- Apply a sequence of operations, requiring every one to succeed. -/
def applySeq (t : BinaryMerkleTree) : List TreeOp → Option BinaryMerkleTree
  | [] => some t
  | op :: rest =>
    match applyOp t op with
    | none => none
    | some t2 => applySeq t2 rest

/-! ## Theorems -/

theorem strictlyAscending_iff_chain : ∀ l : List Nat,
    strictlyAscending l = true ↔ l.Chain' (· < ·) := by
  intro l
  induction l with
  | nil => simp [strictlyAscending]
  | cons a tail ih =>
    cases tail with
    | nil => simp [strictlyAscending]
    | cons b rest =>
      simp only [strictlyAscending, Bool.and_eq_true, decide_eq_true_eq,
        List.chain'_cons, ih]

theorem chain_lt_map_add (P : Nat) : ∀ l : List Nat,
    (l.map (fun i => i + P)).Chain' (· < ·) ↔ l.Chain' (· < ·) := by
  intro l
  induction l with
  | nil => simp
  | cons a tail ih =>
    cases tail with
    | nil => simp
    | cons b rest =>
      simp only [List.map_cons, List.chain'_cons] at *
      constructor
      · exact fun h => ⟨by omega, ih.mp h.2⟩
      · exact fun h => ⟨by omega, ih.mpr h.2⟩

theorem map_add_ne_nil (P : Nat) (l : List Nat) (h : l ≠ []) :
    (l.map (fun i => i + P)).isEmpty = false := by
  cases l with
  | nil => exact absurd rfl h
  | cons a tail => rfl

/-- C6: the claim (and the spec) require an empty bulk input to succeed as
a no-op, but the source's `is_sorted` computes `leaf_indices.len() - 1`,
which wraps around for a zero-length input, and the check then probes
`leaf_indices[0]` out of bounds: the call panics instead of returning
success.  The embedding models that panic as `none`. -/
theorem claim_C6_bulk_empty_input_panics (t : BinaryMerkleTree) (outs : List Output) :
    t.bulk_insert_leaves [] outs = none := rfl

theorem updateLoop_len : ∀ (fuel : Nat) (s : ChunkState) (input : List Nat),
    input.length ≤ fuel →
    s.block.length = BLOCK_LEN → s.block_len ≤ BLOCK_LEN →
    s.len + input.length ≤ CHUNK_LEN →
    (ChunkState.updateLoop fuel s input).len = s.len + input.length ∧
    (ChunkState.updateLoop fuel s input).block.length = BLOCK_LEN ∧
    (ChunkState.updateLoop fuel s input).block_len ≤ BLOCK_LEN := by
  intro fuel
  induction fuel with
  | zero =>
    intro s input hfuel hb hbl _
    have : input = [] := List.eq_nil_of_length_eq_zero (Nat.le_zero.mp hfuel)
    subst this
    simp [ChunkState.updateLoop, hb, hbl]
  | succ fuel ih =>
    intro s input hfuel hb hbl hsum
    by_cases hin : input.isEmpty
    · have : input = [] := List.isEmpty_iff.mp hin
      subst this
      simp [ChunkState.updateLoop, hb, hbl]
    · rw [ChunkState.updateLoop, if_neg (by simp [hin])]
      have hinlen : 0 < input.length := by
        cases input with
        | nil => simp at hin
        | cons a l => simp
      -- the (possibly) compressed state s1
      set s1 := if s.block_len = BLOCK_LEN then s.compressStep else s with hs1
      have hbc : BLOCK_LEN * s.blocks_compressed + s.block_len ≤ CHUNK_LEN := by
        have := hsum; unfold ChunkState.len at this; omega
      have hs1props : s1.len = s.len ∧ s1.block.length = BLOCK_LEN ∧
          s1.block_len < BLOCK_LEN := by
        by_cases hfull : s.block_len = BLOCK_LEN
        · rw [hs1, if_pos hfull]
          have hbcsmall : s.blocks_compressed + 1 < 256 := by
            unfold BLOCK_LEN at hbc hfull
            unfold CHUNK_LEN at hbc
            omega
          constructor
          · unfold ChunkState.len ChunkState.compressStep
            simp only [Nat.mod_eq_of_lt hbcsmall]
            unfold BLOCK_LEN at hfull ⊢
            omega
          · constructor
            · simp [ChunkState.compressStep]
            · simp [ChunkState.compressStep, BLOCK_LEN]
        · rw [hs1, if_neg hfull]
          exact ⟨rfl, hb, lt_of_le_of_ne hbl hfull⟩
      obtain ⟨hlen1, hb1, hbl1⟩ := hs1props
      have hwant : 0 < BLOCK_LEN - s1.block_len := by omega
      have htake : 0 < min (BLOCK_LEN - s1.block_len) input.length :=
        lt_min hwant hinlen
      rw [if_neg (Nat.pos_iff_ne_zero.mp htake)]
      set take := min (BLOCK_LEN - s1.block_len) input.length with htakedef
      have htake64 : s1.block_len + take ≤ BLOCK_LEN := by
        have : take ≤ BLOCK_LEN - s1.block_len := Nat.min_le_left _ _
        omega
      have htakein : take ≤ input.length := Nat.min_le_right _ _
      have hmod : (s1.block_len + take) % 256 = s1.block_len + take := by
        apply Nat.mod_eq_of_lt
        unfold BLOCK_LEN at htake64
        omega
      have hblock2 : (s1.block.take s1.block_len ++ input.take take
          ++ s1.block.drop (s1.block_len + take)).length = BLOCK_LEN := by
        simp only [List.length_append, List.length_take, List.length_drop, hb1]
        rw [min_eq_left (by omega), min_eq_left (by omega)]
        omega
      have ihres := ih
        { s1 with
          block := s1.block.take s1.block_len ++ input.take take
                    ++ s1.block.drop (s1.block_len + take)
          block_len := (s1.block_len + take) % 256 }
        (input.drop take)
        (by simp only [List.length_drop]; omega)
        hblock2
        (by simp only [hmod]; exact htake64)
        (by
          unfold ChunkState.len at *
          simp only [hmod, List.length_drop]
          omega)
      refine ⟨?_, ihres.2.1, ihres.2.2⟩
      rw [ihres.1]
      unfold ChunkState.len at *
      simp only [hmod, List.length_drop]
      omega

theorem update_len (s : ChunkState) (input : List Nat)
    (hb : s.block.length = BLOCK_LEN) (hbl : s.block_len ≤ BLOCK_LEN)
    (hsum : s.len + input.length ≤ CHUNK_LEN) :
    (s.update input).len = s.len + input.length ∧
    (s.update input).block.length = BLOCK_LEN ∧
    (s.update input).block_len ≤ BLOCK_LEN :=
  updateLoop_len input.length s input le_rfl hb hbl hsum

set_option maxRecDepth 100000 in
/-- C9 counterexample: feeding 1025 bytes into a fresh `ChunkState` in a
single `update` call drives `BLOCK_LEN * blocks_compressed + block_len` to
1025 > `CHUNK_LEN`: nothing in `update` caps the accumulated length, so
the claimed invariant fails for arbitrary inputs. -/
theorem claim_C9_counterexample :
    ¬ (BLOCK_LEN *
        ((ChunkState.new IV 0 0).update (List.replicate 1025 0)).blocks_compressed
        + ((ChunkState.new IV 0 0).update (List.replicate 1025 0)).block_len
        ≤ CHUNK_LEN) := by decide

/-- C9 amended: the invariant `BLOCK_LEN * blocks_compressed + block_len ≤
CHUNK_LEN` holds for a fresh `ChunkState` and after any sequence of
`update` calls whose total byte count is at most `CHUNK_LEN` — the bound
under which the two in-repo callers (`Blake3Hasher::update` and
`process_input_to_chunks`) always stay. -/
theorem claim_C9_chunkstate_len_invariant (keyWords : List Nat)
    (counter flags : Nat) (inputs : List (List Nat))
    (hsum : (inputs.map List.length).sum ≤ CHUNK_LEN) :
    BLOCK_LEN * (inputs.foldl ChunkState.update
        (ChunkState.new keyWords counter flags)).blocks_compressed
      + (inputs.foldl ChunkState.update
          (ChunkState.new keyWords counter flags)).block_len ≤ CHUNK_LEN := by
  have main : ∀ (l : List (List Nat)) (s : ChunkState),
      s.block.length = BLOCK_LEN → s.block_len ≤ BLOCK_LEN →
      s.len + (l.map List.length).sum ≤ CHUNK_LEN →
      (l.foldl ChunkState.update s).len = s.len + (l.map List.length).sum ∧
      (l.foldl ChunkState.update s).block.length = BLOCK_LEN ∧
      (l.foldl ChunkState.update s).block_len ≤ BLOCK_LEN := by
    intro l
    induction l with
    | nil => intro s hb hbl _; exact ⟨by simp, hb, hbl⟩
    | cons x rest ih =>
      intro s hb hbl hsum2
      simp only [List.map_cons, List.sum_cons, List.foldl_cons] at hsum2 ⊢
      obtain ⟨h1, h2, h3⟩ := update_len s x hb hbl (by omega)
      obtain ⟨g1, g2, g3⟩ := ih (s.update x) h2 h3 (by omega)
      exact ⟨by rw [g1, h1]; omega, g2, g3⟩
  have hfresh : (ChunkState.new keyWords counter flags).len = 0 := by
    simp [ChunkState.new, ChunkState.len]
  obtain ⟨h1, _, _⟩ := main inputs (ChunkState.new keyWords counter flags)
    (by simp [ChunkState.new]) (by simp [ChunkState.new]) (by rw [hfresh]; omega)
  show (inputs.foldl ChunkState.update (ChunkState.new keyWords counter flags)).len
      ≤ CHUNK_LEN
  rw [h1, hfresh]
  omega

theorem claim_C9_witness :
    (([ [0, 1, 2] ] : List (List Nat)).map List.length).sum ≤ CHUNK_LEN ∧
    BLOCK_LEN * (([ [0, 1, 2] ] : List (List Nat)).foldl ChunkState.update
        (ChunkState.new IV 0 0)).blocks_compressed
      + (([ [0, 1, 2] ] : List (List Nat)).foldl ChunkState.update
          (ChunkState.new IV 0 0)).block_len ≤ CHUNK_LEN :=
  ⟨by decide, claim_C9_chunkstate_len_invariant IV 0 0 [[0, 1, 2]] (by decide)⟩

theorem ceilHalfIter_succ_outer : ∀ (k n : Nat),
    ceilHalfIter n (k + 1) = (ceilHalfIter n k + 1) / 2 := by
  intro k
  induction k with
  | zero => intro n; rfl
  | succ k ih =>
    intro n
    show ceilHalfIter ((n + 1) / 2) (k + 1) = _
    rw [ih]
    rfl

theorem ceilHalfIter_le_iff : ∀ (k n m : Nat),
    ceilHalfIter n k ≤ m ↔ n ≤ m * 2 ^ k := by
  intro k
  induction k with
  | zero => intro n m; simp [ceilHalfIter]
  | succ k ih =>
    intro n m
    show ceilHalfIter ((n + 1) / 2) k ≤ m ↔ _
    have hq : m * 2 ^ (k + 1) = m * 2 ^ k * 2 := by ring
    rw [ih, hq]
    omega

theorem ceilHalfIter_pos : ∀ (k n : Nat), 1 ≤ n → 1 ≤ ceilHalfIter n k := by
  intro k
  induction k with
  | zero => intro n h; exact h
  | succ k ih => intro n h; exact ih ((n + 1) / 2) (by omega)

theorem halvingsLoop_spec : ∀ (fuel n : Nat), n ≤ fuel + 1 →
    n ≤ 2 ^ halvingsLoop fuel n ∧ (2 ≤ n → 2 ^ halvingsLoop fuel n < 2 * n) := by
  intro fuel
  induction fuel with
  | zero =>
    intro n hn
    interval_cases n <;> simp [halvingsLoop]
  | succ fuel ih =>
    intro n hn
    by_cases h1 : n ≤ 1
    · simp [halvingsLoop, h1]; omega
    · rw [halvingsLoop, if_neg h1]
      have hm : (n + 1) / 2 ≤ fuel + 1 := by omega
      obtain ⟨ihle, ihlt⟩ := ih ((n + 1) / 2) hm
      constructor
      · rw [pow_succ]; omega
      · intro _
        by_cases hm2 : 2 ≤ (n + 1) / 2
        · have hlt := ihlt hm2
          rw [pow_succ]
          rcases Nat.eq_zero_or_pos (halvingsLoop fuel ((n + 1) / 2)) with h0 | hpos
          · rw [h0]; omega
          · obtain ⟨j, hj⟩ := Nat.exists_eq_add_of_le hpos
            by_cases hodd : n % 2 = 1
            · have heven : 2 ^ halvingsLoop fuel ((n + 1) / 2) % 2 = 0 := by
                rw [hj, show Nat.succ 0 + j = j + 1 by omega, pow_succ]
                omega
              omega
            · omega
        · have : halvingsLoop fuel ((n + 1) / 2) = 0 := by
            have : (n + 1) / 2 ≤ 1 := by omega
            cases fuel with
            | zero => rfl
            | succ f => rw [halvingsLoop, if_pos this]
          rw [this, pow_succ, pow_zero]
          omega

theorem le_two_pow_halvings (n : Nat) : n ≤ 2 ^ halvings n :=
  (halvingsLoop_spec n n (by omega)).1

theorem two_pow_halvings_lt (n : Nat) (h : 2 ≤ n) : 2 ^ halvings n < 2 * n :=
  (halvingsLoop_spec n n (by omega)).2 h

theorem halvings_of_le_one (n : Nat) (h : n ≤ 1) : halvings n = 0 := by
  interval_cases n <;> rfl

theorem nextPow2Loop_pow : ∀ (fuel n p : Nat), (∃ j, p = 2 ^ j) →
    ∃ k, nextPow2Loop n fuel p = 2 ^ k := by
  intro fuel
  induction fuel with
  | zero => intro n p hp; exact hp
  | succ fuel ih =>
    intro n p hp
    rw [nextPow2Loop]
    by_cases h : n ≤ p
    · rw [if_pos h]; exact hp
    · rw [if_neg h]
      obtain ⟨j, hj⟩ := hp
      exact ih n (2 * p) ⟨j + 1, by rw [hj, pow_succ]; ring⟩

theorem nextPow2Loop_ge : ∀ (fuel n p : Nat), n ≤ p * 2 ^ fuel →
    n ≤ nextPow2Loop n fuel p := by
  intro fuel
  induction fuel with
  | zero => intro n p h; simpa using h
  | succ fuel ih =>
    intro n p h
    rw [nextPow2Loop]
    by_cases hle : n ≤ p
    · rw [if_pos hle]; exact hle
    · rw [if_neg hle]
      exact ih n (2 * p) (by rw [pow_succ] at h; nlinarith)

theorem nextPow2Loop_lt : ∀ (fuel n p : Nat), 0 < p → p < 2 * n →
    nextPow2Loop n fuel p < 2 * n := by
  intro fuel
  induction fuel with
  | zero => intro n p _ h; exact h
  | succ fuel ih =>
    intro n p hp h
    rw [nextPow2Loop]
    by_cases hle : n ≤ p
    · rw [if_pos hle]; exact h
    · rw [if_neg hle]
      exact ih n (2 * p) (by omega) (by omega)

theorem nextPowerOfTwo_eq_pow_halvings (n : Nat) (hn : 1 ≤ n) :
    nextPowerOfTwo n = 2 ^ halvings n := by
  obtain ⟨τ, hτ⟩ := nextPow2Loop_pow n n 1 ⟨0, rfl⟩
  have hge : n ≤ nextPowerOfTwo n :=
    nextPow2Loop_ge n n 1 (by simpa using (Nat.lt_two_pow n).le)
  have hlt : nextPowerOfTwo n < 2 * n :=
    nextPow2Loop_lt n n 1 one_pos (by omega)
  show nextPow2Loop n n 1 = _
  rw [show nextPow2Loop n n 1 = nextPowerOfTwo n from rfl] at *
  rw [hτ] at hge hlt ⊢
  have h1 : n ≤ 2 ^ halvings n := le_two_pow_halvings n
  have h2 : 2 ^ halvings n < 2 * n := by
    rcases Nat.lt_or_ge n 2 with h | h
    · have : n = 1 := by omega
      subst this
      rw [halvings_of_le_one 1 le_rfl]
      norm_num
    · exact two_pow_halvings_lt n h
  congr 1
  have hle1 : τ ≤ halvings n := by
    by_contra hcon
    push_neg at hcon
    have : 2 ^ (halvings n + 1) ≤ 2 ^ τ := Nat.pow_le_pow_right (by norm_num) hcon
    rw [pow_succ] at this
    omega
  have hle2 : halvings n ≤ τ := by
    by_contra hcon
    push_neg at hcon
    have : 2 ^ (τ + 1) ≤ 2 ^ halvings n := Nat.pow_le_pow_right (by norm_num) hcon
    rw [pow_succ] at this
    omega
  omega

theorem specStep_length (kw : List Nat) (f : Nat) : ∀ l : List Output,
    (specStep kw f l).length = (l.length + 1) / 2 := by
  intro l
  match l with
  | [] => rfl
  | [a] => simp [specStep]
  | a :: b :: rest =>
    have hrec := specStep_length kw f rest
    simp only [specStep, List.length_cons, hrec]
    omega
termination_by l => l.length

theorem specStep_getD (kw : List Nat) (f : Nat) : ∀ (l : List Output) (j : Nat),
    2 * j < l.length →
    (specStep kw f l).getD j dOut =
      if 2 * j + 1 < l.length then
        parent_output (l.getD (2 * j) dOut).chaining_value
          (l.getD (2 * j + 1) dOut).chaining_value kw f
      else l.getD (2 * j) dOut := by
  intro l
  match l with
  | [] => intro j hj; simp at hj
  | [a] =>
    intro j hj
    simp only [List.length_cons, List.length_nil] at hj
    have : j = 0 := by omega
    subst this
    simp [specStep]
  | a :: b :: rest =>
    intro j hj
    cases j with
    | zero =>
      rw [if_pos (by simp only [List.length_cons]; omega)]
      simp [specStep]
    | succ j' =>
      have h' : 2 * j' < rest.length := by
        simp only [List.length_cons] at hj; omega
      have hrec := specStep_getD kw f rest j' h'
      have hL : (specStep kw f (a :: b :: rest)).getD (j' + 1) dOut
          = (specStep kw f rest).getD j' dOut := by simp [specStep]
      rw [hL, hrec]
      have e1 : (a :: b :: rest).getD (2 * (j' + 1)) dOut = rest.getD (2 * j') dOut := by
        have h2 : 2 * (j' + 1) = 2 * j' + 1 + 1 := by ring
        rw [h2]
        simp [List.getD_cons_succ]
      have e2 : (a :: b :: rest).getD (2 * (j' + 1) + 1) dOut
          = rest.getD (2 * j' + 1) dOut := by
        have h2 : 2 * (j' + 1) + 1 = (2 * j' + 1) + 1 + 1 := by ring
        rw [h2]
        simp [List.getD_cons_succ]
      simp only [List.length_cons]
      by_cases hc : 2 * j' + 1 < rest.length
      · rw [if_pos hc, if_pos (by omega), e1, e2]
      · rw [if_neg hc, if_neg (by omega), e1]
termination_by l => l.length
decreasing_by simp only [List.length_cons]; omega

theorem specStep_getD_oob (kw : List Nat) (f : Nat) (l : List Output) (j : Nat)
    (hj : l.length ≤ 2 * j) : (specStep kw f l).getD j dOut = dOut := by
  apply List.getD_eq_default
  rw [specStep_length]
  omega

theorem stepIter_succ_outer (kw : List Nat) (f : Nat) : ∀ (k : Nat) (l : List Output),
    stepIter kw f (k + 1) l = specStep kw f (stepIter kw f k l) := by
  intro k
  induction k with
  | zero => intro l; rfl
  | succ k ih =>
    intro l
    show stepIter kw f (k + 1) (specStep kw f l) = _
    rw [ih]
    rfl

theorem stepIter_length (kw : List Nat) (f : Nat) : ∀ (k : Nat) (l : List Output),
    (stepIter kw f k l).length = ceilHalfIter l.length k := by
  intro k
  induction k with
  | zero => intro l; rfl
  | succ k ih =>
    intro l
    show (stepIter kw f k (specStep kw f l)).length = _
    rw [ih, specStep_length]
    rfl

theorem specStep_congr (kw : List Nat) (f : Nat) (l l' : List Output) (S : List Nat)
    (hlen : l.length = l'.length)
    (h : ∀ j, ¬ j ∈ S → l.getD j dOut = l'.getD j dOut) :
    ∀ j, ¬ j ∈ S.map (fun i => i / 2) →
      (specStep kw f l).getD j dOut = (specStep kw f l').getD j dOut := by
  intro j hj
  by_cases hr : 2 * j < l.length
  · have h2j : ¬ (2 * j) ∈ S := by
      intro hmem
      exact hj (List.mem_map.mpr ⟨2 * j, hmem, by omega⟩)
    have h2j1 : ¬ (2 * j + 1) ∈ S := by
      intro hmem
      exact hj (List.mem_map.mpr ⟨2 * j + 1, hmem, by omega⟩)
    rw [specStep_getD kw f l j hr, specStep_getD kw f l' j (hlen ▸ hr), hlen,
      h _ h2j, h _ h2j1]
  · rw [specStep_getD_oob kw f l j (by omega),
      specStep_getD_oob kw f l' j (by omega : l'.length ≤ 2 * j)]

theorem stepIter_congr (kw : List Nat) (f : Nat) : ∀ (k : Nat) (l l' : List Output)
    (S : List Nat), l.length = l'.length →
    (∀ j, ¬ j ∈ S → l.getD j dOut = l'.getD j dOut) →
    ∀ j, ¬ j ∈ S.map (fun i => i / 2 ^ k) →
      (stepIter kw f k l).getD j dOut = (stepIter kw f k l').getD j dOut := by
  intro k
  induction k with
  | zero =>
    intro l l' S hlen h j hj
    apply h
    intro hmem
    exact hj (List.mem_map.mpr ⟨j, hmem, by simp⟩)
  | succ k ih =>
    intro l l' S hlen h j hj
    show (stepIter kw f k (specStep kw f l)).getD j dOut = _
    apply ih (specStep kw f l) (specStep kw f l') (S.map (fun i => i / 2))
    · rw [specStep_length, specStep_length, hlen]
    · exact specStep_congr kw f l l' S hlen h
    · intro hmem
      apply hj
      rw [List.map_map] at hmem
      rw [List.mem_map] at hmem ⊢
      obtain ⟨i, hiS, hieq⟩ := hmem
      refine ⟨i, hiS, ?_⟩
      simp only [Function.comp_apply] at hieq
      rw [← hieq, Nat.div_div_eq_div_mul, pow_succ, Nat.mul_comm]

theorem xor_one_eq (c : Nat) : c ^^^ 1 = if c % 2 = 0 then c + 1 else c - 1 := by
  by_cases h : c % 2 = 0
  · rw [if_pos h]
    have hc : c = 2 * (c / 2) := by omega
    rw [hc]
    have h1 : (2 * (c / 2)) ^^^ 1 = Nat.bitwise Bool.xor (2 * (c / 2)) 1 := rfl
    rw [h1, Nat.bitwise]
    by_cases h0 : 2 * (c / 2) = 0
    · simp [h0]
    · simp only [if_neg h0]
      norm_num
      omega
  · rw [if_neg h]
    have hc : c = 2 * (c / 2) + 1 := by omega
    rw [hc]
    have h1 : (2 * (c / 2) + 1) ^^^ 1 = Nat.bitwise Bool.xor (2 * (c / 2) + 1) 1 := rfl
    rw [h1, Nat.bitwise]
    norm_num
    rw [if_neg (by omega)]
    omega

theorem get_left_right_eq (c : Nat) :
    get_left_and_right_node_indices_from_index c = (2 * (c / 2), 2 * (c / 2) + 1) := by
  unfold get_left_and_right_node_indices_from_index get_sibling_index is_left
  rw [xor_one_eq]
  by_cases h : c % 2 = 0
  · rw [if_pos h]
    have h1 : ¬ ((c + 1) % 2 = 0) := by omega
    simp only [h1, h, decide_True, decide_False]
    norm_num
    omega
  · rw [if_neg h]
    have h1 : (c - 1) % 2 = 0 := by omega
    simp only [h1, h, decide_True, decide_False]
    norm_num
    constructor <;> omega

theorem levelSearchLoop_spec : ∀ (d fuel ls c level nodes : Nat), d ≤ fuel →
    ls >>> (level + d) ≤ c →
    (∀ j, j < d → c < ls >>> (level + j)) →
    (∀ j, j < d → 2 ≤ ceilHalfIter nodes j) →
    levelSearchLoop ls c fuel level nodes = level + d := by
  intro d
  induction d with
  | zero =>
    intro fuel ls c level nodes _ hd _ _
    cases fuel with
    | zero => rfl
    | succ f =>
      rw [levelSearchLoop]
      by_cases hn : nodes ≤ 1
      · rw [if_pos hn]; omega
      · rw [if_neg hn, if_pos (by simpa using hd)]; omega
  | succ d ih =>
    intro fuel ls c level nodes hfuel hd hmin hpop
    cases fuel with
    | zero => omega
    | succ f =>
      rw [levelSearchLoop]
      have hn2 : 2 ≤ nodes := hpop 0 (by omega)
      rw [if_neg (by omega)]
      have h0 : c < ls >>> level := by
        have := hmin 0 (by omega)
        simpa using this
      rw [if_neg (by omega)]
      have := ih f ls c (level + 1) ((nodes + 1) / 2) (by omega)
        (by rw [show level + 1 + d = level + (d + 1) by omega]; exact hd)
        (fun j hj => by
          rw [show level + 1 + j = level + (j + 1) by omega]
          exact hmin (j + 1) (by omega))
        (fun j hj => hpop (j + 1) (by omega))
      rw [this]
      omega

theorem halvingsLoop_le : ∀ (fuel n : Nat), halvingsLoop fuel n ≤ fuel := by
  intro fuel
  induction fuel with
  | zero => intro n; exact le_rfl
  | succ f ih =>
    intro n
    rw [halvingsLoop]
    by_cases h : n ≤ 1
    · rw [if_pos h]; omega
    · rw [if_neg h]
      have := ih ((n + 1) / 2)
      omega

theorem halvings_le_self (n : Nat) : halvings n ≤ n := halvingsLoop_le n n

theorem pow_shiftRight_le (τ j : Nat) (hj : j ≤ τ) : (2 ^ τ : Nat) >>> j = 2 ^ (τ - j) := by
  rw [Nat.shiftRight_eq_div_pow, Nat.pow_div hj (by norm_num)]

theorem two_le_ceilHalfIter (n τ j : Nat) (hτ : halvings n = τ) (hj : j < τ) :
    2 ≤ ceilHalfIter n j := by
  have hn2 : 2 ≤ n := by
    by_contra hcon
    push_neg at hcon
    have := halvings_of_le_one n (by omega)
    omega
  have hlt := two_pow_halvings_lt n hn2
  rw [hτ] at hlt
  by_contra hcon
  push_neg at hcon
  have h1 : ceilHalfIter n j ≤ 1 := by omega
  rw [ceilHalfIter_le_iff] at h1
  have h2 : (2 : Nat) ^ (j + 1) ≤ 2 ^ τ := Nat.pow_le_pow_right (by norm_num) (by omega)
  rw [pow_succ] at h2
  simp only [one_mul] at h1
  nlinarith [Nat.pow_le_pow_right (show 1 ≤ 2 by norm_num) (show j ≤ τ - 1 by omega),
    Nat.pow_le_pow_right (show 1 ≤ 2 by norm_num) (Nat.le_refl τ)]

theorem get_tree_indices_spec (t : BinaryMerkleTree) (k c : Nat)
    (hP : t.leaf_start_index = 2 ^ halvings t.actual_leaves)
    (hk : k ≤ halvings t.actual_leaves)
    (hlow : 2 ^ (halvings t.actual_leaves - k) ≤ c)
    (hhigh : c < 2 * 2 ^ (halvings t.actual_leaves - k)) :
    t.get_tree_indices c =
      (2 * (c / 2), 2 * (c / 2) + 1, c / 2,
        decide (2 * (c / 2) + 1 <
          2 ^ (halvings t.actual_leaves - k) + ceilHalfIter t.actual_leaves k)) := by
  set n := t.actual_leaves with hn
  set τ := halvings n with hτ
  have hlevel :
      (if c ≥ t.leaf_start_index then 0
        else levelSearchLoop t.leaf_start_index c n 0 n) = k := by
    by_cases hge : c ≥ t.leaf_start_index
    · rw [if_pos hge]
      rw [hP] at hge
      rcases Nat.eq_zero_or_pos k with h0 | hpos
      · omega
      · exfalso
        have : 2 * 2 ^ (τ - k) ≤ 2 ^ τ := by
          have : (2 : Nat) ^ (τ - k + 1) ≤ 2 ^ τ :=
            Nat.pow_le_pow_right (by norm_num) (by omega)
          rw [pow_succ] at this
          omega
        omega
    · rw [if_neg hge]
      rw [hP] at hge
      push_neg at hge
      have hkpos : 1 ≤ k := by
        rcases Nat.eq_zero_or_pos k with h0 | hpos
        · exfalso; rw [h0] at hlow; simp at hlow; omega
        · exact hpos
      have := levelSearchLoop_spec k n t.leaf_start_index c 0 n
        (by
          have h1 : k ≤ τ := hk
          have h2 : τ ≤ n := halvings_le_self n
          omega)
        (by
          rw [hP, Nat.zero_add, pow_shiftRight_le τ k hk]
          exact hlow)
        (fun j hj => by
          rw [hP, Nat.zero_add, pow_shiftRight_le τ j (by omega)]
          calc c < 2 * 2 ^ (τ - k) := hhigh
          _ = 2 ^ (τ - k + 1) := by rw [pow_succ]; ring
          _ ≤ 2 ^ (τ - j) := Nat.pow_le_pow_right (by norm_num) (by omega))
        (fun j hj => two_le_ceilHalfIter n τ j hτ.symm (by omega))
      rw [this]
      omega
  unfold BinaryMerkleTree.get_tree_indices
  rw [← hn, hlevel, get_left_right_eq, hP]
  simp only [pow_shiftRight_le τ k hk, get_parent_index,
    Nat.shiftRight_eq_div_pow, pow_one]
  by_cases hk0 : k = 0
  · subst hk0
    simp only [if_pos rfl]
    rfl
  · simp only [if_neg hk0]

theorem getD_set_eq (l : List Output) (i : Nat) (a : Output) (h : i < l.length) :
    (l.set i a).getD i dOut = a := by
  rw [List.getD_eq_getElem?_getD, List.getElem?_set_eq h]
  rfl

theorem getD_set_ne (l : List Output) (i j : Nat) (a : Output) (h : i ≠ j) :
    (l.set i a).getD j dOut = l.getD j dOut := by
  rw [List.getD_eq_getElem?_getD, List.getElem?_set_ne h, ← List.getD_eq_getElem?_getD]

theorem writeLeavesLoop_length : ∀ (leaves tr : List Output) (i : Nat),
    (writeLeavesLoop tr i leaves).length = tr.length := by
  intro leaves
  induction leaves with
  | nil => intro tr i; rfl
  | cons a rest ih =>
    intro tr i
    show (writeLeavesLoop (tr.set i a) (i + 1) rest).length = _
    rw [ih, List.length_set]

theorem writeLeavesLoop_getD : ∀ (leaves tr : List Output) (i s : Nat),
    i + leaves.length ≤ tr.length →
    (writeLeavesLoop tr i leaves).getD s dOut =
      if i ≤ s ∧ s < i + leaves.length then leaves.getD (s - i) dOut
      else tr.getD s dOut := by
  intro leaves
  induction leaves with
  | nil =>
    intro tr i s _
    rw [if_neg (by simp only [List.length_nil]; omega)]
    rfl
  | cons a rest ih =>
    intro tr i s hlen
    show (writeLeavesLoop (tr.set i a) (i + 1) rest).getD s dOut = _
    rw [ih (tr.set i a) (i + 1) s
      (by rw [List.length_set]; simp only [List.length_cons] at hlen; omega)]
    simp only [List.length_cons]
    by_cases h1 : i + 1 ≤ s ∧ s < i + 1 + rest.length
    · rw [if_pos h1, if_pos (by omega)]
      have : s - i = (s - (i + 1)) + 1 := by omega
      rw [this, List.getD_cons_succ]
    · rw [if_neg h1]
      by_cases h2 : s = i
      · subst h2
        rw [if_pos (by omega), getD_set_eq tr s a (by simp only [List.length_cons] at hlen; omega)]
        simp
      · rw [if_neg (by omega), getD_set_ne tr i s a (by omega)]

theorem buildParentsRow_succ (kw : List Nat) (f : Nat) (tr : List Output)
    (ls cnt ps pc : Nat) :
    buildParentsRow kw f tr ls cnt ps (pc + 1) =
      (if 2 * pc + 1 ≥ cnt then
        (buildParentsRow kw f tr ls cnt ps pc).set (ps + pc)
          ((buildParentsRow kw f tr ls cnt ps pc).getD (ls + 2 * pc) dOut)
      else
        (buildParentsRow kw f tr ls cnt ps pc).set (ps + pc)
          (parent_output
            ((buildParentsRow kw f tr ls cnt ps pc).getD (ls + 2 * pc) dOut).chaining_value
            ((buildParentsRow kw f tr ls cnt ps pc).getD (ls + 2 * pc + 1) dOut).chaining_value
            kw f)) := by
  unfold buildParentsRow
  rw [List.range_succ, List.foldl_append, List.foldl_cons, List.foldl_nil]

theorem buildParentsRow_length (kw : List Nat) (f : Nat) : ∀ (pc : Nat)
    (tr : List Output) (ls cnt ps : Nat),
    (buildParentsRow kw f tr ls cnt ps pc).length = tr.length := by
  intro pc
  induction pc with
  | zero => intro tr ls cnt ps; rfl
  | succ pc ih =>
    intro tr ls cnt ps
    rw [buildParentsRow_succ]
    by_cases h : 2 * pc + 1 ≥ cnt
    · rw [if_pos h, List.length_set, ih]
    · rw [if_neg h, List.length_set, ih]

theorem buildParentsRow_getD (kw : List Nat) (f : Nat) : ∀ (pc : Nat)
    (tr : List Output) (ls cnt ps : Nat), ps + pc ≤ ls → ls ≤ tr.length →
    ∀ s, (buildParentsRow kw f tr ls cnt ps pc).getD s dOut =
      if ps ≤ s ∧ s < ps + pc then
        (if 2 * (s - ps) + 1 ≥ cnt then tr.getD (ls + 2 * (s - ps)) dOut
         else parent_output (tr.getD (ls + 2 * (s - ps)) dOut).chaining_value
           (tr.getD (ls + 2 * (s - ps) + 1) dOut).chaining_value kw f)
      else tr.getD s dOut := by
  intro pc
  induction pc with
  | zero =>
    intro tr ls cnt ps _ _ s
    rw [if_neg (by omega)]
    rfl
  | succ pc ih =>
    intro tr ls cnt ps hps hls s
    rw [buildParentsRow_succ]
    have hview : ∀ r, r ≥ ls →
        (buildParentsRow kw f tr ls cnt ps pc).getD r dOut = tr.getD r dOut := by
      intro r hr
      rw [ih tr ls cnt ps (by omega) hls r, if_neg (by omega)]
    have hlen : ps + pc < tr.length := by omega
    by_cases h : 2 * pc + 1 ≥ cnt
    · rw [if_pos h]
      by_cases hs : s = ps + pc
      · subst hs
        rw [getD_set_eq _ _ _ (by rw [buildParentsRow_length]; omega),
          hview (ls + 2 * pc) (by omega)]
        have houter : ps ≤ ps + pc ∧ ps + pc < ps + (pc + 1) := by omega
        rw [if_pos houter]
        have hred : ps + pc - ps = pc := by omega
        rw [hred, if_pos h]
      · rw [getD_set_ne _ _ _ _ (fun hh => hs hh.symm),
          ih tr ls cnt ps (by omega) hls s]
        by_cases h1 : ps ≤ s ∧ s < ps + pc
        · have houter : ps ≤ s ∧ s < ps + (pc + 1) := by omega
          rw [if_pos h1, if_pos houter]
        · have houter : ¬ (ps ≤ s ∧ s < ps + (pc + 1)) := by omega
          rw [if_neg h1, if_neg houter]
    · rw [if_neg h]
      by_cases hs : s = ps + pc
      · subst hs
        rw [getD_set_eq _ _ _ (by rw [buildParentsRow_length]; omega),
          hview (ls + 2 * pc) (by omega), hview (ls + 2 * pc + 1) (by omega)]
        have houter : ps ≤ ps + pc ∧ ps + pc < ps + (pc + 1) := by omega
        rw [if_pos houter]
        have hred : ps + pc - ps = pc := by omega
        rw [hred, if_neg h]
      · rw [getD_set_ne _ _ _ _ (fun hh => hs hh.symm),
          ih tr ls cnt ps (by omega) hls s]
        by_cases h1 : ps ≤ s ∧ s < ps + pc
        · have houter : ps ≤ s ∧ s < ps + (pc + 1) := by omega
          rw [if_pos h1, if_pos houter]
        · have houter : ¬ (ps ≤ s ∧ s < ps + (pc + 1)) := by omega
          rw [if_neg h1, if_neg houter]

theorem buildLevelsLoop_live (kw : List Nat) (f : Nat) (L : List Output) :
    ∀ (fuel k : Nat) (tr : List Output),
    k ≤ halvings L.length →
    2 ^ (halvings L.length - k) ≤ fuel →
    tr.length = 2 * 2 ^ halvings L.length →
    (∀ k' j, k' ≤ k → j < ceilHalfIter L.length k' →
      tr.getD (2 ^ (halvings L.length - k') + j) dOut = (stepIter kw f k' L).getD j dOut) →
    LiveSpec kw f L
      (buildLevelsLoop kw f fuel tr (2 ^ (halvings L.length - k))
        (ceilHalfIter L.length k)) := by
  intro fuel
  induction fuel with
  | zero =>
    intro k tr _ hfuel _ _
    have hpos : (0 : Nat) < 2 ^ (halvings L.length - k) := pow_pos (by norm_num) _
    omega
  | succ fuel ih =>
    intro k tr hk hfuel htlen hinv
    set n := L.length with hn
    set τ := halvings n with hτ
    rw [buildLevelsLoop]
    by_cases hls : 2 ^ (τ - k) ≤ 1
    · rw [if_pos hls]
      have hkτ : k = τ := by
        by_contra hcon
        have : (2 : Nat) ^ 1 ≤ 2 ^ (τ - k) :=
          Nat.pow_le_pow_right (by norm_num) (by omega)
        omega
      subst hkτ
      exact ⟨htlen, fun k' j hk' hj => hinv k' j hk' hj⟩
    · rw [if_neg hls]
      have hkτ : k < τ := by
        by_contra hcon
        push_neg at hcon
        have : τ - k = 0 := by omega
        rw [this] at hls
        omega
      have hsplit : (2 : Nat) ^ (τ - k) = 2 * 2 ^ (τ - (k + 1)) := by
        rw [← pow_succ']
        congr 1
        omega
      have hhalf : 2 ^ (τ - k) / 2 = 2 ^ (τ - (k + 1)) := by omega
      have hpc : (ceilHalfIter n k + 1) / 2 = ceilHalfIter n (k + 1) :=
        (ceilHalfIter_succ_outer k n).symm
      rw [hhalf, hpc]
      have hpcle : ceilHalfIter n (k + 1) ≤ 2 ^ (τ - (k + 1)) := by
        rw [ceilHalfIter_le_iff, ← pow_add]
        have : τ - (k + 1) + (k + 1) = τ := by omega
        rw [this]
        exact le_two_pow_halvings n
      have hrowbound : 2 ^ (τ - (k + 1)) + ceilHalfIter n (k + 1) ≤ 2 ^ (τ - k) := by
        omega
      have hlsle : 2 ^ (τ - k) ≤ tr.length := by
        rw [htlen]
        have : (2 : Nat) ^ (τ - k) ≤ 2 ^ τ := Nat.pow_le_pow_right (by norm_num) (by omega)
        omega
      have hrowlen := buildParentsRow_length kw f (ceilHalfIter n (k + 1)) tr
        (2 ^ (τ - k)) (ceilHalfIter n k) (2 ^ (τ - (k + 1)))
      have hrowget := buildParentsRow_getD kw f (ceilHalfIter n (k + 1)) tr
        (2 ^ (τ - k)) (ceilHalfIter n k) (2 ^ (τ - (k + 1))) hrowbound hlsle
      have hnewinv : ∀ k' j, k' ≤ k + 1 → j < ceilHalfIter n k' →
          (buildParentsRow kw f tr (2 ^ (τ - k)) (ceilHalfIter n k)
            (2 ^ (τ - (k + 1))) (ceilHalfIter n (k + 1))).getD (2 ^ (τ - k') + j) dOut
          = (stepIter kw f k' L).getD j dOut := by
        intro k' j hk' hj
        rcases Nat.lt_or_ge k' (k + 1) with hcase | hcase
        · -- untouched lower level
          rw [hrowget (2 ^ (τ - k') + j)]
          rw [if_neg (by
            intro hmem
            have h1 : (2 : Nat) ^ (τ - k) ≤ 2 ^ (τ - k') :=
              Nat.pow_le_pow_right (by norm_num) (by omega)
            omega)]
          exact hinv k' j (by omega) hj
        · -- the freshly written parent level
          have hk'eq : k' = k + 1 := by omega
          subst hk'eq
          rw [hrowget (2 ^ (τ - (k + 1)) + j)]
          rw [if_pos (by omega)]
          have hjred : 2 ^ (τ - (k + 1)) + j - 2 ^ (τ - (k + 1)) = j := by omega
          rw [hjred]
          have hlen_level : (stepIter kw f k L).length = ceilHalfIter n k :=
            stepIter_length kw f k L
          have h2j : 2 * j < ceilHalfIter n k := by
            have := ceilHalfIter_succ_outer k n
            omega
          have hspec := specStep_getD kw f (stepIter kw f k L) j (by omega)
          rw [stepIter_succ_outer, hspec, hlen_level]
          have hread1 : tr.getD (2 ^ (τ - k) + 2 * j) dOut
              = (stepIter kw f k L).getD (2 * j) dOut :=
            hinv k (2 * j) (by omega) h2j
          by_cases hc : 2 * j + 1 < ceilHalfIter n k
          · rw [if_neg (by omega), if_pos hc, hread1,
              show (2 : Nat) ^ (τ - k) + 2 * j + 1 = 2 ^ (τ - k) + (2 * j + 1) by omega,
              hinv k (2 * j + 1) (by omega) hc]
          · rw [if_pos (by omega), if_neg hc, hread1]
      have := ih (k + 1)
        (buildParentsRow kw f tr (2 ^ (τ - k)) (ceilHalfIter n k)
          (2 ^ (τ - (k + 1))) (ceilHalfIter n (k + 1)))
        (by omega)
        (by omega)
        (by rw [hrowlen]; exact htlen)
        hnewinv
      exact this

theorem build_live (kw : List Nat) (f : Nat) (L : List Output) (hL : 1 ≤ L.length) :
    TreeWF kw f L (BinaryMerkleTree.new_from_leaves L kw f) := by
  have hP := nextPowerOfTwo_eq_pow_halvings L.length hL
  have hnP : L.length ≤ 2 ^ halvings L.length := le_two_pow_halvings L.length
  refine ⟨rfl, hP, hP, rfl, rfl, ?_⟩
  show LiveSpec kw f L (create_tree_from_leaves kw f
    (List.replicate (2 * nextPowerOfTwo L.length)
      { input_chaining_value := kw
        block_words := List.replicate 16 0
        counter := 0
        block_len := 64
        flags := f })
    (nextPowerOfTwo L.length) L.length L)
  set ph : Output :=
    { input_chaining_value := kw
      block_words := List.replicate 16 0
      counter := 0
      block_len := 64
      flags := f } with hph
  rw [hP]
  set τ := halvings L.length with hτ
  unfold create_tree_from_leaves
  have ht1len : (writeLeavesLoop (List.replicate (2 * 2 ^ τ) ph) (2 ^ τ) L).length
      = 2 * 2 ^ τ := by
    rw [writeLeavesLoop_length, List.length_replicate]
  have ht1get : ∀ j, j < L.length →
      (writeLeavesLoop (List.replicate (2 * 2 ^ τ) ph) (2 ^ τ) L).getD (2 ^ τ + j) dOut
        = L.getD j dOut := by
    intro j hj
    rw [writeLeavesLoop_getD L _ (2 ^ τ) (2 ^ τ + j)
      (by rw [List.length_replicate]; omega)]
    rw [if_pos (by omega)]
    congr 1
    omega
  by_cases hL1 : L.length = 1
  · rw [if_pos hL1]
    have hτ0 : τ = 0 := by rw [hτ, hL1]; rfl
    have hh : halvings L.length = 0 := by rw [← hτ, hτ0]
    constructor
    · rw [List.length_set, ht1len]
    · intro k j hk hj
      have hk0 : k = 0 := by omega
      subst hk0
      have hpop : ceilHalfIter L.length 0 = L.length := rfl
      have hj0 : j = 0 := by rw [hpop] at hj; omega
      subst hj0
      have hslot : 2 ^ (halvings L.length - 0) + 0 = 1 := by rw [hh]; rfl
      rw [hslot]
      have hlen1 : 1 < (writeLeavesLoop (List.replicate (2 * 2 ^ τ) ph) (2 ^ τ) L).length := by
        rw [ht1len, hτ0]
        norm_num
      rw [getD_set_eq _ _ _ hlen1]
      have hg := ht1get 0 (by omega)
      have h2τ : (2 : Nat) ^ τ + 0 = 2 ^ τ := by omega
      rw [h2τ] at hg
      exact hg
  · rw [if_neg hL1]
    have hmain := buildLevelsLoop_live kw f L (2 ^ τ) 0
      (writeLeavesLoop (List.replicate (2 * 2 ^ τ) ph) (2 ^ τ) L)
      (by omega)
      (by simp)
      ht1len
      (by
        intro k' j hk' hj
        have hk0 : k' = 0 := by omega
        subst hk0
        have hpop0 : ceilHalfIter L.length 0 = L.length := rfl
        rw [hpop0] at hj
        have := ht1get j hj
        simpa using this)
    simpa using hmain

/-- C5: in a tree built from `n ≥ 2` leaves, at every level where the last
node has no right sibling within the real population (`2i + 1 ≥
level_count`), the parent slot holds the identical `Output`, unchanged —
the same value stored at the left child slot, not a new `PARENT`-flagged
output. -/
theorem claim_C5_promotion (kw : List Nat) (f : Nat) (L : List Output)
    (hL : 2 ≤ L.length) (k i : Nat)
    (hk : k < halvings L.length) (hi : i < ceilHalfIter L.length (k + 1))
    (hprom : 2 * i + 1 ≥ ceilHalfIter L.length k) :
    (BinaryMerkleTree.new_from_leaves L kw f).tree.getD
        (2 ^ (halvings L.length - (k + 1)) + i) dOut
      = (BinaryMerkleTree.new_from_leaves L kw f).tree.getD
        (2 ^ (halvings L.length - k) + 2 * i) dOut := by
  obtain ⟨_, _, _, _, _, hlen, hlive⟩ := build_live kw f L (by omega)
  have hpopsucc := ceilHalfIter_succ_outer k L.length
  have h2i : 2 * i < ceilHalfIter L.length k := by omega
  rw [hlive (k + 1) i (by omega) hi, hlive k (2 * i) (by omega) h2i,
    stepIter_succ_outer,
    specStep_getD kw f (stepIter kw f k L) i
      (by rw [stepIter_length]; omega)]
  rw [if_neg (by rw [stepIter_length]; omega)]

theorem claim_C5_witness :
    2 ≤ cexLeaves3.length ∧ 0 < halvings cexLeaves3.length ∧
      1 < ceilHalfIter cexLeaves3.length 1 ∧
      2 * 1 + 1 ≥ ceilHalfIter cexLeaves3.length 0 ∧
      (BinaryMerkleTree.new_from_leaves cexLeaves3 IV 0).tree.getD 3 dOut
        = (BinaryMerkleTree.new_from_leaves cexLeaves3 IV 0).tree.getD 6 dOut ∧
      (BinaryMerkleTree.new_from_leaves cexLeaves3 IV 0).tree.getD 6 dOut
        = chunk_output IV 0 2 [3] :=
  ⟨by decide, by decide, by decide, by decide,
    claim_C5_promotion IV 0 cexLeaves3 (by decide) 0 1 (by decide) (by decide) (by decide),
    by decide⟩

theorem slot_unique (τ k1 k2 j1 j2 : Nat) (hk1 : k1 ≤ τ) (hk2 : k2 ≤ τ)
    (hj1 : j1 < 2 ^ (τ - k1)) (hj2 : j2 < 2 ^ (τ - k2))
    (heq : 2 ^ (τ - k1) + j1 = 2 ^ (τ - k2) + j2) : τ - k1 = τ - k2 ∧ j1 = j2 := by
  rcases Nat.lt_trichotomy (τ - k1) (τ - k2) with h | h | h
  · exfalso
    have hpow : (2 : Nat) ^ (τ - k1 + 1) ≤ 2 ^ (τ - k2) :=
      Nat.pow_le_pow_right (by norm_num) (by omega)
    rw [pow_succ] at hpow
    omega
  · rw [h] at heq hj1
    omega
  · exfalso
    have hpow : (2 : Nat) ^ (τ - k2 + 1) ≤ 2 ^ (τ - k1) :=
      Nat.pow_le_pow_right (by norm_num) (by omega)
    rw [pow_succ] at hpow
    omega

theorem pos_div_lt_pop (n k i : Nat) (hi : i < n) :
    i / 2 ^ k < ceilHalfIter n k := by
  have h1 : n ≤ ceilHalfIter n k * 2 ^ k :=
    (ceilHalfIter_le_iff k n (ceilHalfIter n k)).mp le_rfl
  rw [Nat.div_lt_iff_lt_mul (pow_pos (by norm_num) k)]
  omega

theorem pop_le_levelStart (n τ k : Nat) (hτ : halvings n = τ) (hk : k ≤ τ) :
    ceilHalfIter n k ≤ 2 ^ (τ - k) := by
  rw [ceilHalfIter_le_iff, ← pow_add]
  have h1 : τ - k + k = τ := by omega
  rw [h1, ← hτ]
  exact le_two_pow_halvings n

theorem pop_top_eq_one (n τ : Nat) (hn : 1 ≤ n) (hτ : halvings n = τ) :
    ceilHalfIter n τ = 1 := by
  have h1 : ceilHalfIter n τ ≤ 1 := by
    rw [ceilHalfIter_le_iff, one_mul, ← hτ]
    exact le_two_pow_halvings n
  have h2 := ceilHalfIter_pos τ n hn
  omega

theorem insertLoop_succ (fuel : Nat) (t : BinaryMerkleTree) (c m : Nat) :
    BinaryMerkleTree.insertLoop (fuel + 1) t c m =
      if m ≤ 1 then t
      else
        BinaryMerkleTree.insertLoop fuel (insertStepTree t c)
          (t.get_tree_indices c).2.2.1 ((m + 1) / 2) := rfl

theorem insertLoop_live (kw : List Nat) (f : Nat) (L L' : List Output) (i n τ : Nat)
    (hn : L.length = n) (hτ : halvings n = τ)
    (hlen : L'.length = n) (hi : i < n)
    (hcong : ∀ j, j ≠ i → L.getD j dOut = L'.getD j dOut) :
    ∀ (fuel k : Nat) (t : BinaryMerkleTree),
    t.actual_leaves = n →
    t.leaf_start_index = 2 ^ τ →
    t.key_words = kw → t.flags = f →
    t.number_of_leaves = 2 ^ τ →
    t.tree.length = 2 * 2 ^ τ →
    k ≤ τ → τ - k ≤ fuel →
    (∀ k' j, k' ≤ τ → j < ceilHalfIter n k' →
      t.tree.getD (2 ^ (τ - k') + j) dOut =
        (stepIter kw f k' (if k' ≤ k then L' else L)).getD j dOut) →
    (BinaryMerkleTree.insertLoop fuel t (2 ^ (τ - k) + i / 2 ^ k)
        (ceilHalfIter n k)).actual_leaves = n ∧
    (BinaryMerkleTree.insertLoop fuel t (2 ^ (τ - k) + i / 2 ^ k)
        (ceilHalfIter n k)).leaf_start_index = 2 ^ τ ∧
    (BinaryMerkleTree.insertLoop fuel t (2 ^ (τ - k) + i / 2 ^ k)
        (ceilHalfIter n k)).key_words = kw ∧
    (BinaryMerkleTree.insertLoop fuel t (2 ^ (τ - k) + i / 2 ^ k)
        (ceilHalfIter n k)).flags = f ∧
    (BinaryMerkleTree.insertLoop fuel t (2 ^ (τ - k) + i / 2 ^ k)
        (ceilHalfIter n k)).number_of_leaves = 2 ^ τ ∧
    (BinaryMerkleTree.insertLoop fuel t (2 ^ (τ - k) + i / 2 ^ k)
        (ceilHalfIter n k)).tree.length = 2 * 2 ^ τ ∧
    (∀ k' j, k' ≤ τ → j < ceilHalfIter n k' →
      (BinaryMerkleTree.insertLoop fuel t (2 ^ (τ - k) + i / 2 ^ k)
          (ceilHalfIter n k)).tree.getD (2 ^ (τ - k') + j) dOut =
        (stepIter kw f k' L').getD j dOut) := by
  intro fuel
  induction fuel with
  | zero =>
    intro k t hact hP hkw hfl hnum htlen hk hfuel hinv
    have hkτ : k = τ := by omega
    subst hkτ
    refine ⟨hact, hP, hkw, hfl, hnum, htlen, ?_⟩
    intro k' j hk' hj
    have hv := hinv k' j hk' hj
    rw [if_pos (by omega)] at hv
    exact hv
  | succ fuel ih =>
    intro k t hact hP hkw hfl hnum htlen hk hfuel hinv
    rw [insertLoop_succ]
    by_cases hend : ceilHalfIter n k ≤ 1
    · rw [if_pos hend]
      have hn1 : 1 ≤ n := by omega
      have hkτ : k = τ := by
        by_contra hcon
        have := two_le_ceilHalfIter n τ k hτ (by omega)
        omega
      subst hkτ
      refine ⟨hact, hP, hkw, hfl, hnum, htlen, ?_⟩
      intro k' j hk' hj
      have hv := hinv k' j hk' hj
      rw [if_pos (by omega)] at hv
      exact hv
    · rw [if_neg hend]
      have hn1 : 1 ≤ n := by
        by_contra hc
        push_neg at hc
        have hp : (0 : Nat) < 2 ^ k := pow_pos (by norm_num) k
        have h1 : ceilHalfIter n k ≤ 1 := by
          rw [ceilHalfIter_le_iff]
          omega
        omega
      have hkτ : k < τ := by
        by_contra hcon
        push_neg at hcon
        have hkeq : k = τ := by omega
        rw [hkeq] at hend
        exact hend (by rw [pop_top_eq_one n τ hn1 hτ])
      have hik : i / 2 ^ k < ceilHalfIter n k := pos_div_lt_pop n k i hi
      have hpople : ceilHalfIter n k ≤ 2 ^ (τ - k) := pop_le_levelStart n τ k hτ (by omega)
      have hhigh2 : 2 ^ (τ - k) + i / 2 ^ k < 2 * 2 ^ (τ - k) := by
        have h2 := lt_of_lt_of_le hik hpople
        calc 2 ^ (τ - k) + i / 2 ^ k < 2 ^ (τ - k) + 2 ^ (τ - k) :=
              Nat.add_lt_add_left h2 _
        _ = 2 * 2 ^ (τ - k) := (two_mul _).symm
      have hq := get_tree_indices_spec t k (2 ^ (τ - k) + i / 2 ^ k)
        (by rw [hact, hτ]; exact hP)
        (by rw [hact, hτ]; omega)
        (by rw [hact, hτ]; exact Nat.le_add_right _ _)
        (by rw [hact, hτ]; exact hhigh2)
      rw [hact, hτ] at hq
      have hq1 : (t.get_tree_indices (2 ^ (τ - k) + i / 2 ^ k)).1
          = 2 * ((2 ^ (τ - k) + i / 2 ^ k) / 2) := by rw [hq]
      have hq21 : (t.get_tree_indices (2 ^ (τ - k) + i / 2 ^ k)).2.1
          = 2 * ((2 ^ (τ - k) + i / 2 ^ k) / 2) + 1 := by rw [hq]
      have hq221 : (t.get_tree_indices (2 ^ (τ - k) + i / 2 ^ k)).2.2.1
          = (2 ^ (τ - k) + i / 2 ^ k) / 2 := by rw [hq]
      have hq222 : (t.get_tree_indices (2 ^ (τ - k) + i / 2 ^ k)).2.2.2
          = decide (2 * ((2 ^ (τ - k) + i / 2 ^ k) / 2) + 1
              < 2 ^ (τ - k) + ceilHalfIter n k) := by rw [hq]
      have hsplitpow : (2 : Nat) ^ (τ - k) = 2 * 2 ^ (τ - (k + 1)) := by
        rw [← pow_succ']
        congr 1
        omega
      have hdd : i / 2 ^ k / 2 = i / 2 ^ (k + 1) := by
        rw [Nat.div_div_eq_div_mul, pow_succ]
      have hparidx : (2 ^ (τ - k) + i / 2 ^ k) / 2
          = 2 ^ (τ - (k + 1)) + i / 2 ^ (k + 1) := by omega
      have hchildidx : 2 * ((2 ^ (τ - k) + i / 2 ^ k) / 2)
          = 2 ^ (τ - k) + 2 * (i / 2 ^ (k + 1)) := by omega
      have hjplt : i / 2 ^ (k + 1) < ceilHalfIter n (k + 1) := pos_div_lt_pop n (k + 1) i hi
      have h2jp : 2 * (i / 2 ^ (k + 1)) < ceilHalfIter n k := by
        have := ceilHalfIter_succ_outer k n
        omega
      have hreadL : t.tree.getD (2 ^ (τ - k) + 2 * (i / 2 ^ (k + 1))) dOut
          = (stepIter kw f k L').getD (2 * (i / 2 ^ (k + 1))) dOut := by
        have hv := hinv k (2 * (i / 2 ^ (k + 1))) (by omega) h2jp
        rw [if_pos le_rfl] at hv
        exact hv
      have hlenL' : (stepIter kw f k L').length = ceilHalfIter n k := by
        rw [stepIter_length, hlen]
      have hwritten :
          (if decide (2 * ((2 ^ (τ - k) + i / 2 ^ k) / 2) + 1
              < 2 ^ (τ - k) + ceilHalfIter n k) = true then
            parent_output
              (t.tree.getD (2 * ((2 ^ (τ - k) + i / 2 ^ k) / 2)) dOut).chaining_value
              (t.tree.getD (2 * ((2 ^ (τ - k) + i / 2 ^ k) / 2) + 1) dOut).chaining_value
              kw f
          else t.tree.getD (2 * ((2 ^ (τ - k) + i / 2 ^ k) / 2)) dOut)
          = (stepIter kw f (k + 1) L').getD (i / 2 ^ (k + 1)) dOut := by
        simp only [decide_eq_true_eq]
        rw [stepIter_succ_outer,
          specStep_getD kw f (stepIter kw f k L') (i / 2 ^ (k + 1)) (by rw [hlenL']; omega),
          hlenL', hchildidx]
        by_cases hored : 2 * (i / 2 ^ (k + 1)) + 1 < ceilHalfIter n k
        · rw [if_pos (by omega), if_pos hored, hreadL,
            show 2 ^ (τ - k) + 2 * (i / 2 ^ (k + 1)) + 1
              = 2 ^ (τ - k) + (2 * (i / 2 ^ (k + 1)) + 1) by omega]
          have hv := hinv k (2 * (i / 2 ^ (k + 1)) + 1) (by omega) hored
          rw [if_pos le_rfl] at hv
          rw [hv]
        · rw [if_neg (by omega), if_neg hored, hreadL]
      have hstepTree : (insertStepTree t (2 ^ (τ - k) + i / 2 ^ k)).tree
          = t.tree.set (2 ^ (τ - (k + 1)) + i / 2 ^ (k + 1))
            ((stepIter kw f (k + 1) L').getD (i / 2 ^ (k + 1)) dOut) := by
        show (t.tree.set (t.get_tree_indices (2 ^ (τ - k) + i / 2 ^ k)).2.2.1 _) = _
        rw [hq]
        dsimp only
        rw [hkw, hfl, hwritten, hparidx]
      have hres := ih (k + 1) (insertStepTree t (2 ^ (τ - k) + i / 2 ^ k))
        hact hP hkw hfl hnum
        (by rw [hstepTree, List.length_set]; exact htlen)
        (by omega) (by omega)
        (by
          intro k' j hk' hj
          rw [hstepTree]
          by_cases hhit : 2 ^ (τ - k') + j = 2 ^ (τ - (k + 1)) + i / 2 ^ (k + 1)
          · obtain ⟨hks, hjs⟩ := slot_unique τ k' (k + 1) j (i / 2 ^ (k + 1))
              (by omega) (by omega)
              (by
                have := pop_le_levelStart n τ k' hτ (by omega)
                omega)
              (by
                have := pop_le_levelStart n τ (k + 1) hτ (by omega)
                omega)
              hhit
            have hkk : k' = k + 1 := by omega
            subst hkk
            subst hjs
            rw [hhit, getD_set_eq _ _ _ (by
              rw [htlen]
              have h1 : (2 : Nat) ^ (τ - (k + 1)) ≤ 2 ^ τ :=
                Nat.pow_le_pow_right (by norm_num) (by omega)
              have h2 := pop_le_levelStart n τ (k + 1) hτ (by omega)
              omega)]
            rw [if_pos le_rfl]
          · rw [getD_set_ne _ _ _ _ (fun hh => hhit hh.symm)]
            have hold := hinv k' j hk' hj
            by_cases hcase : k' ≤ k
            · rw [if_pos hcase] at hold
              rw [if_pos (by omega)]
              exact hold
            · rw [if_neg hcase] at hold
              by_cases hcase2 : k' ≤ k + 1
              · have hkk : k' = k + 1 := by omega
                subst hkk
                rw [if_pos le_rfl]
                rw [hold]
                apply stepIter_congr kw f (k + 1) L L' [i] (by omega)
                · intro j2 hj2
                  apply hcong
                  simp only [List.mem_singleton] at hj2
                  exact hj2
                · simp only [List.map_cons, List.map_nil, List.mem_singleton]
                  intro hcon
                  exact hhit (by rw [hcon])
              · rw [if_neg hcase2]
                exact hold)
      have hpopnext : (ceilHalfIter n k + 1) / 2 = ceilHalfIter n (k + 1) :=
        (ceilHalfIter_succ_outer k n).symm
      rw [hpopnext, hq221, hparidx]
      exact hres

theorem insert_leaf_rebuild (kw : List Nat) (f : Nat) (L : List Output)
    (t : BinaryMerkleTree) (hwf : TreeWF kw f L t) (i : Nat) (hi : i < L.length)
    (o : Output) :
    t.insert_leaf i o
      = some (BinaryMerkleTree.insertLoop t.actual_leaves
          { t with tree := t.tree.set (i + t.leaf_start_index) o }
          (i + t.leaf_start_index) t.actual_leaves) ∧
    TreeWF kw f (L.set i o)
      (BinaryMerkleTree.insertLoop t.actual_leaves
        { t with tree := t.tree.set (i + t.leaf_start_index) o }
        (i + t.leaf_start_index) t.actual_leaves) := by
  obtain ⟨hact, hnum, hP, hkw, hfl, htlen, hlive⟩ := hwf
  set n := L.length with hn
  have hτn : halvings n ≤ n := halvings_le_self n
  have hile : i < 2 ^ halvings n := by
    have := le_two_pow_halvings n
    omega
  have hcur : (2 : Nat) ^ (halvings n - 0) + i / 2 ^ 0 = i + t.leaf_start_index := by
    rw [hP, Nat.sub_zero, pow_zero, Nat.div_one, Nat.add_comm]
  constructor
  · unfold BinaryMerkleTree.insert_leaf
    rw [if_neg (by omega)]
  · have hres := insertLoop_live kw f L (L.set i o) i n (halvings n) hn.symm rfl
      (by rw [List.length_set, hn])
      hi
      (fun j hj => (getD_set_ne L i j o (fun hh => hj hh.symm)).symm)
      t.actual_leaves 0
      { t with tree := t.tree.set (i + t.leaf_start_index) o }
      hact hP hkw hfl hnum
      (by simp only [List.length_set]; exact htlen)
      (by omega)
      (by rw [hact]; omega)
      (by
        intro k' j hk' hj
        show (t.tree.set (i + t.leaf_start_index) o).getD
          (2 ^ (halvings n - k') + j) dOut = _
        rcases Nat.eq_zero_or_pos k' with hk0 | hkpos
        · subst hk0
          rw [if_pos (by omega)]
          have hpop0 : ceilHalfIter n 0 = n := rfl
          rw [hpop0] at hj
          by_cases hij : j = i
          · subst hij
            have hidx : (2 : Nat) ^ (halvings n - 0) + j = j + t.leaf_start_index := by
              rw [hP, Nat.sub_zero, Nat.add_comm]
            rw [hidx, getD_set_eq _ _ _ (by rw [htlen, hP]; omega)]
            exact (getD_set_eq L j o (by omega)).symm
          · rw [getD_set_ne _ _ _ _ (by
              rw [hP, Nat.sub_zero]
              intro hcon
              exact hij (by omega))]
            have hv := hlive 0 j (by omega) (by rw [show ceilHalfIter n 0 = n from rfl]; omega)
            rw [hv]
            exact (getD_set_ne L i j o (fun hh => hij hh.symm)).symm
        · rw [if_neg (by omega)]
          rw [getD_set_ne _ _ _ _ (by
            rw [hP]
            intro hcon
            have hj2 : j < 2 ^ (halvings n - k') :=
              lt_of_lt_of_le hj (pop_le_levelStart n (halvings n) k' rfl hk')
            have hsu := slot_unique (halvings n) 0 k' i j (by omega) hk'
              (by rw [Nat.sub_zero]; exact hile) hj2
              (by rw [Nat.sub_zero]; omega)
            omega)]
          exact hlive k' j hk' hj)
    have hfix2 : ceilHalfIter n 0 = t.actual_leaves := by
      rw [hact]
      rfl
    rw [hcur, hfix2] at hres
    refine ⟨?_, ?_, ?_, ?_, ?_, ?_, ?_⟩
    · rw [List.length_set, ← hn]
      exact hres.1
    · rw [List.length_set, ← hn]
      exact hres.2.2.2.2.1
    · rw [List.length_set, ← hn]
      exact hres.2.1
    · exact hres.2.2.1
    · exact hres.2.2.2.1
    · rw [List.length_set, ← hn]
      exact hres.2.2.2.2.2.1
    · simp only [List.length_set, ← hn]
      exact hres.2.2.2.2.2.2

theorem processInputLoop_nil (kw : List Nat) (fl fuel : Nat) (cs : ChunkState)
    (outs : List Output) : processInputLoop kw fl fuel cs outs [] = (cs, outs) := by
  cases fuel <;> rfl

theorem hasherUpdateLoop_nil (fuel : Nat) (h : Blake3Hasher) :
    Blake3Hasher.updateLoop fuel h [] = h := by
  cases fuel <;> rfl

theorem updateLoop_counter_flags : ∀ (fuel : Nat) (s : ChunkState) (input : List Nat),
    (ChunkState.updateLoop fuel s input).chunk_counter = s.chunk_counter ∧
    (ChunkState.updateLoop fuel s input).flags = s.flags := by
  intro fuel
  induction fuel with
  | zero => intro s input; exact ⟨rfl, rfl⟩
  | succ fuel ih =>
    intro s input
    simp only [ChunkState.updateLoop]
    split
    · exact ⟨rfl, rfl⟩
    · split <;> split <;>
        first
          | (refine ⟨(ih _ _).1.trans ?_, (ih _ _).2.trans ?_⟩ <;>
              simp [ChunkState.compressStep])
          | simp [ChunkState.compressStep]

theorem processInputLoop_fuel (kw : List Nat) (fl : Nat) :
    ∀ (f1 f2 : Nat) (cs : ChunkState) (outs : List Output) (input : List Nat),
    input.length ≤ f1 → input.length ≤ f2 →
    processInputLoop kw fl f1 cs outs input = processInputLoop kw fl f2 cs outs input := by
  intro f1
  induction f1 with
  | zero =>
    intro f2 cs outs input h1 _
    have : input = [] := List.eq_nil_of_length_eq_zero (by omega)
    subst this
    rw [processInputLoop_nil, processInputLoop_nil]
  | succ f1 ih =>
    intro f2 cs outs input h1 h2
    match input with
    | [] => rw [processInputLoop_nil, processInputLoop_nil]
    | a :: as =>
      obtain ⟨f2', rfl⟩ : ∃ k, f2 = k + 1 := ⟨f2 - 1, by simp at h2; omega⟩
      simp only [processInputLoop, List.isEmpty_cons, Bool.false_eq_true, if_false]
      split <;> split <;>
        first
          | rfl
          | (apply ih <;> simp only [List.length_drop, List.length_cons] at * <;> omega)

theorem hasherUpdateLoop_fuel :
    ∀ (f1 f2 : Nat) (h : Blake3Hasher) (input : List Nat),
    input.length ≤ f1 → input.length ≤ f2 →
    Blake3Hasher.updateLoop f1 h input = Blake3Hasher.updateLoop f2 h input := by
  intro f1
  induction f1 with
  | zero =>
    intro f2 h input h1 _
    have : input = [] := List.eq_nil_of_length_eq_zero (by omega)
    subst this
    rw [hasherUpdateLoop_nil, hasherUpdateLoop_nil]
  | succ f1 ih =>
    intro f2 h input h1 h2
    match input with
    | [] => rw [hasherUpdateLoop_nil, hasherUpdateLoop_nil]
    | a :: as =>
      obtain ⟨f2', rfl⟩ : ∃ k, f2 = k + 1 := ⟨f2 - 1, by simp at h2; omega⟩
      simp only [Blake3Hasher.updateLoop, List.isEmpty_cons, Bool.false_eq_true, if_false]
      split <;> split <;>
        first
          | rfl
          | (apply ih <;> simp only [List.length_drop, List.length_cons] at * <;> omega)

theorem fresh_update_counter (kw : List Nat) (cnt fl : Nat) (B : List Nat) :
    ((ChunkState.new kw cnt fl).update B).chunk_counter = cnt :=
  (updateLoop_counter_flags B.length (ChunkState.new kw cnt fl) B).1

theorem fresh_update_output (kw : List Nat) (cnt fl : Nat) (B : List Nat) :
    ((ChunkState.new kw cnt fl).update B).output = chunk_output kw fl cnt B := rfl

theorem fresh_update_len (kw : List Nat) (cnt fl : Nat) (B : List Nat)
    (hB : B.length ≤ CHUNK_LEN) :
    ((ChunkState.new kw cnt fl).update B).len = B.length := by
  have h := update_len (ChunkState.new kw cnt fl) B rfl (Nat.zero_le _)
    (by simpa [ChunkState.new, ChunkState.len] using hB)
  simpa [ChunkState.new, ChunkState.len] using h.1

theorem processInputLoop_fresh_step (kw : List Nat) (fl cnt : Nat) (outs : List Output)
    (B : List Nat) (hB : B ≠ []) (f : Nat) :
    processInputLoop kw fl (f + 1) (ChunkState.new kw cnt fl) outs B
      = processInputLoop kw fl f
          ((ChunkState.new kw cnt fl).update (B.take (min CHUNK_LEN B.length)))
          outs (B.drop (min CHUNK_LEN B.length)) := by
  match B with
  | a :: as =>
    simp only [processInputLoop, List.isEmpty_cons, Bool.false_eq_true, if_false]
    rw [if_neg (show ¬((ChunkState.new kw cnt fl).len = CHUNK_LEN) by
      simp [ChunkState.new, ChunkState.len, CHUNK_LEN])]
    rw [if_neg (show ¬((CHUNK_LEN - (ChunkState.new kw cnt fl, outs).1.len) ⊓
      (a :: as).length = 0) by simp [ChunkState.new, ChunkState.len, CHUNK_LEN])]
    have harith : CHUNK_LEN - (ChunkState.new kw cnt fl, outs).1.len = CHUNK_LEN := rfl
    rw [harith]

theorem processInputLoop_full_step (kw : List Nat) (fl : Nat) (cs : ChunkState)
    (hlen : cs.len = CHUNK_LEN) (outs : List Output) (B : List Nat) (hB : B ≠ [])
    (f : Nat) :
    processInputLoop kw fl (f + 1) cs outs B
      = processInputLoop kw fl f
          ((ChunkState.new kw (cs.chunk_counter + 1) fl).update
            (B.take (min CHUNK_LEN B.length)))
          (outs ++ [cs.output]) (B.drop (min CHUNK_LEN B.length)) := by
  match B with
  | a :: as =>
    simp only [processInputLoop, List.isEmpty_cons, Bool.false_eq_true, if_false]
    rw [if_pos hlen]
    rw [if_neg (show ¬((CHUNK_LEN -
      (ChunkState.new kw (cs.chunk_counter + 1) fl, outs ++ [cs.output]).1.len) ⊓
      (a :: as).length = 0) by simp [ChunkState.new, ChunkState.len, CHUNK_LEN])]
    have harith : CHUNK_LEN -
        (ChunkState.new kw (cs.chunk_counter + 1) fl, outs ++ [cs.output]).1.len
        = CHUNK_LEN := rfl
    rw [harith]

theorem processInputLoop_fresh (kw : List Nat) (fl : Nat) :
    ∀ (m : Nat) (B : List Nat) (cnt : Nat) (outs : List Output) (fuel : Nat),
    B ≠ [] → B.length ≤ CHUNK_LEN * m → B.length ≤ fuel →
    processInputLoop kw fl fuel (ChunkState.new kw cnt fl) outs B
      = (lastChunkStateLoop kw fl m cnt B, outs ++ initChunkOutputsLoop kw fl m cnt B) := by
  intro m
  induction m with
  | zero =>
    intro B cnt outs fuel hB hm _
    exact absurd (List.eq_nil_of_length_eq_zero (by omega)) hB
  | succ m ih =>
    intro B cnt outs fuel hB hm hfuel
    have hBpos : 1 ≤ B.length := by
      cases B with
      | nil => exact absurd rfl hB
      | cons a as => simp
    obtain ⟨f, rfl⟩ : ∃ k, fuel = k + 1 := ⟨fuel - 1, by omega⟩
    rw [processInputLoop_fresh_step kw fl cnt outs B hB f]
    by_cases hsmall : B.length ≤ CHUNK_LEN
    · have hmin : min CHUNK_LEN B.length = B.length := Nat.min_eq_right hsmall
      rw [hmin, List.take_length, List.drop_length, processInputLoop_nil]
      rw [lastChunkStateLoop, initChunkOutputsLoop, if_pos hsmall, if_pos hsmall,
        List.append_nil]
    · have hCL : CHUNK_LEN = 1024 := rfl
      rw [hCL] at hm hsmall
      have hmin : min CHUNK_LEN B.length = CHUNK_LEN := Nat.min_eq_left (by omega)
      rw [hmin]
      have hdropne : B.drop CHUNK_LEN ≠ [] := by
        intro hcon
        have := congrArg List.length hcon
        simp only [List.length_drop, List.length_nil] at this
        omega
      obtain ⟨f2, rfl⟩ : ∃ k, f = k + 1 := ⟨f - 1, by omega⟩
      have hcs1len : ((ChunkState.new kw cnt fl).update (B.take CHUNK_LEN)).len
          = CHUNK_LEN := by
        rw [fresh_update_len kw cnt fl _ (by simp [List.length_take]),
          List.length_take]
        omega
      rw [processInputLoop_full_step kw fl _ hcs1len outs (B.drop CHUNK_LEN) hdropne f2]
      rw [fresh_update_counter, fresh_update_output]
      have hIH := ih (B.drop CHUNK_LEN) (cnt + 1)
        (outs ++ [chunk_output kw fl cnt (B.take CHUNK_LEN)]) (f2 + 1) hdropne
        (by simp only [List.length_drop, hCL]; omega)
        (by simp only [List.length_drop, hCL]; omega)
      rw [processInputLoop_fresh_step kw fl (cnt + 1) _ _ hdropne f2] at hIH
      rw [hIH]
      rw [show lastChunkStateLoop kw fl (m + 1) cnt B
          = lastChunkStateLoop kw fl m (cnt + 1) (B.drop CHUNK_LEN) by
        rw [lastChunkStateLoop, if_neg (show ¬(B.length ≤ CHUNK_LEN) by
          rw [hCL]; exact hsmall)]]
      rw [show initChunkOutputsLoop kw fl (m + 1) cnt B
          = chunk_output kw fl cnt (B.take CHUNK_LEN)
            :: initChunkOutputsLoop kw fl m (cnt + 1) (B.drop CHUNK_LEN) by
        rw [initChunkOutputsLoop, if_neg (show ¬(B.length ≤ CHUNK_LEN) by
          rw [hCL]; exact hsmall)]]
      simp

theorem lastChunkStateLoop_len (kw : List Nat) (fl : Nat) :
    ∀ (m : Nat) (cnt : Nat) (B : List Nat), B ≠ [] → B.length ≤ CHUNK_LEN * m →
    1 ≤ (lastChunkStateLoop kw fl m cnt B).len := by
  intro m
  induction m with
  | zero =>
    intro cnt B hB hm
    exact absurd (List.eq_nil_of_length_eq_zero (by omega)) hB
  | succ m ih =>
    intro cnt B hB hm
    have hBpos : 1 ≤ B.length := List.length_pos.mpr hB
    rw [lastChunkStateLoop]
    by_cases hsmall : B.length ≤ CHUNK_LEN
    · rw [if_pos hsmall, fresh_update_len kw cnt fl B hsmall]
      exact hBpos
    · have hCL : CHUNK_LEN = 1024 := rfl
      rw [if_neg hsmall]
      refine ih (cnt + 1) (B.drop CHUNK_LEN) ?_ ?_
      · intro hcon
        have := congrArg List.length hcon
        simp only [List.length_drop, List.length_nil, hCL] at this
        rw [hCL] at hsmall
        omega
      · simp only [List.length_drop, hCL]
        rw [hCL] at hm
        omega

theorem lastChunkStateLoop_fuel (kw : List Nat) (fl : Nat) :
    ∀ (f1 f2 cnt : Nat) (B : List Nat), 1 ≤ f1 → 1 ≤ f2 →
    B.length ≤ CHUNK_LEN * f1 → B.length ≤ CHUNK_LEN * f2 →
    lastChunkStateLoop kw fl f1 cnt B = lastChunkStateLoop kw fl f2 cnt B := by
  intro f1
  induction f1 with
  | zero => intro f2 cnt B h1 _ _ _; omega
  | succ f1 ih =>
    intro f2 cnt B _ h2 hm1 hm2
    obtain ⟨f2', rfl⟩ : ∃ k, f2 = k + 1 := ⟨f2 - 1, by omega⟩
    rw [lastChunkStateLoop, lastChunkStateLoop]
    by_cases hsmall : B.length ≤ CHUNK_LEN
    · rw [if_pos hsmall, if_pos hsmall]
    · have hCL : CHUNK_LEN = 1024 := rfl
      rw [if_neg hsmall, if_neg hsmall]
      rw [hCL] at hsmall hm1 hm2
      refine ih f2' (cnt + 1) (B.drop CHUNK_LEN) (by omega) (by omega) ?_ ?_ <;>
        simp only [List.length_drop, hCL] <;> omega

theorem initChunkOutputsLoop_fuel (kw : List Nat) (fl : Nat) :
    ∀ (f1 f2 cnt : Nat) (B : List Nat), 1 ≤ f1 → 1 ≤ f2 →
    B.length ≤ CHUNK_LEN * f1 → B.length ≤ CHUNK_LEN * f2 →
    initChunkOutputsLoop kw fl f1 cnt B = initChunkOutputsLoop kw fl f2 cnt B := by
  intro f1
  induction f1 with
  | zero => intro f2 cnt B h1 _ _ _; omega
  | succ f1 ih =>
    intro f2 cnt B _ h2 hm1 hm2
    obtain ⟨f2', rfl⟩ : ∃ k, f2 = k + 1 := ⟨f2 - 1, by omega⟩
    rw [initChunkOutputsLoop, initChunkOutputsLoop]
    by_cases hsmall : B.length ≤ CHUNK_LEN
    · rw [if_pos hsmall, if_pos hsmall]
    · have hCL : CHUNK_LEN = 1024 := rfl
      rw [if_neg hsmall, if_neg hsmall]
      rw [hCL] at hsmall hm1 hm2
      refine congrArg _ (ih f2' (cnt + 1) (B.drop CHUNK_LEN) (by omega) (by omega) ?_ ?_) <;>
        simp only [List.length_drop, hCL] <;> omega

theorem leavesFromLoop_decomp (kw : List Nat) (fl : Nat) :
    ∀ (f cnt : Nat) (B : List Nat), B.length < CHUNK_LEN * f →
    leavesFromLoop kw fl f cnt B
      = initChunkOutputsLoop kw fl f cnt B
        ++ [(lastChunkStateLoop kw fl f cnt B).output] := by
  intro f
  induction f with
  | zero => intro cnt B hm; omega
  | succ f ih =>
    intro cnt B hm
    rw [leavesFromLoop, initChunkOutputsLoop, lastChunkStateLoop]
    by_cases hsmall : B.length ≤ CHUNK_LEN
    · rw [if_pos hsmall, if_pos hsmall, if_pos hsmall, fresh_update_output]
      rfl
    · have hCL : CHUNK_LEN = 1024 := rfl
      rw [if_neg hsmall, if_neg hsmall, if_neg hsmall]
      rw [hCL] at hsmall hm
      rw [ih (cnt + 1) (B.drop CHUNK_LEN) (by simp only [List.length_drop, hCL]; omega)]
      rfl

theorem process_input_to_chunks_eq (B : List Nat) (kw : List Nat) (fl : Nat) :
    process_input_to_chunks B kw fl = leavesOfInput kw fl B := by
  by_cases hB : B = []
  · subst hB; rfl
  · have hBpos : 1 ≤ B.length := List.length_pos.mpr hB
    have hCL : CHUNK_LEN = 1024 := rfl
    have hbound : B.length ≤ CHUNK_LEN * B.length := by
      rw [hCL]; calc B.length = 1 * B.length := (Nat.one_mul _).symm
        _ ≤ 1024 * B.length := Nat.mul_le_mul_right _ (by omega)
    simp only [process_input_to_chunks]
    rw [processInputLoop_fresh kw fl B.length B 0 [] B.length hB hbound le_rfl]
    have hlen : 1 ≤ (lastChunkStateLoop kw fl B.length 0 B).len :=
      lastChunkStateLoop_len kw fl B.length 0 B hB hbound
    rw [if_pos (show ((lastChunkStateLoop kw fl B.length 0 B,
      [] ++ initChunkOutputsLoop kw fl B.length 0 B).1.len > 0) from hlen)]
    rw [if_neg (show ¬(((lastChunkStateLoop kw fl B.length 0 B,
          [] ++ initChunkOutputsLoop kw fl B.length 0 B).2
        ++ [(lastChunkStateLoop kw fl B.length 0 B,
          [] ++ initChunkOutputsLoop kw fl B.length 0 B).1.output]).isEmpty = true) by
      simp)]
    rw [leavesOfInput, leavesFromLoop_decomp kw fl (B.length + 1) 0 B
      (by rw [hCL]; nlinarith)]
    rw [initChunkOutputsLoop_fuel kw fl B.length (B.length + 1) 0 B hBpos (by omega)
      hbound (by rw [hCL] at hbound ⊢; nlinarith)]
    rw [lastChunkStateLoop_fuel kw fl B.length (B.length + 1) 0 B hBpos (by omega)
      hbound (by rw [hCL] at hbound ⊢; nlinarith)]
    simp

theorem hasherUpdateLoop_fresh_step (kw : List Nat) (fl cnt : Nat)
    (stack : List (List Nat)) (B : List Nat) (hB : B ≠ []) (f : Nat) :
    Blake3Hasher.updateLoop (f + 1)
      { chunk_state := ChunkState.new kw cnt fl, key_words := kw,
        cv_stack := stack, flags := fl } B
      = Blake3Hasher.updateLoop f
          { chunk_state := (ChunkState.new kw cnt fl).update
              (B.take (min CHUNK_LEN B.length)),
            key_words := kw, cv_stack := stack, flags := fl }
          (B.drop (min CHUNK_LEN B.length)) := by
  match B with
  | a :: as =>
    simp only [Blake3Hasher.updateLoop, List.isEmpty_cons, Bool.false_eq_true, if_false]
    rw [if_neg (show ¬((ChunkState.new kw cnt fl).len = CHUNK_LEN) by
      simp [ChunkState.new, ChunkState.len, CHUNK_LEN])]
    rw [if_neg (show ¬((CHUNK_LEN - (ChunkState.new kw cnt fl).len) ⊓
      (a :: as).length = 0) by simp [ChunkState.new, ChunkState.len, CHUNK_LEN])]
    have harith : CHUNK_LEN - (ChunkState.new kw cnt fl).len = CHUNK_LEN := rfl
    rw [harith]

theorem hasherUpdateLoop_full_step (kw : List Nat) (fl : Nat) (cs : ChunkState)
    (hlen : cs.len = CHUNK_LEN) (stack : List (List Nat)) (B : List Nat)
    (hB : B ≠ []) (f : Nat) :
    Blake3Hasher.updateLoop (f + 1)
      { chunk_state := cs, key_words := kw, cv_stack := stack, flags := fl } B
      = Blake3Hasher.updateLoop f
          { chunk_state := (ChunkState.new kw (cs.chunk_counter + 1) fl).update
              (B.take (min CHUNK_LEN B.length)),
            key_words := kw,
            cv_stack := addChunkCVLoop kw fl (cs.chunk_counter + 1) stack
              cs.output.chaining_value (cs.chunk_counter + 1),
            flags := fl }
          (B.drop (min CHUNK_LEN B.length)) := by
  match B with
  | a :: as =>
    simp only [Blake3Hasher.updateLoop, List.isEmpty_cons, Bool.false_eq_true, if_false,
      Blake3Hasher.add_chunk_chaining_value]
    rw [if_pos hlen]
    rw [if_neg (show ¬((CHUNK_LEN -
      (ChunkState.new kw (cs.chunk_counter + 1) fl).len) ⊓ (a :: as).length = 0) by
      simp [ChunkState.new, ChunkState.len, CHUNK_LEN])]
    have harith : CHUNK_LEN - (ChunkState.new kw (cs.chunk_counter + 1) fl).len
        = CHUNK_LEN := rfl
    rw [harith]

theorem hasherUpdateLoop_fresh (kw : List Nat) (fl : Nat) :
    ∀ (m : Nat) (B : List Nat) (cnt : Nat) (stack : List (List Nat)) (fuel : Nat),
    B ≠ [] → B.length ≤ CHUNK_LEN * m → B.length ≤ fuel →
    Blake3Hasher.updateLoop fuel
      { chunk_state := ChunkState.new kw cnt fl, key_words := kw,
        cv_stack := stack, flags := fl } B
      = { chunk_state := lastChunkStateLoop kw fl m cnt B, key_words := kw,
          cv_stack := hasherStackLoop kw fl m cnt stack B, flags := fl } := by
  intro m
  induction m with
  | zero =>
    intro B cnt stack fuel hB hm _
    exact absurd (List.eq_nil_of_length_eq_zero (by omega)) hB
  | succ m ih =>
    intro B cnt stack fuel hB hm hfuel
    have hBpos : 1 ≤ B.length := List.length_pos.mpr hB
    obtain ⟨f, rfl⟩ : ∃ k, fuel = k + 1 := ⟨fuel - 1, by omega⟩
    rw [hasherUpdateLoop_fresh_step kw fl cnt stack B hB f]
    by_cases hsmall : B.length ≤ CHUNK_LEN
    · have hmin : min CHUNK_LEN B.length = B.length := Nat.min_eq_right hsmall
      rw [hmin, List.take_length, List.drop_length, hasherUpdateLoop_nil]
      rw [lastChunkStateLoop, hasherStackLoop, if_pos hsmall, if_pos hsmall]
    · have hCL : CHUNK_LEN = 1024 := rfl
      rw [hCL] at hm hsmall
      have hmin : min CHUNK_LEN B.length = CHUNK_LEN := Nat.min_eq_left (by omega)
      rw [hmin]
      have hdropne : B.drop CHUNK_LEN ≠ [] := by
        intro hcon
        have := congrArg List.length hcon
        simp only [List.length_drop, List.length_nil, hCL] at this
        omega
      obtain ⟨f2, rfl⟩ : ∃ k, f = k + 1 := ⟨f - 1, by omega⟩
      have hcs1len : ((ChunkState.new kw cnt fl).update (B.take CHUNK_LEN)).len
          = CHUNK_LEN := by
        rw [fresh_update_len kw cnt fl _ (by simp [List.length_take]),
          List.length_take]
        omega
      rw [hasherUpdateLoop_full_step kw fl _ hcs1len stack (B.drop CHUNK_LEN) hdropne f2]
      rw [fresh_update_counter, fresh_update_output]
      have hIH := ih (B.drop CHUNK_LEN) (cnt + 1)
        (addChunkCVLoop kw fl (cnt + 1) stack
          (chunk_output kw fl cnt (B.take CHUNK_LEN)).chaining_value (cnt + 1))
        (f2 + 1) hdropne
        (by simp only [List.length_drop, hCL]; omega)
        (by simp only [List.length_drop, hCL]; omega)
      rw [hasherUpdateLoop_fresh_step kw fl (cnt + 1) _ _ hdropne f2] at hIH
      rw [hIH]
      rw [show lastChunkStateLoop kw fl (m + 1) cnt B
          = lastChunkStateLoop kw fl m (cnt + 1) (B.drop CHUNK_LEN) by
        rw [lastChunkStateLoop, if_neg (show ¬(B.length ≤ CHUNK_LEN) by
          rw [hCL]; exact hsmall)]]
      rw [show hasherStackLoop kw fl (m + 1) cnt stack B
          = hasherStackLoop kw fl m (cnt + 1)
              (addChunkCVLoop kw fl (cnt + 1) stack
                (chunk_output kw fl cnt (B.take CHUNK_LEN)).chaining_value (cnt + 1))
              (B.drop CHUNK_LEN) by
        rw [hasherStackLoop, if_neg (show ¬(B.length ≤ CHUNK_LEN) by
          rw [hCL]; exact hsmall)]]

theorem pow_interval_unique (n j k : Nat) (h1 : n ≤ 2 ^ j) (h2 : 2 ^ j < 2 * n)
    (h3 : n ≤ 2 ^ k) (h4 : 2 ^ k < 2 * n) : j = k := by
  rcases Nat.lt_trichotomy j k with h | h | h
  · have hle : 2 ^ (j + 1) ≤ 2 ^ k := Nat.pow_le_pow_right (by omega) (by omega)
    rw [pow_succ] at hle
    omega
  · exact h
  · have hle : 2 ^ (k + 1) ≤ 2 ^ j := Nat.pow_le_pow_right (by omega) (by omega)
    rw [pow_succ] at hle
    omega

theorem halvings_of_bounds (n j : Nat) (h1 : 2 ^ j < n) (h2 : n ≤ 2 ^ (j + 1)) :
    halvings n = j + 1 := by
  have hp : 1 ≤ 2 ^ j := Nat.one_le_two_pow
  refine pow_interval_unique n (halvings n) (j + 1) (le_two_pow_halvings n)
    (two_pow_halvings_lt n (by omega)) h2 ?_
  rw [pow_succ]
  omega

theorem halvings_two_pow (k : Nat) : halvings (2 ^ k) = k := by
  cases k with
  | zero => exact halvings_of_le_one 1 le_rfl
  | succ k =>
    exact halvings_of_bounds _ k (Nat.pow_lt_pow_right (by omega) (by omega)) le_rfl

theorem prevPow2_eq (n j : Nat) (h1 : 2 ^ j < n) (h2 : n ≤ 2 ^ (j + 1)) :
    prevPow2 n = 2 ^ j := by
  have hp : 1 ≤ 2 ^ j := Nat.one_le_two_pow
  rw [prevPow2, nextPowerOfTwo_eq_pow_halvings n (by omega),
    halvings_of_bounds n j h1 h2, pow_succ]
  omega

theorem prevPow2_spec (n : Nat) (h : 2 ≤ n) :
    ∃ j, prevPow2 n = 2 ^ j ∧ 2 ^ j < n ∧ n ≤ 2 ^ (j + 1) := by
  have hh1 : n ≤ 2 ^ halvings n := le_two_pow_halvings n
  have hh2 : 2 ^ halvings n < 2 * n := two_pow_halvings_lt n h
  have hhpos : 1 ≤ halvings n := by
    by_contra hcon
    have : halvings n = 0 := by omega
    rw [this] at hh1
    simp at hh1
    omega
  refine ⟨halvings n - 1, ?_, ?_, ?_⟩
  · refine prevPow2_eq n (halvings n - 1) ?_ ?_
    · have : 2 ^ (halvings n - 1 + 1) = 2 * 2 ^ (halvings n - 1) := by
        rw [pow_succ]; ring
      have h2 : 2 ^ (halvings n - 1 + 1) = 2 ^ halvings n := by
        congr 1; omega
      omega
    · have h2 : 2 ^ (halvings n - 1 + 1) = 2 ^ halvings n := by congr 1; omega
      omega
  · have : 2 ^ (halvings n - 1 + 1) = 2 * 2 ^ (halvings n - 1) := by
      rw [pow_succ]; ring
    have h2 : 2 ^ (halvings n - 1 + 1) = 2 ^ halvings n := by congr 1; omega
    omega
  · have h2 : 2 ^ (halvings n - 1 + 1) = 2 ^ halvings n := by congr 1; omega
    omega

theorem prevPow2_lt (n : Nat) (h : 2 ≤ n) : prevPow2 n < n := by
  obtain ⟨j, hj, hlt, _⟩ := prevPow2_spec n h
  omega

theorem prevPow2_pos (n : Nat) (h : 2 ≤ n) : 1 ≤ prevPow2 n := by
  obtain ⟨j, hj, _, _⟩ := prevPow2_spec n h
  have : 1 ≤ 2 ^ j := Nat.one_le_two_pow
  omega

theorem prevPow2_half (n : Nat) (h : 2 ≤ n) : n ≤ 2 * prevPow2 n := by
  obtain ⟨j, hj, _, hle⟩ := prevPow2_spec n h
  rw [hj]
  rw [pow_succ] at hle
  omega

theorem b3Loop_fuel (kw : List Nat) (fl : Nat) :
    ∀ (f1 f2 : Nat) (l : List Output), l.length ≤ f1 → l.length ≤ f2 →
    b3Loop kw fl f1 l = b3Loop kw fl f2 l := by
  intro f1
  induction f1 with
  | zero =>
    intro f2 l h1 _
    have : l = [] := List.eq_nil_of_length_eq_zero (by omega)
    subst this
    cases f2 <;> rfl
  | succ f1 ih =>
    intro f2 l h1 h2
    by_cases hl : l.length ≤ 1
    · cases f2 with
      | zero =>
        have : l = [] := List.eq_nil_of_length_eq_zero (by omega)
        subst this
        rfl
      | succ f2 => rw [b3Loop, b3Loop, if_pos hl, if_pos hl]
    · obtain ⟨f2', rfl⟩ : ∃ k, f2 = k + 1 := ⟨f2 - 1, by omega⟩
      rw [b3Loop, b3Loop, if_neg hl, if_neg hl]
      have hplt : prevPow2 l.length < l.length := prevPow2_lt l.length (by omega)
      have hppos : 1 ≤ prevPow2 l.length := prevPow2_pos l.length (by omega)
      rw [ih f2' (l.take (prevPow2 l.length))
        (by rw [List.length_take]; omega) (by rw [List.length_take]; omega)]
      rw [ih f2' (l.drop (prevPow2 l.length))
        (by rw [List.length_drop]; omega) (by rw [List.length_drop]; omega)]

theorem b3_eq_split (kw : List Nat) (fl : Nat) (l : List Output) (h : 2 ≤ l.length) :
    b3 kw fl l = parent_output
      (b3 kw fl (l.take (prevPow2 l.length))).chaining_value
      (b3 kw fl (l.drop (prevPow2 l.length))).chaining_value kw fl := by
  have h1 : b3 kw fl l = b3Loop kw fl (l.length - 1 + 1) l := by
    rw [b3]; congr 1; omega
  rw [h1, b3Loop, if_neg (by omega)]
  have hplt : prevPow2 l.length < l.length := prevPow2_lt l.length h
  have hppos : 1 ≤ prevPow2 l.length := prevPow2_pos l.length h
  rw [b3Loop_fuel kw fl (l.length - 1) (l.take (prevPow2 l.length)).length _
    (by rw [List.length_take]; omega) le_rfl]
  rw [b3Loop_fuel kw fl (l.length - 1) (l.drop (prevPow2 l.length)).length _
    (by rw [List.length_drop]; omega) le_rfl]
  rfl

theorem b3_two_pow_split (kw : List Nat) (fl : Nat) (e : Nat) (l1 l2 : List Output)
    (h1 : l1.length = 2 ^ e) (h2 : l2.length = 2 ^ e) :
    b3 kw fl (l1 ++ l2) = parent_output
      (b3 kw fl l1).chaining_value (b3 kw fl l2).chaining_value kw fl := by
  have hp : 1 ≤ 2 ^ e := Nat.one_le_two_pow
  have hlen : (l1 ++ l2).length = 2 ^ (e + 1) := by
    rw [List.length_append, h1, h2, pow_succ]
    ring
  have hprev : prevPow2 (l1 ++ l2).length = 2 ^ e := by
    rw [hlen]
    exact prevPow2_eq _ e (by rw [pow_succ]; omega) le_rfl
  rw [b3_eq_split kw fl (l1 ++ l2) (by rw [hlen, pow_succ]; omega), hprev,
    ← h1, List.take_left, List.drop_left]

theorem specStep_append_even (kw : List Nat) (f : Nat) : ∀ (x y : List Output),
    x.length % 2 = 0 →
    specStep kw f (x ++ y) = specStep kw f x ++ specStep kw f y
  | [], _, _ => rfl
  | [a], _, hx => by simp at hx
  | a :: b :: rest, y, hx => by
    have hrec := specStep_append_even kw f rest y
      (by simp only [List.length_cons] at hx ⊢; omega)
    simp only [List.cons_append, specStep]
    rw [← hrec]
    rfl
termination_by x => x.length

theorem b3_singleton (kw : List Nat) (fl : Nat) (o : Output) : b3 kw fl [o] = o := rfl

theorem b3_pair (kw : List Nat) (fl : Nat) (a b : Output) :
    b3 kw fl [a, b] = parent_output a.chaining_value b.chaining_value kw fl := by
  rw [b3_eq_split kw fl [a, b] (by simp)]
  have hp : prevPow2 ([a, b] : List Output).length = 1 := by
    rw [show ([a, b] : List Output).length = 2 from rfl]
    rfl
  rw [hp]
  have ht : ([a, b] : List Output).take 1 = [a] := rfl
  have hd : ([a, b] : List Output).drop 1 = [b] := rfl
  rw [ht, hd, b3_singleton, b3_singleton]

theorem halvingsLoop_fuel : ∀ (f1 f2 n : Nat), n ≤ f1 + 1 → n ≤ f2 + 1 →
    halvingsLoop f1 n = halvingsLoop f2 n := by
  intro f1
  induction f1 with
  | zero =>
    intro f2 n h1 _
    have hn : n ≤ 1 := by omega
    cases f2 with
    | zero => rfl
    | succ f2 => rw [halvingsLoop, halvingsLoop, if_pos hn]
  | succ f1 ih =>
    intro f2 n h1 h2
    by_cases hn : n ≤ 1
    · cases f2 with
      | zero => rw [halvingsLoop, halvingsLoop, if_pos hn]
      | succ f2 => rw [halvingsLoop, halvingsLoop, if_pos hn, if_pos hn]
    · obtain ⟨f2', rfl⟩ : ∃ k, f2 = k + 1 := ⟨f2 - 1, by omega⟩
      rw [halvingsLoop, halvingsLoop, if_neg hn, if_neg hn]
      rw [ih f2' ((n + 1) / 2) (by omega) (by omega)]

theorem halvings_succ (n : Nat) (h : 2 ≤ n) :
    halvings n = halvings ((n + 1) / 2) + 1 := by
  rw [halvings, halvings]
  obtain ⟨f, hf⟩ : ∃ k, n = k + 1 := ⟨n - 1, by omega⟩
  rw [show halvingsLoop n n = halvingsLoop (f + 1) n by rw [hf]]
  rw [halvingsLoop, if_neg (by omega)]
  rw [halvingsLoop_fuel f ((n + 1) / 2) ((n + 1) / 2) (by omega) (by omega)]

theorem b3_specStep (kw : List Nat) (fl : Nat) : ∀ (n : Nat) (l : List Output),
    l.length ≤ n → 2 ≤ l.length →
    b3 kw fl (specStep kw fl l) = b3 kw fl l := by
  intro n
  induction n with
  | zero => intro l h1 h2; omega
  | succ n ih =>
    intro l h1 h2
    by_cases h4 : l.length ≤ 3
    · rcases (show l.length = 2 ∨ l.length = 3 by omega) with hL | hL
      · obtain ⟨a, b, rfl⟩ := List.length_eq_two.mp hL
        have hss : specStep kw fl [a, b]
            = [parent_output a.chaining_value b.chaining_value kw fl] := rfl
        rw [hss, b3_singleton, b3_pair]
      · obtain ⟨a, b, c, rfl⟩ := List.length_eq_three.mp hL
        have hss : specStep kw fl [a, b, c]
            = [parent_output a.chaining_value b.chaining_value kw fl, c] := rfl
        rw [hss, b3_pair, b3_eq_split kw fl [a, b, c] (by simp)]
        have hp3 : prevPow2 ([a, b, c] : List Output).length = 2 := by
          rw [show ([a, b, c] : List Output).length = 3 from rfl]
          rfl
        have ht : ([a, b, c] : List Output).take 2 = [a, b] := rfl
        have hd : ([a, b, c] : List Output).drop 2 = [c] := rfl
        rw [hp3, ht, hd, b3_pair, b3_singleton]
    · push_neg at h4
      obtain ⟨j, hj, hlt, hle⟩ := prevPow2_spec l.length (by omega)
      have hj1 : 1 ≤ j := by
        by_contra hcon
        have hj0 : j = 0 := by omega
        rw [hj0] at hle
        norm_num at hle
        omega
      have hp1 : (2:Nat) ^ j = 2 * 2 ^ (j - 1) := by
        rw [← pow_succ']
        congr 1
        omega
      have hppos : (1:Nat) ≤ 2 ^ (j - 1) := Nat.one_le_two_pow
      have hp2 : (2:Nat) ^ (j + 1) = 4 * 2 ^ (j - 1) := by
        rw [pow_succ, hp1]
        ring
      rw [hp2] at hle
      have hxlen : (l.take (prevPow2 l.length)).length = 2 ^ j := by
        rw [List.length_take, hj]
        omega
      have hylen : (l.drop (prevPow2 l.length)).length = l.length - 2 ^ j := by
        rw [List.length_drop, hj]
      have hxeven : (l.take (prevPow2 l.length)).length % 2 = 0 := by
        rw [hxlen]
        omega
      have hsplit : specStep kw fl l
          = specStep kw fl (l.take (prevPow2 l.length))
            ++ specStep kw fl (l.drop (prevPow2 l.length)) := by
        conv_lhs => rw [← List.take_append_drop (prevPow2 l.length) l]
        exact specStep_append_even kw fl _ _ hxeven
      rw [b3_eq_split kw fl l (by omega)]
      have hsslen : (specStep kw fl l).length = (l.length + 1) / 2 :=
        specStep_length kw fl l
      have hprev2 : prevPow2 ((specStep kw fl l).length) = 2 ^ (j - 1) := by
        rw [hsslen]
        refine prevPow2_eq _ (j - 1) ?_ ?_
        · omega
        · have hpe : (2:Nat) ^ (j - 1 + 1) = 2 ^ j := by congr 1; omega
          rw [hpe]
          omega
      rw [b3_eq_split kw fl (specStep kw fl l) (by rw [hsslen]; omega), hprev2]
      have htake : (specStep kw fl l).take (2 ^ (j - 1))
          = specStep kw fl (l.take (prevPow2 l.length)) := by
        rw [hsplit, show (2:Nat) ^ (j - 1)
            = (specStep kw fl (l.take (prevPow2 l.length))).length by
          rw [specStep_length, hxlen]; omega]
        exact List.take_left _ _
      have hdrop : (specStep kw fl l).drop (2 ^ (j - 1))
          = specStep kw fl (l.drop (prevPow2 l.length)) := by
        rw [hsplit, show (2:Nat) ^ (j - 1)
            = (specStep kw fl (l.take (prevPow2 l.length))).length by
          rw [specStep_length, hxlen]; omega]
        exact List.drop_left _ _
      rw [htake, hdrop]
      have hihx := ih (l.take (prevPow2 l.length)) (by rw [hxlen]; omega)
        (by rw [hxlen]; omega)
      rw [hihx]
      by_cases hy1 : (l.drop (prevPow2 l.length)).length ≤ 1
      · have hy1' : (l.drop (prevPow2 l.length)).length = 1 := by
          rw [hylen] at hy1 ⊢
          omega
        obtain ⟨o, ho⟩ := List.length_eq_one.mp hy1'
        rw [ho]
        rfl
      · have hihy := ih (l.drop (prevPow2 l.length)) (by rw [hylen]; omega)
          (by omega)
        rw [hihy]

theorem specRoot_eq_b3 (kw : List Nat) (fl : Nat) : ∀ (n : Nat) (l : List Output),
    l.length ≤ n → 1 ≤ l.length →
    specRoot kw fl l = b3 kw fl l := by
  intro n
  induction n with
  | zero => intro l h1 h2; omega
  | succ n ih =>
    intro l h1 h2
    by_cases hl1 : l.length = 1
    · obtain ⟨o, rfl⟩ := List.length_eq_one.mp hl1
      rfl
    · have h2' : 2 ≤ l.length := by omega
      have hss1 : (specStep kw fl l).length = (l.length + 1) / 2 :=
        specStep_length kw fl l
      have hhs : halvings l.length = halvings ((l.length + 1) / 2) + 1 :=
        halvings_succ _ h2'
      rw [specRoot, hhs, stepIter]
      have hmid : (stepIter kw fl (halvings ((l.length + 1) / 2))
          (specStep kw fl l)).getD 0 dOut = specRoot kw fl (specStep kw fl l) := by
        rw [specRoot, hss1]
      rw [hmid]
      rw [ih (specStep kw fl l) (by rw [hss1]; omega) (by rw [hss1]; omega)]
      exact b3_specStep kw fl l.length l le_rfl h2'

theorem segStack_dvd (kw : List Nat) (fl : Nat) : ∀ (stack : List (List Nat))
    (l : List Output) (e : Nat), SegStack kw fl stack l e → 2 ^ e ∣ l.length := by
  intro stack
  induction stack with
  | nil =>
    intro l e hseg
    rw [show l = [] from hseg]
    simp
  | cons cv0 rest ih =>
    intro l e hseg
    obtain ⟨l1, seg0, j, hej, hl, hseg0len, _, hrest⟩ := hseg
    have h1 : 2 ^ (j + 1) ∣ l1.length := ih l1 (j + 1) hrest
    have h2 : (2:Nat) ^ e ∣ 2 ^ (j + 1) := pow_dvd_pow 2 (by omega)
    have h3 : (2:Nat) ^ e ∣ 2 ^ j := pow_dvd_pow 2 hej
    rw [hl, List.length_append, hseg0len]
    exact Nat.dvd_add (dvd_trans h2 h1) h3

theorem addChunkCVLoop_length (kw : List Nat) (fl : Nat) : ∀ (fuel : Nat)
    (stack : List (List Nat)) (cv : List Nat) (total : Nat),
    (addChunkCVLoop kw fl fuel stack cv total).length ≤ stack.length + 1 := by
  intro fuel
  induction fuel with
  | zero => intro stack cv total; simp [addChunkCVLoop]
  | succ fuel ih =>
    intro stack cv total
    simp only [addChunkCVLoop]
    split
    · simp
    · match stack with
      | [] => simp
      | top :: rest =>
        calc (addChunkCVLoop kw fl fuel rest (parent_cv top cv kw fl)
              (total >>> 1)).length
            ≤ rest.length + 1 := ih rest _ _
          _ ≤ (top :: rest).length + 1 := by simp

theorem addChunkCVLoop_spec (kw : List Nat) (fl : Nat) :
    ∀ (stack : List (List Nat)) (l seg : List Output) (e fuel total : Nat),
    SegStack kw fl stack l e →
    seg.length = 2 ^ e →
    stack.length < fuel →
    total * 2 ^ e = l.length + 2 ^ e →
    SegStack kw fl (addChunkCVLoop kw fl fuel stack
      ((b3 kw fl seg).chaining_value) total) (l ++ seg) 0 := by
  intro stack
  induction stack with
  | nil =>
    intro l seg e fuel total hseg hlen hfuel htot
    have hl : l = [] := hseg
    subst hl
    have hp : 0 < 2 ^ e := Nat.pos_pow_of_pos e (by omega)
    have htot1 : total = 1 := by
      refine Nat.eq_of_mul_eq_mul_right hp ?_
      rw [htot]
      simp
    subst htot1
    obtain ⟨f, rfl⟩ : ∃ k, fuel = k + 1 := ⟨fuel - 1, by omega⟩
    simp only [addChunkCVLoop]
    rw [if_pos (by norm_num)]
    exact ⟨[], seg, e, Nat.zero_le e, rfl, hlen, rfl, rfl⟩
  | cons cv0 rest ih =>
    intro l seg e fuel total hseg hlen hfuel htot
    obtain ⟨l1, seg0, j, hej, hl, hseg0len, hcv0, hrest⟩ := hseg
    obtain ⟨f, rfl⟩ : ∃ k, fuel = k + 1 := ⟨fuel - 1, by omega⟩
    obtain ⟨K, hK⟩ := segStack_dvd kw fl rest l1 (j + 1) hrest
    have hp : 0 < 2 ^ e := Nat.pos_pow_of_pos e (by omega)
    have hlen_l : l.length = l1.length + 2 ^ j := by
      rw [hl, List.length_append, hseg0len]
    have he1 : (2:Nat) ^ (e + 1) = 2 * 2 ^ e := by rw [pow_succ]; ring
    simp only [addChunkCVLoop]
    by_cases hje : j = e
    · subst hje
      have htot2 : total = 2 * (K + 1) := by
        refine Nat.eq_of_mul_eq_mul_right hp ?_
        rw [htot, hlen_l, hK, he1]
        ring
      rw [if_neg (by omega)]
      have hmerge : parent_cv cv0 ((b3 kw fl seg).chaining_value) kw fl
          = (b3 kw fl (seg0 ++ seg)).chaining_value := by
        rw [hcv0, parent_cv, b3_two_pow_split kw fl j seg0 seg hseg0len hlen]
      rw [hmerge]
      have hshift : total >>> 1 = K + 1 := by
        rw [htot2, Nat.shiftRight_one]
        omega
      rw [hshift]
      have happ : l ++ seg = l1 ++ (seg0 ++ seg) := by rw [hl, List.append_assoc]
      rw [happ]
      refine ih l1 (seg0 ++ seg) (j + 1) f (K + 1) hrest ?_
        (by simp only [List.length_cons] at hfuel; omega) ?_
      · rw [List.length_append, hseg0len, hlen, he1]
        ring
      · rw [hK, he1]
        ring
    · have hjgt : e + 1 ≤ j := by omega
      have hsplitpow : (2:Nat) ^ j = 2 ^ (e + 1) * 2 ^ (j - (e + 1)) := by
        rw [← pow_add]
        congr 1
        omega
      have hjp : (2:Nat) ^ (j + 1) = 2 * 2 ^ (j - e) * 2 ^ e := by
        rw [show j + 1 = (j - e) + e + 1 by omega, pow_add, pow_add, pow_one]
        ring
      have htotodd : total % 2 = 1 := by
        have h : total * 2 ^ e
            = (2 * (2 ^ (j - e) * K + 2 ^ (j - (e + 1))) + 1) * 2 ^ e := by
          rw [htot, hlen_l, hK, hjp, hsplitpow, he1]
          ring
        have := Nat.eq_of_mul_eq_mul_right hp h
        omega
      rw [if_pos htotodd]
      exact ⟨l, seg, e, Nat.zero_le e, rfl, hlen, rfl,
        l1, seg0, j, hjgt, hl, hseg0len, hcv0, hrest⟩

theorem segStack_stackFinalize (kw : List Nat) (fl : Nat) :
    ∀ (stack : List (List Nat)) (l r : List Output) (e : Nat) (o : Output),
    SegStack kw fl stack l e → 1 ≤ r.length → r.length ≤ 2 ^ e → o = b3 kw fl r →
    stackFinalize kw fl stack o = b3 kw fl (l ++ r) := by
  intro stack
  induction stack with
  | nil =>
    intro l r e o hseg hr1 hr2 ho
    rw [show l = [] from hseg]
    simp only [stackFinalize, List.foldl_nil, List.nil_append]
    exact ho
  | cons cv0 rest ih =>
    intro l r e o hseg hr1 hr2 ho
    obtain ⟨l1, seg0, j, hej, hl, hseg0len, hcv0, hrest⟩ := hseg
    have hpj : (1:Nat) ≤ 2 ^ j := Nat.one_le_two_pow
    have hpe : (2:Nat) ^ e ≤ 2 ^ j := Nat.pow_le_pow_right (by omega) hej
    have hle : (seg0 ++ r).length ≤ 2 ^ (j + 1) := by
      rw [List.length_append, hseg0len, pow_succ]
      omega
    have hb3merge : b3 kw fl (seg0 ++ r)
        = parent_output (b3 kw fl seg0).chaining_value (b3 kw fl r).chaining_value
            kw fl := by
      have hlen2 : 2 ≤ (seg0 ++ r).length := by
        rw [List.length_append, hseg0len]
        omega
      have hprev : prevPow2 (seg0 ++ r).length = 2 ^ j := by
        refine prevPow2_eq _ j ?_ ?_
        · rw [List.length_append, hseg0len]
          omega
        · exact hle
      rw [b3_eq_split kw fl (seg0 ++ r) hlen2, hprev, ← hseg0len,
        List.take_left, List.drop_left]
    have hfold : stackFinalize kw fl (cv0 :: rest) o
        = stackFinalize kw fl rest
            (parent_output cv0 o.chaining_value kw fl) := by
      simp only [stackFinalize, List.foldl_cons]
    rw [hfold]
    have hnew : parent_output cv0 o.chaining_value kw fl = b3 kw fl (seg0 ++ r) := by
      rw [hb3merge, hcv0, ho]
    rw [ih l1 (seg0 ++ r) (j + 1) _ hrest
      (by rw [List.length_append]; omega) hle hnew]
    rw [hl, List.append_assoc]

theorem hasherStackLoop_spec (kw : List Nat) (fl : Nat) :
    ∀ (m cnt : Nat) (B : List Nat) (stack : List (List Nat)) (l : List Output),
    SegStack kw fl stack l 0 → stack.length ≤ l.length → l.length = cnt →
    SegStack kw fl (hasherStackLoop kw fl m cnt stack B)
      (l ++ initChunkOutputsLoop kw fl m cnt B) 0
    ∧ (hasherStackLoop kw fl m cnt stack B).length
        ≤ (l ++ initChunkOutputsLoop kw fl m cnt B).length := by
  intro m
  induction m with
  | zero =>
    intro cnt B stack l hseg hlen _
    simp only [hasherStackLoop, initChunkOutputsLoop, List.append_nil]
    exact ⟨hseg, hlen.trans (by simp)⟩
  | succ m ih =>
    intro cnt B stack l hseg hlen hcnt
    rw [hasherStackLoop, initChunkOutputsLoop]
    by_cases hsmall : B.length ≤ CHUNK_LEN
    · rw [if_pos hsmall, if_pos hsmall]
      simp only [List.append_nil]
      exact ⟨hseg, hlen.trans (by simp)⟩
    · rw [if_neg hsmall, if_neg hsmall]
      have hstep := addChunkCVLoop_spec kw fl stack l
        [chunk_output kw fl cnt (B.take CHUNK_LEN)] 0 (cnt + 1) (cnt + 1) hseg
        (by simp) (by omega) (by simp [hcnt])
      rw [b3_singleton] at hstep
      have hlenstep : (addChunkCVLoop kw fl (cnt + 1) stack
          ((chunk_output kw fl cnt (B.take CHUNK_LEN)).chaining_value)
          (cnt + 1)).length
          ≤ (l ++ [chunk_output kw fl cnt (B.take CHUNK_LEN)]).length := by
        rw [List.length_append]
        calc (addChunkCVLoop kw fl (cnt + 1) stack
              ((chunk_output kw fl cnt (B.take CHUNK_LEN)).chaining_value)
              (cnt + 1)).length
            ≤ stack.length + 1 := addChunkCVLoop_length kw fl _ _ _ _
          _ ≤ l.length + [chunk_output kw fl cnt (B.take CHUNK_LEN)].length := by
              simp only [List.length_singleton]
              omega
      have hres := ih (cnt + 1) (B.drop CHUNK_LEN) _ _ hstep hlenstep
        (by simp [hcnt])
      rw [List.append_assoc] at hres
      simpa using hres

theorem leavesFromLoop_length_pos (kw : List Nat) (fl : Nat) (fuel cnt : Nat)
    (B : List Nat) (hf : 1 ≤ fuel) :
    1 ≤ (leavesFromLoop kw fl fuel cnt B).length := by
  obtain ⟨f, rfl⟩ : ∃ k, fuel = k + 1 := ⟨fuel - 1, by omega⟩
  rw [leavesFromLoop]
  split <;> simp

theorem root_slot (kw : List Nat) (f : Nat) (L : List Output) (t : BinaryMerkleTree)
    (hwf : TreeWF kw f L t) (hL : 1 ≤ L.length) :
    t.tree.getD 1 dOut = specRoot kw f L := by
  have hlive := hwf.2.2.2.2.2.2
  have h := hlive (halvings L.length) 0 le_rfl
    (by rw [pop_top_eq_one L.length (halvings L.length) hL rfl]; omega)
  rw [Nat.sub_self, pow_zero] at h
  exact h

theorem rob_root_idem (o : Output) (n : Nat) :
    Output.root_output_bytes { o with flags := o.flags ||| ROOT } n
      = Output.root_output_bytes o n := by
  simp only [Output.root_output_bytes, Nat.or_assoc, Nat.or_self]

theorem blake3Hash_eq (B : List Nat) :
    blake3Hash B = (b3 IV 0 (leavesOfInput IV 0 B)).root_output_bytes 32 := by
  by_cases hB : B = []
  · subst hB
    rfl
  · have hBpos : 1 ≤ B.length := List.length_pos.mpr hB
    have hCL : CHUNK_LEN = 1024 := rfl
    have hbound : B.length ≤ CHUNK_LEN * B.length := by rw [hCL]; nlinarith
    have hnew : Blake3Hasher.new
        = { chunk_state := ChunkState.new IV 0 0, key_words := IV,
            cv_stack := [], flags := 0 } := rfl
    rw [blake3Hash, Blake3Hasher.update, hnew]
    rw [hasherUpdateLoop_fresh IV 0 B.length B 0 [] B.length hB hbound le_rfl]
    rw [show Blake3Hasher.finalize
        { chunk_state := lastChunkStateLoop IV 0 B.length 0 B, key_words := IV,
          cv_stack := hasherStackLoop IV 0 B.length 0 [] B, flags := 0 } 32
        = (stackFinalize IV 0 (hasherStackLoop IV 0 B.length 0 [] B)
            (lastChunkStateLoop IV 0 B.length 0 B).output).root_output_bytes 32
      from rfl]
    have hseg0 : SegStack IV 0 ([] : List (List Nat)) ([] : List Output) 0 := rfl
    obtain ⟨hsegres, _⟩ :=
      hasherStackLoop_spec IV 0 B.length 0 B [] [] hseg0 le_rfl rfl
    rw [List.nil_append] at hsegres
    rw [segStack_stackFinalize IV 0 _ _
      [(lastChunkStateLoop IV 0 B.length 0 B).output] 0 _ hsegres
      (by simp) (by simp) (b3_singleton IV 0 _).symm]
    rw [leavesOfInput, leavesFromLoop_decomp IV 0 (B.length + 1) 0 B
      (by rw [hCL]; nlinarith)]
    rw [initChunkOutputsLoop_fuel IV 0 B.length (B.length + 1) 0 B hBpos (by omega)
      hbound (by rw [hCL] at hbound ⊢; nlinarith)]
    rw [lastChunkStateLoop_fuel IV 0 B.length (B.length + 1) 0 B hBpos (by omega)
      hbound (by rw [hCL] at hbound ⊢; nlinarith)]

theorem merkleHash_eq (B : List Nat) :
    merkleHash B = (b3 IV 0 (leavesOfInput IV 0 B)).root_output_bytes 32 := by
  have hL : 1 ≤ (leavesOfInput IV 0 B).length :=
    leavesFromLoop_length_pos IV 0 (B.length + 1) 0 B (by omega)
  have hwf := build_live IV 0 (leavesOfInput IV 0 B) hL
  rw [merkleHash, BinaryMerkleTree.from_input, process_input_to_chunks_eq]
  rw [show (BinaryMerkleTree.new_from_leaves (leavesOfInput IV 0 B) IV 0).root
      = { (BinaryMerkleTree.new_from_leaves (leavesOfInput IV 0 B) IV 0).tree.getD 1
            dOut with
          flags := ((BinaryMerkleTree.new_from_leaves (leavesOfInput IV 0 B) IV
            0).tree.getD 1 dOut).flags ||| ROOT } from rfl]
  rw [root_slot IV 0 _ _ hwf hL]
  rw [rob_root_idem]
  rw [specRoot_eq_b3 IV 0 (leavesOfInput IV 0 B).length _ le_rfl hL]

/-- C1: for every byte sequence `B`, building the Merkle tree with
`from_input(B, IV, 0)`, taking `root()`, and writing `root_output_bytes`
into a 32-byte destination yields exactly the bytes the streaming
`Blake3Hasher` oracle (`update(B)` then `finalize` into 32 bytes)
produces. -/
theorem claim_C1_oracle_agreement (B : List Nat) : merkleHash B = blake3Hash B := by
  rw [merkleHash_eq, blake3Hash_eq]

theorem leavesFromLoop_fuel (kw : List Nat) (fl : Nat) :
    ∀ (f1 f2 cnt : Nat) (B : List Nat), 1 ≤ f1 → 1 ≤ f2 →
    B.length ≤ CHUNK_LEN * f1 → B.length ≤ CHUNK_LEN * f2 →
    leavesFromLoop kw fl f1 cnt B = leavesFromLoop kw fl f2 cnt B := by
  intro f1
  induction f1 with
  | zero => intro f2 cnt B h1 _ _ _; omega
  | succ f1 ih =>
    intro f2 cnt B _ h2 hm1 hm2
    obtain ⟨f2', rfl⟩ : ∃ k, f2 = k + 1 := ⟨f2 - 1, by omega⟩
    rw [leavesFromLoop, leavesFromLoop]
    by_cases hsmall : B.length ≤ CHUNK_LEN
    · rw [if_pos hsmall, if_pos hsmall]
    · have hCL : CHUNK_LEN = 1024 := rfl
      rw [if_neg hsmall, if_neg hsmall]
      rw [hCL] at hsmall hm1 hm2
      refine congrArg _ (ih f2' (cnt + 1) (B.drop CHUNK_LEN) (by omega) (by omega)
        ?_ ?_) <;> simp only [List.length_drop, hCL] <;> omega

theorem leavesFromLoop_length_eq (kw : List Nat) (fl : Nat) :
    ∀ (fuel cnt : Nat) (B : List Nat), 1 ≤ fuel → B.length ≤ CHUNK_LEN * fuel →
    (leavesFromLoop kw fl fuel cnt B).length
      = max ((B.length + CHUNK_LEN - 1) / CHUNK_LEN) 1 := by
  intro fuel
  induction fuel with
  | zero => intro cnt B h1 _; omega
  | succ fuel ih =>
    intro cnt B _ hm
    have hCL : CHUNK_LEN = 1024 := rfl
    rw [leavesFromLoop]
    by_cases hsmall : B.length ≤ CHUNK_LEN
    · rw [if_pos hsmall]
      simp only [List.length_singleton]
      rw [hCL] at hsmall ⊢
      omega
    · rw [if_neg hsmall]
      simp only [List.length_cons]
      have hrec := ih (cnt + 1) (B.drop CHUNK_LEN)
        (by rw [hCL] at hsmall hm; omega)
        (by simp only [List.length_drop, hCL]; rw [hCL] at hm; omega)
      rw [hrec]
      simp only [List.length_drop, hCL]
      rw [hCL] at hsmall
      omega

theorem numChunks_eq (B : List Nat) :
    numChunks B = max ((B.length + CHUNK_LEN - 1) / CHUNK_LEN) 1 := by
  have hCL : CHUNK_LEN = 1024 := rfl
  rw [numChunks, leavesOfInput, leavesFromLoop_length_eq IV 0 (B.length + 1) 0 B
    (by omega) (by rw [hCL]; nlinarith)]

set_option maxRecDepth 8000 in
theorem leavesFromLoop_splice (kw : List Nat) (fl : Nat) :
    ∀ (i : Nat) (B repl : List Nat) (cnt f1 f2 : Nat),
    1 ≤ f1 →
    (B.take (CHUNK_LEN * i) ++ repl
      ++ B.drop (CHUNK_LEN * (i + 1))).length ≤ CHUNK_LEN * f1 →
    1 ≤ f2 → B.length ≤ CHUNK_LEN * f2 →
    (CHUNK_LEN * i < B.length ∨ i = 0) →
    repl.length ≤ CHUNK_LEN →
    (CHUNK_LEN * (i + 1) < B.length → repl.length = CHUNK_LEN) →
    (B.length ≤ CHUNK_LEN * (i + 1) → 1 ≤ repl.length ∨ i = 0) →
    leavesFromLoop kw fl f1 cnt
        (B.take (CHUNK_LEN * i) ++ repl ++ B.drop (CHUNK_LEN * (i + 1)))
      = (leavesFromLoop kw fl f2 cnt B).set i (chunk_output kw fl (cnt + i) repl) := by
  intro i
  induction i with
  | zero =>
    intro B repl cnt f1 f2 hf1 hm1 hf2 hm2 _ hlen hmid _
    have hCL : CHUNK_LEN = 1024 := rfl
    simp only [Nat.mul_zero, List.take_zero, List.nil_append] at hm1 ⊢
    obtain ⟨g1, rfl⟩ : ∃ k, f1 = k + 1 := ⟨f1 - 1, by omega⟩
    obtain ⟨g2, rfl⟩ : ∃ k, f2 = k + 1 := ⟨f2 - 1, by omega⟩
    by_cases hsmall : B.length ≤ CHUNK_LEN
    · have hdropnil : B.drop (CHUNK_LEN * (0 + 1)) = [] :=
        List.drop_eq_nil_of_le (by rw [hCL] at hsmall ⊢; omega)
      rw [hdropnil, List.append_nil]
      rw [leavesFromLoop, if_pos hlen, leavesFromLoop, if_pos hsmall]
      simp only [List.set_cons_zero, Nat.add_zero]
    · have hrepl : repl.length = CHUNK_LEN := by
        refine hmid ?_
        rw [hCL] at hsmall ⊢
        omega
      rw [show CHUNK_LEN * (0 + 1) = CHUNK_LEN by omega]
      have hB'big : ¬((repl ++ B.drop CHUNK_LEN).length ≤ CHUNK_LEN) := by
        simp only [List.length_append, List.length_drop]
        rw [hCL] at hrepl hsmall ⊢
        omega
      rw [leavesFromLoop, if_neg hB'big, leavesFromLoop, if_neg hsmall]
      have htk : (repl ++ B.drop CHUNK_LEN).take CHUNK_LEN = repl := by
        rw [← hrepl, List.take_left]
      have hdr : (repl ++ B.drop CHUNK_LEN).drop CHUNK_LEN = B.drop CHUNK_LEN := by
        rw [← hrepl, List.drop_left]
      rw [htk, hdr]
      simp only [List.set_cons_zero, Nat.add_zero]
      refine congrArg _ (leavesFromLoop_fuel kw fl g1 g2 (cnt + 1) (B.drop CHUNK_LEN)
        ?_ ?_ ?_ ?_)
      · simp only [List.length_append, List.length_drop, hCL] at hm1
        rw [hCL] at hrepl hsmall
        omega
      · rw [hCL] at hsmall hm2
        omega
      · simp only [List.length_drop, hCL]
        simp only [List.length_append, List.length_drop, hCL] at hm1
        rw [hCL] at hrepl
        omega
      · simp only [List.length_drop, hCL]
        rw [hCL] at hm2
        omega
  | succ i ih =>
    intro B repl cnt f1 f2 hf1 hm1 hf2 hm2 hvalid hlen hmid hlast
    have hCL : CHUNK_LEN = 1024 := rfl
    have hBbig : CHUNK_LEN * (i + 1) < B.length := by
      rcases hvalid with h | h
      · exact h
      · omega
    have hsmall : ¬(B.length ≤ CHUNK_LEN) := by
      rw [hCL] at hBbig ⊢
      omega
    have hcases : 1 ≤ repl.length := by
      by_cases hend : CHUNK_LEN * (i + 1 + 1) < B.length
      · have := hmid hend
        rw [hCL] at this
        omega
      · rcases hlast (by omega) with h | h
        · exact h
        · omega
    obtain ⟨g1, rfl⟩ : ∃ k, f1 = k + 1 := ⟨f1 - 1, by omega⟩
    obtain ⟨g2, rfl⟩ : ∃ k, f2 = k + 1 := ⟨f2 - 1, by omega⟩
    have htl : CHUNK_LEN ≤ (B.take (CHUNK_LEN * (i + 1))).length := by
      rw [List.length_take]
      rw [hCL] at hBbig ⊢
      omega
    have hB'len : (B.take (CHUNK_LEN * (i + 1)) ++ repl
        ++ B.drop (CHUNK_LEN * (i + 1 + 1))).length
        = CHUNK_LEN * (i + 1) + repl.length
          + (B.length - CHUNK_LEN * (i + 1 + 1)) := by
      simp only [List.length_append, List.length_take, List.length_drop]
      rw [hCL] at hBbig ⊢
      omega
    have hB'big : ¬((B.take (CHUNK_LEN * (i + 1)) ++ repl
        ++ B.drop (CHUNK_LEN * (i + 1 + 1))).length ≤ CHUNK_LEN) := by
      rw [hB'len, hCL]
      omega
    rw [leavesFromLoop, if_neg hB'big, leavesFromLoop, if_neg hsmall]
    have hhead : (B.take (CHUNK_LEN * (i + 1)) ++ repl
        ++ B.drop (CHUNK_LEN * (i + 1 + 1))).take CHUNK_LEN
        = B.take CHUNK_LEN := by
      rw [List.append_assoc, List.take_append_of_le_length htl, List.take_take]
      congr 1
      rw [hCL]
      omega
    have hdrop : (B.take (CHUNK_LEN * (i + 1)) ++ repl
        ++ B.drop (CHUNK_LEN * (i + 1 + 1))).drop CHUNK_LEN
        = (B.drop CHUNK_LEN).take (CHUNK_LEN * i) ++ repl
          ++ (B.drop CHUNK_LEN).drop (CHUNK_LEN * (i + 1)) := by
      rw [List.append_assoc, List.drop_append_of_le_length htl, List.drop_take]
      rw [show CHUNK_LEN * (i + 1) - CHUNK_LEN = CHUNK_LEN * i by rw [hCL]; omega]
      rw [show B.drop (CHUNK_LEN * (i + 1 + 1))
          = (B.drop CHUNK_LEN).drop (CHUNK_LEN * (i + 1)) by
        rw [List.drop_drop]
        congr 1
        rw [hCL]
        omega]
      rw [List.append_assoc]
    rw [hhead, hdrop]
    simp only [List.set_cons_succ]
    refine congrArg _ ?_
    have htail_len : ((B.drop CHUNK_LEN).take (CHUNK_LEN * i) ++ repl
        ++ (B.drop CHUNK_LEN).drop (CHUNK_LEN * (i + 1))).length
        = (B.take (CHUNK_LEN * (i + 1)) ++ repl
          ++ B.drop (CHUNK_LEN * (i + 1 + 1))).length - CHUNK_LEN := by
      rw [← hdrop, List.length_drop]
    have hc : cnt + (i + 1) = cnt + 1 + i := by omega
    rw [hc]
    refine ih (B.drop CHUNK_LEN) repl (cnt + 1) g1 g2 ?_ ?_ ?_ ?_ ?_ hlen ?_ ?_
    · rw [hB'len, hCL] at hm1
      omega
    · rw [htail_len, hB'len]
      rw [hB'len] at hm1
      rw [hCL] at hm1 ⊢
      omega
    · rw [hCL] at hm2 hBbig
      omega
    · simp only [List.length_drop, hCL]
      rw [hCL] at hm2
      omega
    · left
      simp only [List.length_drop]
      rw [hCL] at hBbig ⊢
      omega
    · intro hlt
      refine hmid ?_
      simp only [List.length_drop, hCL] at hlt
      rw [hCL]
      omega
    · intro _
      exact Or.inl hcases

theorem root_bytes_of_wf (kw : List Nat) (f : Nat) (L : List Output)
    (t : BinaryMerkleTree) (hwf : TreeWF kw f L t) (hL : 1 ≤ L.length) :
    t.root.root_output_bytes 32 = (b3 kw f L).root_output_bytes 32 := by
  rw [show t.root = { t.tree.getD 1 dOut with
      flags := (t.tree.getD 1 dOut).flags ||| ROOT } from rfl]
  rw [root_slot kw f L t hwf hL, rob_root_idem,
    specRoot_eq_b3 kw f L.length L le_rfl hL]

theorem leaves_splice (B repl : List Nat) (i : Nat)
    (hi : i < numChunks B) (hlen : repl.length ≤ CHUNK_LEN)
    (hmid : i + 1 < numChunks B → repl.length = CHUNK_LEN)
    (hlast : i + 1 = numChunks B → 1 ≤ repl.length ∨ i = 0) :
    leavesOfInput IV 0 (spliceChunk B i repl)
      = (leavesOfInput IV 0 B).set i (chunk_output IV 0 i repl) := by
  have hCL : CHUNK_LEN = 1024 := rfl
  have hnum := numChunks_eq B
  rw [hnum] at hi
  rw [hCL] at hi
  have hc5 : CHUNK_LEN * i < B.length ∨ i = 0 := by
    rw [hCL]
    omega
  have hc7 : CHUNK_LEN * (i + 1) < B.length → repl.length = CHUNK_LEN := by
    intro h
    refine hmid ?_
    rw [hnum, hCL]
    rw [hCL] at h
    omega
  have hc8 : B.length ≤ CHUNK_LEN * (i + 1) → 1 ≤ repl.length ∨ i = 0 := by
    intro h
    refine hlast ?_
    rw [hnum, hCL]
    rw [hCL] at h
    omega
  rw [leavesOfInput, leavesOfInput, spliceChunk]
  have hres := leavesFromLoop_splice IV 0 i B repl 0
    ((B.take (CHUNK_LEN * i) ++ repl ++ B.drop (CHUNK_LEN * (i + 1))).length + 1)
    (B.length + 1) (by omega) (by rw [hCL]; nlinarith) (by omega)
    (by rw [hCL]; nlinarith) hc5 hlen hc7 hc8
  simpa using hres

/-- C2 (amended): for any byte sequence `B`, chunk index `i < numChunks B`,
and replacement bytes of length at most `CHUNK_LEN` that preserve the
chunk boundaries (a non-final chunk gets exactly `CHUNK_LEN` bytes; the
final chunk stays non-empty unless the tree has a single chunk),
`insert_leaf(i, chunk_output(i, repl))` on the tree built from `B`
succeeds and the new root hashes to the canonical BLAKE3 hash of the
spliced byte sequence.  The original claim omits the boundary
conditions. -/
theorem claim_C2_leaf_update (B repl : List Nat) (i : Nat)
    (hi : i < numChunks B) (hlen : repl.length ≤ CHUNK_LEN)
    (hmid : i + 1 < numChunks B → repl.length = CHUNK_LEN)
    (hlast : i + 1 = numChunks B → 1 ≤ repl.length ∨ i = 0) :
    ∃ t', (BinaryMerkleTree.from_input B IV 0).insert_leaf i
        (chunk_output IV 0 i repl) = some t'
      ∧ t'.root.root_output_bytes 32 = blake3Hash (spliceChunk B i repl) := by
  have hL : 1 ≤ (leavesOfInput IV 0 B).length :=
    leavesFromLoop_length_pos IV 0 (B.length + 1) 0 B (by omega)
  have hwf := build_live IV 0 (leavesOfInput IV 0 B) hL
  have hiL : i < (leavesOfInput IV 0 B).length := hi
  obtain ⟨hins, hwf2⟩ := insert_leaf_rebuild IV 0 (leavesOfInput IV 0 B)
    (BinaryMerkleTree.new_from_leaves (leavesOfInput IV 0 B) IV 0) hwf i hiL
    (chunk_output IV 0 i repl)
  have hL' : 1 ≤ ((leavesOfInput IV 0 B).set i (chunk_output IV 0 i repl)).length := by
    rw [List.length_set]
    exact hL
  rw [BinaryMerkleTree.from_input, process_input_to_chunks_eq]
  exact ⟨_, hins, by
    rw [root_bytes_of_wf IV 0 _ _ hwf2 hL', blake3Hash_eq,
      leaves_splice B repl i hi hlen hmid hlast]⟩

set_option maxRecDepth 100000 in
/-- C2 counterexample: on the two-chunk input `cexBytes` (1025 bytes), the
chunk index `0` and the one-byte replacement `[7]` satisfy every
hypothesis of the claim (`0 < numChunks`, replacement length at most
`CHUNK_LEN`), yet the root after `insert_leaf(0, chunk_output(0, [7]))`
does not hash to the BLAKE3 hash of the spliced bytes: splicing a short
chunk into a non-final position shifts the chunk boundaries (the spliced
sequence has a single chunk), which the two-leaf tree cannot represent. -/
theorem claim_C2_counterexample :
    0 < numChunks cexBytes
    ∧ (List.length [7] ≤ CHUNK_LEN)
    ∧ ((BinaryMerkleTree.from_input cexBytes IV 0).insert_leaf 0
        (chunk_output IV 0 0 [7])).map (fun t => t.root.root_output_bytes 32)
      ≠ some (blake3Hash (spliceChunk cexBytes 0 [7])) := by
  refine ⟨by decide, by decide, by decide⟩

/-- C2 witness: the amended theorem applied at the single-chunk input
`[1]` with replacement `[2]` at index `0`. -/
theorem claim_C2_witness :
    0 < numChunks [1] ∧
    ∃ t', (BinaryMerkleTree.from_input [1] IV 0).insert_leaf 0
        (chunk_output IV 0 0 [2]) = some t'
      ∧ t'.root.root_output_bytes 32 = blake3Hash (spliceChunk [1] 0 [2]) :=
  ⟨by decide, claim_C2_leaf_update [1] [2] 0 (by decide) (by decide)
    (by decide) (by decide)⟩

theorem sibling_half (c : Nat) (hc : 2 ≤ c) : (c ^^^ 1) / 2 = c / 2 := by
  rw [xor_one_eq]
  by_cases h : c % 2 = 0
  · rw [if_pos h]
    omega
  · rw [if_neg h]
    omega

theorem sibling_range (c m : Nat) (h1 : 2 ^ m ≤ c) (h2 : c < 2 ^ (m + 1))
    (hm : 1 ≤ m) : 2 ^ m ≤ c ^^^ 1 ∧ c ^^^ 1 < 2 ^ (m + 1) := by
  have he1 : (2:Nat) ^ m = 2 * 2 ^ (m - 1) := by
    rw [← pow_succ']
    congr 1
    omega
  have he2 : (2:Nat) ^ (m + 1) = 2 * 2 ^ m := by rw [pow_succ]; ring
  rw [xor_one_eq]
  by_cases h : c % 2 = 0
  · rw [if_pos h]
    omega
  · rw [if_neg h]
    omega

theorem div_pow_le_half (x d : Nat) (hd : 1 ≤ d) : x / 2 ^ d ≤ x / 2 := by
  have h2 : (2:Nat) ≤ 2 ^ d := by
    calc (2:Nat) = 2 ^ 1 := (pow_one 2).symm
    _ ≤ 2 ^ d := Nat.pow_le_pow_right (by norm_num) hd
  exact Nat.div_le_div_left h2 (by norm_num)

theorem div_pow_peel (x d : Nat) (hd : 1 ≤ d) : x / 2 ^ d = x / 2 / 2 ^ (d - 1) := by
  rw [Nat.div_div_eq_div_mul]
  congr 1
  rw [← pow_succ']
  congr 1
  omega

theorem bulkLoop_succ (fuel : Nat) (t : BinaryMerkleTree) (c : Nat)
    (rest : List Nat) :
    BinaryMerkleTree.bulkLoop (fuel + 1) t (c :: rest) =
      if c = 1 then t
      else
        BinaryMerkleTree.bulkLoop fuel (insertStepTree t c)
          ((match rest with
            | next :: tail => if next = get_sibling_index c then tail else rest
            | [] => rest) ++ [(t.get_tree_indices c).2.2.1]) := rfl

theorem bulkLoop_live (kw : List Nat) (f : Nat) (L' : List Output) (n τ : Nat)
    (hn : L'.length = n) (hτ : halvings n = τ) :
    ∀ (M fuel k : Nat) (A B : List Nat) (t : BinaryMerkleTree),
    fuel + (τ - k) ≤ M →
    k ≤ τ →
    (k = τ → B = []) →
    (∀ c ∈ A, 2 ^ (τ - k) ≤ c ∧ c < 2 ^ (τ - k + 1)) →
    (∀ c ∈ B, 2 ^ (τ - (k + 1)) ≤ c ∧ c < 2 ^ (τ - k)) →
    t.actual_leaves = n → t.leaf_start_index = 2 ^ τ → t.key_words = kw →
    t.flags = f → t.number_of_leaves = 2 ^ τ → t.tree.length = 2 * 2 ^ τ →
    (A ++ B).sum + (A ++ B).length ≤ fuel →
    (∀ k' j, k' ≤ τ → j < ceilHalfIter n k' →
      (∀ c ∈ A ++ B, ∀ d, 1 ≤ d → 2 ^ (τ - k') + j ≠ c / 2 ^ d) →
      t.tree.getD (2 ^ (τ - k') + j) dOut = (stepIter kw f k' L').getD j dOut) →
    (BinaryMerkleTree.bulkLoop fuel t (A ++ B)).actual_leaves = n ∧
    (BinaryMerkleTree.bulkLoop fuel t (A ++ B)).leaf_start_index = 2 ^ τ ∧
    (BinaryMerkleTree.bulkLoop fuel t (A ++ B)).key_words = kw ∧
    (BinaryMerkleTree.bulkLoop fuel t (A ++ B)).flags = f ∧
    (BinaryMerkleTree.bulkLoop fuel t (A ++ B)).number_of_leaves = 2 ^ τ ∧
    (BinaryMerkleTree.bulkLoop fuel t (A ++ B)).tree.length = 2 * 2 ^ τ ∧
    (∀ k' j, k' ≤ τ → j < ceilHalfIter n k' →
      (BinaryMerkleTree.bulkLoop fuel t (A ++ B)).tree.getD (2 ^ (τ - k') + j) dOut
        = (stepIter kw f k' L').getD j dOut) := by
  intro M
  induction M with
  | zero =>
    intro fuel k A B t hM hk hkB hA hB hact hP hkw hfl hnum htlen hfuel hclean
    have hfuel0 : fuel = 0 := by omega
    subst hfuel0
    rcases A with _ | ⟨a, A'⟩
    · rcases B with _ | ⟨b, B'⟩
      · refine ⟨hact, hP, hkw, hfl, hnum, htlen, ?_⟩
        intro k' j hk' hj
        exact hclean k' j hk' hj (by intro x hx; simp at hx)
      · simp only [List.nil_append, List.length_cons] at hfuel
        omega
    · simp only [List.cons_append, List.length_cons] at hfuel
      omega
  | succ M ih =>
    intro fuel k A B t hM hk hkB hA hB hact hP hkw hfl hnum htlen hfuel hclean
    rcases fuel with _ | g
    · rcases A with _ | ⟨a, A'⟩
      · rcases B with _ | ⟨b, B'⟩
        · refine ⟨hact, hP, hkw, hfl, hnum, htlen, ?_⟩
          intro k' j hk' hj
          exact hclean k' j hk' hj (by intro x hx; simp at hx)
        · simp only [List.nil_append, List.length_cons] at hfuel
          omega
      · simp only [List.cons_append, List.length_cons] at hfuel
        omega
    · rcases A with _ | ⟨c, A'⟩
      · rcases B with _ | ⟨b, B'⟩
        · rw [show (([] : List Nat) ++ []) = ([] : List Nat) from rfl]
          rw [show BinaryMerkleTree.bulkLoop (g + 1) t [] = t from rfl]
          refine ⟨hact, hP, hkw, hfl, hnum, htlen, ?_⟩
          intro k' j hk' hj
          exact hclean k' j hk' hj (by intro x hx; simp at hx)
        · have hklt : k < τ := by
            by_contra hcon
            have hkeq : k = τ := by omega
            have := hkB hkeq
            simp at this
          have hres := ih (g + 1) (k + 1) (b :: B') [] t (by omega) (by omega)
            (by intro _; rfl)
            (by
              intro x hx
              have hx2 := hB x hx
              have hE : τ - (k + 1) + 1 = τ - k := by omega
              rw [hE]
              exact hx2)
            (by intro x hx; simp at hx)
            hact hP hkw hfl hnum htlen
            (by simpa using hfuel)
            (by
              intro k' j hk' hj hanc
              refine hclean k' j hk' hj ?_
              intro x hx
              refine hanc x ?_
              simpa using hx)
          rw [List.append_nil] at hres
          simpa using hres
      · by_cases hc1 : c = 1
        · subst hc1
          rw [show ((1 :: A') ++ B) = 1 :: (A' ++ B) from rfl]
          rw [bulkLoop_succ, if_pos rfl]
          have hcA := hA 1 (by simp)
          have hkτ : k = τ := by
            by_contra hcon
            have hp2 : (2:Nat) ^ 1 ≤ 2 ^ (τ - k) :=
              Nat.pow_le_pow_right (by norm_num) (by omega)
            rw [pow_one] at hp2
            omega
          have hBnil := hkB hkτ
          subst hBnil
          refine ⟨hact, hP, hkw, hfl, hnum, htlen, ?_⟩
          intro k' j hk' hj
          refine hclean k' j hk' hj ?_
          intro x hx d hd
          have hx1 : x = 1 := by
            rcases List.mem_cons.mp hx with h | h
            · exact h
            · have hmem : x ∈ A' := by simpa using h
              have := hA x (List.mem_cons_of_mem _ hmem)
              rw [hkτ] at this
              simp at this
              omega
          subst hx1
          have hdiv : 1 / 2 ^ d = 0 := by
            have h2 : (2:Nat) ≤ 2 ^ d := by
              calc (2:Nat) = 2 ^ 1 := (pow_one 2).symm
              _ ≤ 2 ^ d := Nat.pow_le_pow_right (by norm_num) hd
            exact Nat.div_eq_of_lt (by omega)
          rw [hdiv]
          have hp1 : (1:Nat) ≤ 2 ^ (τ - k') := Nat.one_le_two_pow
          omega
        · -- main step: c ≥ 2 at level k
          have hcA := hA c (by simp)
          have hone : (1:Nat) ≤ 2 ^ (τ - k) := Nat.one_le_two_pow
          have hc2 : 2 ≤ c := by omega
          have hklt : k < τ := by
            by_contra hcon
            have hkeq : τ - k = 0 := by omega
            rw [hkeq] at hcA
            norm_num at hcA
            omega
          have hsplitpow : (2:Nat) ^ (τ - k) = 2 * 2 ^ (τ - (k + 1)) := by
            rw [← pow_succ']
            congr 1
            omega
          have hsplitpow2 : (2:Nat) ^ (τ - k + 1) = 2 * 2 ^ (τ - k) := by
            rw [pow_succ]
            ring
          have hpbound : 2 ^ (τ - (k + 1)) ≤ c / 2 ∧ c / 2 < 2 ^ (τ - k) := by
            constructor <;> omega
          obtain ⟨jp, hjp_def⟩ : ∃ jp, c / 2 = 2 ^ (τ - (k + 1)) + jp :=
            ⟨c / 2 - 2 ^ (τ - (k + 1)), by omega⟩
          have hjp_lt : jp < 2 ^ (τ - (k + 1)) := by omega
          have hq := get_tree_indices_spec t k c
            (by rw [hact, hτ]; exact hP)
            (by rw [hact, hτ]; omega)
            (by rw [hact, hτ]; exact hcA.1)
            (by rw [hact, hτ]; omega)
          rw [hact, hτ] at hq
          have hq1 : (t.get_tree_indices c).1 = 2 * (c / 2) := by rw [hq]
          have hq21 : (t.get_tree_indices c).2.1 = 2 * (c / 2) + 1 := by rw [hq]
          have hq221 : (t.get_tree_indices c).2.2.1 = c / 2 := by rw [hq]
          have hq222 : (t.get_tree_indices c).2.2.2
              = decide (2 * (c / 2) + 1 < 2 ^ (τ - k) + ceilHalfIter n k) := by
            rw [hq]
          have hlenL' : (stepIter kw f k L').length = ceilHalfIter n k := by
            rw [stepIter_length, hn]
          have hxlt_all : ∀ x ∈ (c :: A') ++ B, x < 2 ^ (τ - k + 1) := by
            intro x hx
            rcases List.mem_append.mp hx with h | h
            · exact (hA x h).2
            · have := (hB x h).2
              omega
          have hreadk : ∀ j', j' < ceilHalfIter n k →
              t.tree.getD (2 ^ (τ - k) + j') dOut
                = (stepIter kw f k L').getD j' dOut := by
            intro j' hj'
            refine hclean k j' (by omega) hj' ?_
            intro x hx d hd
            have hxlt := hxlt_all x hx
            have hd2 : x / 2 ^ d ≤ x / 2 := div_pow_le_half x d hd
            have hhalf : x / 2 < 2 ^ (τ - k) := by omega
            omega
          have h2jpv : jp < ceilHalfIter n (k + 1) → 2 * jp < ceilHalfIter n k := by
            intro hjlive
            have := ceilHalfIter_succ_outer k n
            omega
          have hwrite : jp < ceilHalfIter n (k + 1) →
              (if decide (2 * (c / 2) + 1 < 2 ^ (τ - k) + ceilHalfIter n k) = true then
                parent_output (t.tree.getD (2 * (c / 2)) dOut).chaining_value
                  (t.tree.getD (2 * (c / 2) + 1) dOut).chaining_value kw f
              else t.tree.getD (2 * (c / 2)) dOut)
              = (stepIter kw f (k + 1) L').getD jp dOut := by
            intro hjlive
            have h2jp := h2jpv hjlive
            have hchild : 2 * (c / 2) = 2 ^ (τ - k) + 2 * jp := by omega
            simp only [decide_eq_true_eq]
            rw [stepIter_succ_outer,
              specStep_getD kw f (stepIter kw f k L') jp (by rw [hlenL']; omega),
              hlenL', hchild]
            by_cases hored : 2 * jp + 1 < ceilHalfIter n k
            · rw [if_pos (by omega), if_pos hored, hreadk (2 * jp) (by omega),
                show 2 ^ (τ - k) + 2 * jp + 1 = 2 ^ (τ - k) + (2 * jp + 1) by omega,
                hreadk (2 * jp + 1) hored]
            · rw [if_neg (by omega), if_neg hored, hreadk (2 * jp) (by omega)]
          have hform : ∃ V, (insertStepTree t c).tree = t.tree.set (c / 2) V ∧
              (jp < ceilHalfIter n (k + 1) →
                V = (stepIter kw f (k + 1) L').getD jp dOut) := by
            refine ⟨_, ?_, hwrite⟩
            show (t.tree.set (t.get_tree_indices c).2.2.1 _) = _
            rw [hq]
            dsimp only
            rw [hkw, hfl]
          obtain ⟨V, hformT, hformV⟩ := hform
          have hcleangen : ∀ (Q2 : List Nat), (c / 2) ∈ Q2 →
              (∀ x, x ∈ (c :: A') ++ B → x = c ∨ x = c ^^^ 1 ∨ x ∈ Q2) →
              ∀ k' j, k' ≤ τ → j < ceilHalfIter n k' →
              (∀ x ∈ Q2, ∀ d, 1 ≤ d → 2 ^ (τ - k') + j ≠ x / 2 ^ d) →
              (insertStepTree t c).tree.getD (2 ^ (τ - k') + j) dOut
                = (stepIter kw f k' L').getD j dOut := by
            intro Q2 hpQ2 hcover k' j hk' hj hanc
            rw [hformT]
            by_cases hhit : 2 ^ (τ - k') + j = c / 2
            · rw [hjp_def] at hhit
              obtain ⟨hks, hjs⟩ := slot_unique τ k' (k + 1) j jp (by omega) (by omega)
                (by
                  have := pop_le_levelStart n τ k' hτ (by omega)
                  omega)
                hjp_lt hhit
              have hkk : k' = k + 1 := by omega
              subst hkk
              subst hjs
              have hplen : c / 2 < t.tree.length := by
                have hle : (2:Nat) ^ (τ - k) ≤ 2 ^ τ :=
                  Nat.pow_le_pow_right (by norm_num) (by omega)
                omega
              rw [show (2:Nat) ^ (τ - (k + 1)) + j = c / 2 by omega,
                getD_set_eq _ _ _ hplen]
              exact (hformV hj).symm ▸ rfl
            · rw [getD_set_ne _ _ _ _ (fun h => hhit h.symm)]
              refine hclean k' j hk' hj ?_
              intro x hx d hd
              rcases hcover x hx with rfl | hxs | hxQ
              · rcases Nat.eq_or_lt_of_le hd with hd1 | hd2
                · have hformd : x / 2 ^ d = x / 2 := by rw [← hd1, pow_one]
                  rw [hformd]
                  exact hhit
                · rw [div_pow_peel x d hd]
                  exact hanc (x / 2) hpQ2 (d - 1) (by omega)
              · have hsib : (c ^^^ 1) / 2 = c / 2 := sibling_half c hc2
                rcases Nat.eq_or_lt_of_le hd with hd1 | hd2
                · have hformd : x / 2 ^ d = c / 2 := by
                    rw [hxs, ← hd1, pow_one, hsib]
                  rw [hformd]
                  exact hhit
                · rw [hxs, div_pow_peel _ d hd, hsib]
                  exact hanc (c / 2) hpQ2 (d - 1) (by omega)
              · exact hanc x hxQ d hd
          have hfields : (insertStepTree t c).actual_leaves = n ∧
              (insertStepTree t c).leaf_start_index = 2 ^ τ ∧
              (insertStepTree t c).key_words = kw ∧
              (insertStepTree t c).flags = f ∧
              (insertStepTree t c).number_of_leaves = 2 ^ τ ∧
              (insertStepTree t c).tree.length = 2 * 2 ^ τ := by
            refine ⟨hact, hP, hkw, hfl, hnum, ?_⟩
            rw [hformT, List.length_set]
            exact htlen
          have hsum_cons : ∀ (x : Nat) (l : List Nat), (x :: l).sum = x + l.sum := by
            intro x l
            simp
          rw [show ((c :: A') ++ B) = c :: (A' ++ B) from rfl]
          rw [bulkLoop_succ, if_neg hc1, hq221]
          rcases A' with _ | ⟨c2, A''⟩
          · rcases B with _ | ⟨b, B'⟩
            · -- queue was [c]; new queue = [c/2]
              have hres := ih g k [] [c / 2] (insertStepTree t c) (by omega) (by omega)
                (by intro hkeq; omega)
                (by intro x hx; simp at hx)
                (by
                  intro x hx
                  simp only [List.mem_singleton] at hx
                  subst hx
                  exact ⟨hpbound.1, hpbound.2⟩)
                hfields.1 hfields.2.1 hfields.2.2.1 hfields.2.2.2.1
                hfields.2.2.2.2.1 hfields.2.2.2.2.2
                (by
                  simp at hfuel ⊢
                  omega)
                (by
                  intro k' j hk' hj hanc
                  refine hcleangen [c / 2] (by simp) ?_ k' j hk' hj ?_
                  · intro x hx
                    simp only [List.cons_append, List.append_nil,
                      List.mem_singleton] at hx
                    simp [hx]
                  · intro x hx d hd
                    refine hanc x ?_ d hd
                    simpa using hx)
              simpa using hres
            · -- queue was [c] ++ (b :: B'); rest = b :: B', b not the sibling
              have hbne : ¬(b = get_sibling_index c) := by
                have hbran := hB b (by simp)
                have hsr := sibling_range c (τ - k) hcA.1 (by omega) (by omega)
                show ¬(b = c ^^^ 1)
                omega
              rw [show (match ([] : List Nat) ++ b :: B' with
                  | next :: tail => if next = get_sibling_index c then tail
                    else ([] : List Nat) ++ b :: B'
                  | [] => ([] : List Nat) ++ b :: B') = if b = get_sibling_index c
                    then B' else b :: B' from rfl]
              rw [if_neg hbne]
              have hres := ih g k [] ((b :: B') ++ [c / 2]) (insertStepTree t c)
                (by omega) (by omega)
                (by intro hkeq; omega)
                (by intro x hx; simp at hx)
                (by
                  intro x hx
                  rcases List.mem_append.mp hx with h | h
                  · exact hB x h
                  · simp only [List.mem_singleton] at h
                    subst h
                    exact ⟨hpbound.1, hpbound.2⟩)
                hfields.1 hfields.2.1 hfields.2.2.1 hfields.2.2.2.1
                hfields.2.2.2.2.1 hfields.2.2.2.2.2
                (by
                  simp at hfuel ⊢
                  omega)
                (by
                  intro k' j hk' hj hanc
                  refine hcleangen ((b :: B') ++ [c / 2]) (by simp) ?_ k' j hk' hj ?_
                  · intro x hx
                    rcases List.mem_cons.mp hx with h | h
                    · exact Or.inl h
                    · refine Or.inr (Or.inr ?_)
                      exact List.mem_append.mpr (Or.inl (by simpa using h))
                  · intro x hx d hd
                    exact hanc x (by simpa using hx) d hd)
              simpa using hres
          · -- A' = c2 :: A''
            rw [show (match (c2 :: A'') ++ B with
                | next :: tail => if next = get_sibling_index c then tail
                  else (c2 :: A'') ++ B
                | [] => (c2 :: A'') ++ B) = if c2 = get_sibling_index c
                  then A'' ++ B else (c2 :: A'') ++ B from rfl]
            by_cases hc2sib : c2 = get_sibling_index c
            · rw [if_pos hc2sib]
              have hres := ih g k A'' (B ++ [c / 2]) (insertStepTree t c)
                (by omega) (by omega)
                (by intro hkeq; omega)
                (by intro x hx; exact hA x (by simp [hx]))
                (by
                  intro x hx
                  rcases List.mem_append.mp hx with h | h
                  · exact hB x h
                  · simp only [List.mem_singleton] at h
                    subst h
                    exact ⟨hpbound.1, hpbound.2⟩)
                hfields.1 hfields.2.1 hfields.2.2.1 hfields.2.2.2.1
                hfields.2.2.2.2.1 hfields.2.2.2.2.2
                (by
                  simp at hfuel ⊢
                  omega)
                (by
                  intro k' j hk' hj hanc
                  refine hcleangen (A'' ++ (B ++ [c / 2])) (by simp) ?_ k' j hk' hj ?_
                  · intro x hx
                    rcases List.mem_cons.mp hx with h | h
                    · exact Or.inl h
                    · rcases List.mem_cons.mp h with h2 | h2
                      · refine Or.inr (Or.inl ?_)
                        rw [h2, hc2sib]
                        rfl
                      · refine Or.inr (Or.inr ?_)
                        rcases List.mem_append.mp h2 with h3 | h3
                        · exact List.mem_append.mpr (Or.inl h3)
                        · exact List.mem_append.mpr (Or.inr
                            (List.mem_append.mpr (Or.inl h3)))
                  · intro x hx d hd
                    exact hanc x hx d hd)
              rw [← List.append_assoc] at hres
              exact hres
            · rw [if_neg hc2sib]
              have hres := ih g k (c2 :: A'') (B ++ [c / 2]) (insertStepTree t c)
                (by omega) (by omega)
                (by intro hkeq; omega)
                (by intro x hx; exact hA x (by simp [hx]))
                (by
                  intro x hx
                  rcases List.mem_append.mp hx with h | h
                  · exact hB x h
                  · simp only [List.mem_singleton] at h
                    subst h
                    exact ⟨hpbound.1, hpbound.2⟩)
                hfields.1 hfields.2.1 hfields.2.2.1 hfields.2.2.2.1
                hfields.2.2.2.2.1 hfields.2.2.2.2.2
                (by
                  simp at hfuel ⊢
                  omega)
                (by
                  intro k' j hk' hj hanc
                  refine hcleangen ((c2 :: A'') ++ (B ++ [c / 2])) (by simp) ?_
                    k' j hk' hj ?_
                  · intro x hx
                    rcases List.mem_cons.mp hx with h | h
                    · exact Or.inl h
                    · exact Or.inr (Or.inr (by
                        rcases List.mem_append.mp h with h' | h'
                        · exact List.mem_append.mpr (Or.inl h')
                        · exact List.mem_append.mpr (Or.inr
                            (List.mem_append.mpr (Or.inl h')))))
                  · intro x hx d hd
                    exact hanc x hx d hd)
              rw [← List.append_assoc] at hres
              exact hres

theorem foldl_add_sum : ∀ (l : List Nat) (a : Nat), l.foldl (· + ·) a = a + l.sum := by
  intro l
  induction l with
  | nil => intro a; simp
  | cons x rest ih =>
    intro a
    simp only [List.foldl_cons, List.sum_cons, ih]
    omega

theorem shift_div (τ d i : Nat) (hd : d ≤ τ) :
    (2 ^ τ + i) / 2 ^ d = 2 ^ (τ - d) + i / 2 ^ d := by
  have hsplit : (2:Nat) ^ τ = 2 ^ d * 2 ^ (τ - d) := by
    rw [← pow_add]
    congr 1
    omega
  rw [hsplit, Nat.add_comm (2 ^ d * 2 ^ (τ - d)) i,
    Nat.add_mul_div_left i (2 ^ (τ - d)) (pow_pos (by norm_num) d), Nat.add_comm]

theorem setLeaves_length : ∀ (ups : List (Nat × Output)) (L : List Output),
    (setLeaves L ups).length = L.length := by
  intro ups
  induction ups with
  | nil => intro L; rfl
  | cons pr rest ih =>
    intro L
    match pr with
    | (i, o) =>
      show (setLeaves (L.set i o) rest).length = _
      rw [ih, List.length_set]

theorem setLeaves_getD_not_mem : ∀ (ups : List (Nat × Output)) (L : List Output)
    (j : Nat), (∀ pr ∈ ups, pr.1 ≠ j) →
    (setLeaves L ups).getD j dOut = L.getD j dOut := by
  intro ups
  induction ups with
  | nil => intro L j _; rfl
  | cons pr rest ih =>
    intro L j hne
    match pr with
    | (i, o) =>
      show (setLeaves (L.set i o) rest).getD j dOut = _
      rw [ih (L.set i o) j (fun pr hpr => hne pr (by simp [hpr]))]
      exact getD_set_ne L i j o (hne (i, o) (by simp))

theorem writeLeafHashes_spec (P : Nat) : ∀ (ups : List (Nat × Output))
    (tr L : List Output),
    L.length ≤ P → 2 * P ≤ tr.length →
    (∀ pr ∈ ups, pr.1 < P) →
    (∀ j', j' < L.length → tr.getD (P + j') dOut = L.getD j' dOut) →
    (writeLeafHashes tr (ups.map (fun pr => (pr.1 + P, pr.2)))).length = tr.length ∧
    (∀ j, j < L.length →
      (writeLeafHashes tr (ups.map (fun pr => (pr.1 + P, pr.2)))).getD (P + j) dOut
        = (setLeaves L ups).getD j dOut) ∧
    (∀ s, s < P →
      (writeLeafHashes tr (ups.map (fun pr => (pr.1 + P, pr.2)))).getD s dOut
        = tr.getD s dOut) := by
  intro ups
  induction ups with
  | nil =>
    intro tr L _ _ _ hcorr
    exact ⟨rfl, fun j hj => hcorr j hj, fun s _ => rfl⟩
  | cons pr rest ih =>
    intro tr L hLP htr hranges hcorr
    match pr with
    | (i, o) =>
      have hiP : i < P := hranges (i, o) (by simp)
      have hres := ih (tr.set (i + P) o) (L.set i o)
        (by rw [List.length_set]; exact hLP)
        (by rw [List.length_set]; exact htr)
        (fun pr hpr => hranges pr (by simp [hpr]))
        (by
          intro j' hj'
          rw [List.length_set] at hj'
          by_cases hji : j' = i
          · subst hji
            rw [show P + j' = j' + P by omega,
              getD_set_eq tr (j' + P) o (by omega),
              getD_set_eq L j' o hj']
          · rw [getD_set_ne tr (i + P) (P + j') o (by omega),
              getD_set_ne L i j' o (fun h => hji h.symm)]
            exact hcorr j' hj')
      refine ⟨?_, ?_, ?_⟩
      · show (writeLeafHashes (tr.set (i + P) o) (rest.map _)).length = _
        rw [hres.1, List.length_set]
      · intro j hj
        show (writeLeafHashes (tr.set (i + P) o) (rest.map _)).getD (P + j) dOut = _
        rw [hres.2.1 j (by rw [List.length_set]; exact hj)]
        rfl
      · intro s hs
        show (writeLeafHashes (tr.set (i + P) o) (rest.map _)).getD s dOut = _
        rw [hres.2.2 s hs, getD_set_ne tr (i + P) s o (by omega)]

theorem bulk_rebuild (kw : List Nat) (f : Nat) (L : List Output)
    (t : BinaryMerkleTree) (hwf : TreeWF kw f L t) (hL : 1 ≤ L.length)
    (idxs : List Nat) (outs : List Output) (hne : idxs ≠ [])
    (hasc : strictlyAscending idxs = true)
    (hrange : ∀ i ∈ idxs, i < 2 ^ halvings L.length) :
    ∃ t', t.bulk_insert_leaves idxs outs = some (some (), t')
      ∧ TreeWF kw f (setLeaves L (idxs.zip outs)) t' := by
  obtain ⟨hact, hnum, hP, hkw, hfl, htrlen, hlive⟩ := hwf
  have hτle : L.length ≤ 2 ^ halvings L.length := le_two_pow_halvings L.length
  have hL''len : (setLeaves L (idxs.zip outs)).length = L.length :=
    setLeaves_length (idxs.zip outs) L
  have hoff : t.num_leaves = 2 ^ halvings L.length := by
    rw [BinaryMerkleTree.num_leaves, hnum]
  have hasc' : strictlyAscending
      (idxs.map (fun i => i + 2 ^ halvings L.length)) = true := by
    rw [strictlyAscending_iff_chain]
    rw [chain_lt_map_add]
    rw [← strictlyAscending_iff_chain]
    exact hasc
  have hzipmap : (idxs.map (fun i => i + 2 ^ halvings L.length)).zip outs
      = (idxs.zip outs).map
          (fun pr => (pr.1 + 2 ^ halvings L.length, pr.2)) := by
    rw [List.zip_map_left]
    refine List.map_congr_left ?_
    intro pr _
    cases pr
    rfl
  have hcorr0 : ∀ j', j' < L.length →
      t.tree.getD (2 ^ halvings L.length + j') dOut = L.getD j' dOut := by
    intro j' hj'
    have hv := hlive 0 j' (Nat.zero_le _)
      (by rw [show ceilHalfIter L.length 0 = L.length from rfl]; exact hj')
    rw [Nat.sub_zero] at hv
    exact hv
  have hws := writeLeafHashes_spec (2 ^ halvings L.length) (idxs.zip outs)
    t.tree L hτle (by omega)
    (by
      intro pr hpr
      have := List.of_mem_zip hpr
      exact hrange pr.1 this.1)
    hcorr0
  rw [← hzipmap] at hws
  simp only [BinaryMerkleTree.bulk_insert_leaves]
  rw [hoff]
  rw [show (idxs.map (fun i => i + 2 ^ halvings L.length)).isEmpty = false from
    map_add_ne_nil _ idxs hne]
  rw [if_neg (by simp)]
  rw [if_neg (by rw [hasc']; simp)]
  refine ⟨_, rfl, ?_⟩
  have hmaster := bulkLoop_live kw f (setLeaves L (idxs.zip outs)) L.length
    (halvings L.length) hL''len rfl
    ((idxs.map (fun i => i + 2 ^ halvings L.length)).foldl (· + ·) 0
      + (idxs.map (fun i => i + 2 ^ halvings L.length)).length + 1
      + halvings L.length)
    ((idxs.map (fun i => i + 2 ^ halvings L.length)).foldl (· + ·) 0
      + (idxs.map (fun i => i + 2 ^ halvings L.length)).length + 1)
    0 (idxs.map (fun i => i + 2 ^ halvings L.length)) []
    { t with tree := writeLeafHashes t.tree ((idxs.map (fun i => i + 2 ^ halvings L.length)).zip outs) }
    (by omega) (Nat.zero_le _) (fun _ => rfl)
    (by
      intro c hc
      obtain ⟨i, hi, rfl⟩ := List.mem_map.mp hc
      have := hrange i hi
      constructor
      · rw [Nat.sub_zero]
        omega
      · rw [Nat.sub_zero, pow_succ]
        omega)
    (by intro c hc; simp at hc)
    hact hP hkw hfl hnum
    (by
      show (writeLeafHashes t.tree _).length = _
      rw [hws.1]
      exact htrlen)
    (by
      rw [List.append_nil, foldl_add_sum]
      omega)
    (by
      intro k' j hk' hj hanc
      show (writeLeafHashes t.tree _).getD _ dOut = _
      rcases Nat.eq_zero_or_pos k' with hk0 | hkpos
      · subst hk0
        rw [Nat.sub_zero]
        rw [hws.2.1 j (by
          rw [show ceilHalfIter L.length 0 = L.length from rfl] at hj
          exact hj)]
        rfl
      · have hpople := pop_le_levelStart L.length (halvings L.length) k' rfl hk'
        have hpow2 : (2:Nat) ^ (halvings L.length - k' + 1) ≤ 2 ^ halvings L.length :=
          Nat.pow_le_pow_right (by norm_num) (by omega)
        rw [pow_succ] at hpow2
        rw [hws.2.2 (2 ^ (halvings L.length - k') + j) (by omega)]
        have hold := hlive k' j hk' hj
        rw [hold]
        refine stepIter_congr kw f k' L (setLeaves L (idxs.zip outs)) idxs hL''len.symm ?_ j ?_
        · intro j2 hj2
          refine (setLeaves_getD_not_mem (idxs.zip outs) L j2 ?_).symm
          intro pr hpr hcon
          exact hj2 (hcon ▸ (List.of_mem_zip hpr).1)
        · intro hmem
          obtain ⟨i, hi, hieq⟩ := List.mem_map.mp hmem
          refine hanc (i + 2 ^ halvings L.length)
            (by
              rw [List.append_nil]
              exact List.mem_map.mpr ⟨i, hi, rfl⟩)
            k' (by omega) ?_
          rw [Nat.add_comm i (2 ^ halvings L.length),
            shift_div (halvings L.length) k' i hk', hieq])
  rw [List.append_nil] at hmaster
  refine ⟨?_, ?_, ?_, ?_, ?_, ?_, ?_⟩
  · rw [hmaster.1, hL''len]
  · rw [hmaster.2.2.2.2.1, hL''len]
  · rw [hL''len]
    exact hmaster.2.1
  · exact hmaster.2.2.1
  · exact hmaster.2.2.2.1
  · rw [hmaster.2.2.2.2.2.1, hL''len]
  · intro k' j hk' hj
    rw [hL''len] at hk' hj
    have := hmaster.2.2.2.2.2.2 k' j hk' hj
    rw [hL''len]
    exact this

theorem insertSeq_rebuild (kw : List Nat) (f : Nat) :
    ∀ (ups : List (Nat × Output)) (L : List Output) (t : BinaryMerkleTree),
    TreeWF kw f L t → (∀ pr ∈ ups, pr.1 < L.length) →
    ∃ t2, insertSeq t ups = some t2 ∧ TreeWF kw f (setLeaves L ups) t2 := by
  intro ups
  induction ups with
  | nil =>
    intro L t hwf _
    exact ⟨t, rfl, hwf⟩
  | cons pr rest ih =>
    intro L t hwf hrange
    match pr with
    | (i, o) =>
      obtain ⟨hins, hwf1⟩ := insert_leaf_rebuild kw f L t hwf i
        (hrange (i, o) (by simp)) o
      obtain ⟨t2, hseq, hwf2⟩ := ih (L.set i o) _ hwf1
        (by
          intro pr2 hpr2
          rw [List.length_set]
          exact hrange pr2 (by simp [hpr2]))
      refine ⟨t2, ?_, hwf2⟩
      show (match t.insert_leaf i o with
        | none => none
        | some t2 => insertSeq t2 rest) = some t2
      rw [hins]
      exact hseq

theorem setLeaves_oob : ∀ (ups : List (Nat × Output)) (L : List Output),
    (∀ pr ∈ ups, L.length ≤ pr.1) → setLeaves L ups = L := by
  intro ups
  induction ups with
  | nil => intro L _; rfl
  | cons pr rest ih =>
    intro L hoob
    match pr with
    | (i, o) =>
      show setLeaves (L.set i o) rest = L
      have hset : L.set i o = L :=
        List.set_eq_of_length_le (hoob (i, o) (by simp))
      rw [hset]
      exact ih L (fun pr2 hpr2 => hoob pr2 (by simp [hpr2]))

/-- C3 counterexample: the claim quantifies over every set of distinct leaf
updates, including the empty set, but on the empty update set the two sides
differ: successive `insert_leaf` calls are a no-op that succeeds, while the
single `bulk_insert_leaves` call panics (the `is_sorted` length underflow),
so it does not produce the same root. Shown on the concrete two-leaf tree
`cexTreeSmall`. -/
theorem claim_C3_counterexample :
    insertSeq cexTreeSmall [] = some cexTreeSmall
    ∧ cexTreeSmall.bulk_insert_leaves [] [] = none :=
  ⟨rfl, rfl⟩

/-- C3 (amended to nonempty update sets): for every well-formed tree and
every nonempty list of leaf updates with strictly ascending indices all
below `actual_leaves`, one `bulk_insert_leaves` call succeeds, the
successive `insert_leaf` calls all succeed, the two resulting trees have
the same `root()`, and that root's `root_output_bytes` equal the canonical
BLAKE3 root bytes of the updated leaf list. -/
theorem claim_C3_bulk_eq_successive (kw : List Nat) (f : Nat) (L : List Output)
    (t : BinaryMerkleTree) (hwf : TreeWF kw f L t) (hL : 1 ≤ L.length)
    (ups : List (Nat × Output)) (hne : ups ≠ [])
    (hasc : strictlyAscending (ups.map Prod.fst) = true)
    (hrange : ∀ pr ∈ ups, pr.1 < t.actual_leaves) :
    ∃ t1 t2,
      t.bulk_insert_leaves (ups.map Prod.fst) (ups.map Prod.snd)
          = some (some (), t1)
      ∧ insertSeq t ups = some t2
      ∧ t1.root = t2.root
      ∧ t1.root.root_output_bytes 32
          = (b3 kw f (setLeaves L ups)).root_output_bytes 32 := by
  have hrange' : ∀ pr ∈ ups, pr.1 < L.length := by
    intro pr hpr
    have h := hrange pr hpr
    rw [hwf.1] at h
    exact h
  have hτle : L.length ≤ 2 ^ halvings L.length := le_two_pow_halvings L.length
  have hzip : (ups.map Prod.fst).zip (ups.map Prod.snd) = ups := by
    rw [List.zip_map']
    simp
  have hne' : ups.map Prod.fst ≠ [] := by
    intro h
    exact hne (List.map_eq_nil.mp h)
  obtain ⟨t1, hbulk, hwf1⟩ := bulk_rebuild kw f L t hwf hL (ups.map Prod.fst)
    (ups.map Prod.snd) hne' hasc
    (by
      intro i hi
      obtain ⟨pr, hpr, hpr2⟩ := List.mem_map.mp hi
      have h := hrange' pr hpr
      omega)
  rw [hzip] at hwf1
  obtain ⟨t2, hseq, hwf2⟩ := insertSeq_rebuild kw f ups L t hwf hrange'
  have hL' : 1 ≤ (setLeaves L ups).length := by
    rw [setLeaves_length]
    exact hL
  refine ⟨t1, t2, hbulk, hseq, ?_, ?_⟩
  · rw [show t1.root = { t1.tree.getD 1 dOut with
        flags := (t1.tree.getD 1 dOut).flags ||| ROOT } from rfl,
      show t2.root = { t2.tree.getD 1 dOut with
        flags := (t2.tree.getD 1 dOut).flags ||| ROOT } from rfl,
      root_slot kw f _ t1 hwf1 hL', root_slot kw f _ t2 hwf2 hL']
  · exact root_bytes_of_wf kw f _ t1 hwf1 hL'

/-- C3 witness: the amended theorem applied to the concrete two-leaf tree
`cexTreeSmall` with the single update `(0, chunk_output IV 0 0 [5])`. -/
theorem claim_C3_witness :
    ∃ t1 t2,
      cexTreeSmall.bulk_insert_leaves
          ([(0, chunk_output IV 0 0 [5])].map Prod.fst)
          ([(0, chunk_output IV 0 0 [5])].map Prod.snd)
          = some (some (), t1)
      ∧ insertSeq cexTreeSmall [(0, chunk_output IV 0 0 [5])] = some t2
      ∧ t1.root = t2.root
      ∧ t1.root.root_output_bytes 32
          = (b3 IV 0 (setLeaves [chunk_output IV 0 0 [], chunk_output IV 0 1 []]
              [(0, chunk_output IV 0 0 [5])])).root_output_bytes 32 :=
  claim_C3_bulk_eq_successive IV 0
    [chunk_output IV 0 0 [], chunk_output IV 0 1 []] cexTreeSmall
    (build_live IV 0 [chunk_output IV 0 0 [], chunk_output IV 0 1 []] (by decide))
    (by decide) [(0, chunk_output IV 0 0 [5])] (by simp) (by decide)
    (by
      intro pr hpr
      simp at hpr
      subst hpr
      decide)

/-- C10 counterexample: the claim quantifies over every strictly ascending
index list with entries in the padding range, including the empty list
(which vacuously satisfies both conditions), but on a concrete padded tree
(3 real leaves, 4 slots) the empty call panics instead of returning the
success value. -/
theorem claim_C10_counterexample :
    (BinaryMerkleTree.new_from_leaves cexLeaves3 IV 0).actual_leaves
        < (BinaryMerkleTree.new_from_leaves cexLeaves3 IV 0).num_leaves
    ∧ (BinaryMerkleTree.new_from_leaves cexLeaves3 IV 0).bulk_insert_leaves [] []
        = none :=
  ⟨by decide, rfl⟩

/-- C10 (amended to nonempty index lists): `bulk_insert_leaves` performs no
bounds check against `actual_leaves`: on a well-formed tree, a nonempty
strictly ascending index list whose entries all lie in
`[actual_leaves, num_leaves)` is accepted — the call returns the success
value, every real leaf slot is unchanged, and `root()` is unchanged. -/
theorem claim_C10_padding_updates (kw : List Nat) (f : Nat) (L : List Output)
    (t : BinaryMerkleTree) (hwf : TreeWF kw f L t) (hL : 1 ≤ L.length)
    (idxs : List Nat) (outs : List Output) (hne : idxs ≠ [])
    (hasc : strictlyAscending idxs = true)
    (hrange : ∀ i ∈ idxs, t.actual_leaves ≤ i ∧ i < t.num_leaves) :
    ∃ t', t.bulk_insert_leaves idxs outs = some (some (), t')
      ∧ (∀ j, j < t.actual_leaves →
          t'.tree.getD (t.leaf_start_index + j) dOut
            = t.tree.getD (t.leaf_start_index + j) dOut)
      ∧ t'.root = t.root := by
  have hact := hwf.1
  have hnum := hwf.2.1
  have hP := hwf.2.2.1
  have hlive := hwf.2.2.2.2.2.2
  have hrange2 : ∀ i ∈ idxs, i < 2 ^ halvings L.length := by
    intro i hi
    have h := (hrange i hi).2
    rw [BinaryMerkleTree.num_leaves, hnum] at h
    exact h
  have hoob : ∀ pr ∈ idxs.zip outs, L.length ≤ pr.1 := by
    intro pr hpr
    match pr with
    | (i, o) =>
      have h1 := (List.of_mem_zip hpr).1
      have h2 := (hrange i h1).1
      rw [hact] at h2
      exact h2
  obtain ⟨t', hbulk, hwf'⟩ := bulk_rebuild kw f L t hwf hL idxs outs hne hasc hrange2
  rw [setLeaves_oob (idxs.zip outs) L hoob] at hwf'
  have hlive' := hwf'.2.2.2.2.2.2
  refine ⟨t', hbulk, ?_, ?_⟩
  · intro j hj
    have hj' : j < ceilHalfIter L.length 0 := by
      show j < L.length
      rw [hact] at hj
      exact hj
    have h1 := hlive 0 j (Nat.zero_le _) hj'
    have h2 := hlive' 0 j (Nat.zero_le _) hj'
    rw [Nat.sub_zero] at h1 h2
    rw [hP]
    exact h2.trans h1.symm
  · rw [show t'.root = { t'.tree.getD 1 dOut with
        flags := (t'.tree.getD 1 dOut).flags ||| ROOT } from rfl,
      show t.root = { t.tree.getD 1 dOut with
        flags := (t.tree.getD 1 dOut).flags ||| ROOT } from rfl,
      root_slot kw f L t' hwf' hL, root_slot kw f L t hwf hL]

/-- C10 witness: the amended theorem applied to the concrete padded tree
built from `cexLeaves3` (3 real leaves, padding slot 3), writing one output
into padding slot 3. -/
theorem claim_C10_witness :
    ∃ t', (BinaryMerkleTree.new_from_leaves cexLeaves3 IV 0).bulk_insert_leaves
            [3] [dOut] = some (some (), t')
      ∧ (∀ j, j < (BinaryMerkleTree.new_from_leaves cexLeaves3 IV 0).actual_leaves →
          t'.tree.getD
              ((BinaryMerkleTree.new_from_leaves cexLeaves3 IV 0).leaf_start_index + j)
              dOut
            = (BinaryMerkleTree.new_from_leaves cexLeaves3 IV 0).tree.getD
              ((BinaryMerkleTree.new_from_leaves cexLeaves3 IV 0).leaf_start_index + j)
              dOut)
      ∧ t'.root = (BinaryMerkleTree.new_from_leaves cexLeaves3 IV 0).root :=
  claim_C10_padding_updates IV 0 cexLeaves3
    (BinaryMerkleTree.new_from_leaves cexLeaves3 IV 0)
    (build_live IV 0 cexLeaves3 (by decide)) (by decide) [3] [dOut] (by simp)
    (by decide)
    (by
      intro i hi
      simp at hi
      subst hi
      exact ⟨by decide, by decide⟩)

theorem rootFree_getD (tr : List Output) (h : ∀ o ∈ tr, hasRootBit o = false)
    (i : Nat) : hasRootBit (tr.getD i dOut) = false := by
  by_cases hi : i < tr.length
  · rw [List.getD_eq_getElem tr dOut hi]
    exact h _ (List.getElem_mem hi)
  · rw [List.getD_eq_default tr dOut (Nat.le_of_not_lt hi)]
    decide

theorem rootFree_set (tr : List Output) (h : ∀ o ∈ tr, hasRootBit o = false)
    (i : Nat) (a : Output) (ha : hasRootBit a = false) :
    ∀ o ∈ tr.set i a, hasRootBit o = false := by
  intro o ho
  rcases List.mem_or_eq_of_mem_set ho with h1 | h2
  · exact h o h1
  · rw [h2]
    exact ha

theorem parent_output_rootBit (a b kw : List Nat) (f : Nat)
    (hf : Nat.testBit f 3 = false) :
    hasRootBit (parent_output a b kw f) = false := by
  show Nat.testBit (PARENT ||| f) 3 = false
  rw [Nat.testBit_or, hf, Bool.or_false]
  decide

theorem writeLeavesLoop_rootFree : ∀ (leaves tr : List Output) (i : Nat),
    (∀ o ∈ tr, hasRootBit o = false) → (∀ o ∈ leaves, hasRootBit o = false) →
    ∀ o ∈ writeLeavesLoop tr i leaves, hasRootBit o = false := by
  intro leaves
  induction leaves with
  | nil =>
    intro tr i h _ o ho
    exact h o ho
  | cons leaf rest ih =>
    intro tr i h hl
    exact ih (tr.set i leaf) (i + 1)
      (rootFree_set tr h i leaf (hl leaf (by simp)))
      (fun o ho => hl o (by simp [ho]))

theorem foldl_rootFree (step : List Output → Nat → List Output)
    (hstep : ∀ tr i, (∀ o ∈ tr, hasRootBit o = false) →
      ∀ o ∈ step tr i, hasRootBit o = false) :
    ∀ (idxs : List Nat) (tr : List Output), (∀ o ∈ tr, hasRootBit o = false) →
    ∀ o ∈ idxs.foldl step tr, hasRootBit o = false := by
  intro idxs
  induction idxs with
  | nil =>
    intro tr h o ho
    exact h o ho
  | cons i rest ih =>
    intro tr h
    exact ih (step tr i) (hstep tr i h)

theorem buildParentsRow_rootFree (kw : List Nat) (f : Nat)
    (hf : Nat.testBit f 3 = false) (tr : List Output)
    (cls nacl pls npl : Nat) (h : ∀ o ∈ tr, hasRootBit o = false) :
    ∀ o ∈ buildParentsRow kw f tr cls nacl pls npl, hasRootBit o = false := by
  refine foldl_rootFree _ ?_ (List.range npl) tr h
  intro tr2 i h2 o ho
  dsimp only at ho
  split at ho
  · exact rootFree_set tr2 h2 _ _ (rootFree_getD tr2 h2 _) o ho
  · exact rootFree_set tr2 h2 _ _ (parent_output_rootBit _ _ kw f hf) o ho

theorem buildLevelsLoop_rootFree (kw : List Nat) (f : Nat)
    (hf : Nat.testBit f 3 = false) :
    ∀ (fuel : Nat) (tr : List Output) (cls nacl : Nat),
    (∀ o ∈ tr, hasRootBit o = false) →
    ∀ o ∈ buildLevelsLoop kw f fuel tr cls nacl, hasRootBit o = false := by
  intro fuel
  induction fuel with
  | zero =>
    intro tr cls nacl h o ho
    exact h o ho
  | succ n ih =>
    intro tr cls nacl h
    have hunf : buildLevelsLoop kw f (n + 1) tr cls nacl =
        if cls ≤ 1 then tr
        else buildLevelsLoop kw f n
          (buildParentsRow kw f tr cls nacl (cls / 2) ((nacl + 1) / 2))
          (cls / 2) ((nacl + 1) / 2) := rfl
    rw [hunf]
    by_cases hc : cls ≤ 1
    · rw [if_pos hc]
      exact h
    · rw [if_neg hc]
      exact ih _ _ _ (buildParentsRow_rootFree kw f hf tr cls nacl _ _ h)

theorem create_tree_rootFree (kw : List Nat) (f : Nat)
    (hf : Nat.testBit f 3 = false) (tr leaves : List Output) (lsi al : Nat)
    (h : ∀ o ∈ tr, hasRootBit o = false)
    (hl : ∀ o ∈ leaves, hasRootBit o = false) :
    ∀ o ∈ create_tree_from_leaves kw f tr lsi al leaves, hasRootBit o = false := by
  have h1 := writeLeavesLoop_rootFree leaves tr lsi h hl
  show ∀ o ∈ (if al = 1 then (writeLeavesLoop tr lsi leaves).set 1
      ((writeLeavesLoop tr lsi leaves).getD lsi dOut)
    else buildLevelsLoop kw f lsi (writeLeavesLoop tr lsi leaves) lsi al),
    hasRootBit o = false
  by_cases hc : al = 1
  · rw [if_pos hc]
    exact rootFree_set _ h1 _ _ (rootFree_getD _ h1 _)
  · rw [if_neg hc]
    exact buildLevelsLoop_rootFree kw f hf lsi _ lsi al h1

theorem new_from_leaves_rootFree (kw : List Nat) (f : Nat)
    (hf : Nat.testBit f 3 = false) (leaves : List Output)
    (hl : ∀ o ∈ leaves, hasRootBit o = false) :
    ∀ o ∈ (BinaryMerkleTree.new_from_leaves leaves kw f).tree,
      hasRootBit o = false := by
  show ∀ o ∈ create_tree_from_leaves kw f
      (List.replicate (2 * nextPowerOfTwo leaves.length)
        { input_chaining_value := kw, block_words := List.replicate 16 0,
          counter := 0, block_len := 64, flags := f })
      (nextPowerOfTwo leaves.length) leaves.length leaves,
    hasRootBit o = false
  refine create_tree_rootFree kw f hf _ leaves _ _ ?_ hl
  intro o ho
  rw [List.eq_of_mem_replicate ho]
  show Nat.testBit f 3 = false
  exact hf

theorem insertStepTree_rootFree (t : BinaryMerkleTree) (c : Nat)
    (h : ∀ o ∈ t.tree, hasRootBit o = false)
    (hf : Nat.testBit t.flags 3 = false) :
    (∀ o ∈ (insertStepTree t c).tree, hasRootBit o = false)
    ∧ (insertStepTree t c).flags = t.flags := by
  constructor
  · refine rootFree_set t.tree h _ _ ?_
    split
    · exact parent_output_rootBit _ _ _ _ hf
    · exact rootFree_getD t.tree h _
  · rfl

theorem insertLoopRootFree : ∀ (fuel : Nat) (t : BinaryMerkleTree) (ci nl : Nat),
    (∀ o ∈ t.tree, hasRootBit o = false) → Nat.testBit t.flags 3 = false →
    (∀ o ∈ (BinaryMerkleTree.insertLoop fuel t ci nl).tree, hasRootBit o = false)
    ∧ (BinaryMerkleTree.insertLoop fuel t ci nl).flags = t.flags := by
  intro fuel
  induction fuel with
  | zero =>
    intro t ci nl h hf
    exact ⟨h, rfl⟩
  | succ n ih =>
    intro t ci nl h hf
    rw [insertLoop_succ]
    by_cases hc : nl ≤ 1
    · rw [if_pos hc]
      exact ⟨h, rfl⟩
    · rw [if_neg hc]
      obtain ⟨h2, hfl2⟩ := insertStepTree_rootFree t ci h hf
      obtain ⟨h3, hfl3⟩ := ih (insertStepTree t ci) (t.get_tree_indices ci).2.2.1
        ((nl + 1) / 2) h2 (by rw [hfl2]; exact hf)
      exact ⟨h3, hfl3.trans hfl2⟩

theorem bulkLoopRootFree : ∀ (fuel : Nat) (t : BinaryMerkleTree) (queue : List Nat),
    (∀ o ∈ t.tree, hasRootBit o = false) → Nat.testBit t.flags 3 = false →
    (∀ o ∈ (BinaryMerkleTree.bulkLoop fuel t queue).tree, hasRootBit o = false)
    ∧ (BinaryMerkleTree.bulkLoop fuel t queue).flags = t.flags := by
  intro fuel
  induction fuel with
  | zero =>
    intro t queue h hf
    exact ⟨h, rfl⟩
  | succ n ih =>
    intro t queue h hf
    match queue with
    | [] => exact ⟨h, rfl⟩
    | c :: rest =>
      rw [bulkLoop_succ]
      by_cases hc : c = 1
      · rw [if_pos hc]
        exact ⟨h, rfl⟩
      · rw [if_neg hc]
        obtain ⟨h2, hfl2⟩ := insertStepTree_rootFree t c h hf
        obtain ⟨h3, hfl3⟩ := ih (insertStepTree t c)
          ((match rest with
            | next :: tail => if next = get_sibling_index c then tail else rest
            | [] => rest) ++ [(t.get_tree_indices c).2.2.1])
          h2 (by rw [hfl2]; exact hf)
        exact ⟨h3, hfl3.trans hfl2⟩

theorem insert_leaf_rootFree (t : BinaryMerkleTree) (i : Nat) (o : Output)
    (t2 : BinaryMerkleTree) (hins : t.insert_leaf i o = some t2)
    (h : ∀ x ∈ t.tree, hasRootBit x = false)
    (hf : Nat.testBit t.flags 3 = false) (ho : hasRootBit o = false) :
    (∀ x ∈ t2.tree, hasRootBit x = false) ∧ t2.flags = t.flags := by
  by_cases hge : i ≥ t.actual_leaves
  · have hnone : t.insert_leaf i o = none := by
      show (if i ≥ t.actual_leaves then none else _) = none
      rw [if_pos hge]
    rw [hnone] at hins
    exact Option.noConfusion hins
  · have hsome : t.insert_leaf i o = some (BinaryMerkleTree.insertLoop
        t.actual_leaves { t with tree := t.tree.set (i + t.leaf_start_index) o }
        (i + t.leaf_start_index) t.actual_leaves) := by
      show (if i ≥ t.actual_leaves then none else _) = _
      rw [if_neg hge]
    rw [hsome] at hins
    have ht2 := (Option.some.inj hins).symm
    obtain ⟨h2, hfl2⟩ := insertLoopRootFree t.actual_leaves
      { t with tree := t.tree.set (i + t.leaf_start_index) o }
      (i + t.leaf_start_index) t.actual_leaves
      (rootFree_set t.tree h _ o ho) hf
    rw [ht2]
    exact ⟨h2, hfl2⟩

theorem writeLeafHashes_rootFree : ∀ (prs : List (Nat × Output)) (tr : List Output),
    (∀ o ∈ tr, hasRootBit o = false) → (∀ pr ∈ prs, hasRootBit pr.2 = false) →
    ∀ o ∈ writeLeafHashes tr prs, hasRootBit o = false := by
  intro prs
  induction prs with
  | nil =>
    intro tr h _ o ho
    exact h o ho
  | cons pr rest ih =>
    intro tr h hp
    obtain ⟨i, a⟩ := pr
    exact ih (tr.set i a) (rootFree_set tr h i a (hp (i, a) (by simp)))
      (fun pr2 hpr2 => hp pr2 (by simp [hpr2]))

theorem bulkRootFree (t : BinaryMerkleTree) (idxs : List Nat) (os : List Output)
    (t2 : BinaryMerkleTree)
    (hb : t.bulk_insert_leaves idxs os = some (some (), t2))
    (h : ∀ o ∈ t.tree, hasRootBit o = false)
    (hf : Nat.testBit t.flags 3 = false)
    (hos : ∀ o ∈ os, hasRootBit o = false) :
    (∀ o ∈ t2.tree, hasRootBit o = false) ∧ t2.flags = t.flags := by
  have hb' : (if (idxs.map (fun i => i + t.num_leaves)).isEmpty then
        (none : Option (Option Unit × BinaryMerkleTree))
      else if strictlyAscending (idxs.map (fun i => i + t.num_leaves)) = false then
        some (none, t)
      else
        some (some (), BinaryMerkleTree.bulkLoop
          ((idxs.map (fun i => i + t.num_leaves)).foldl (· + ·) 0
            + (idxs.map (fun i => i + t.num_leaves)).length + 1)
          { t with tree := writeLeafHashes t.tree ((idxs.map (fun i => i + t.num_leaves)).zip os) }
          (idxs.map (fun i => i + t.num_leaves)))) = some (some (), t2) := hb
  by_cases he : (idxs.map (fun i => i + t.num_leaves)).isEmpty
  · rw [if_pos he] at hb'
    exact Option.noConfusion hb'
  · rw [if_neg he] at hb'
    by_cases hs : strictlyAscending (idxs.map (fun i => i + t.num_leaves)) = false
    · rw [if_pos hs] at hb'
      have := (Prod.mk.injEq _ _ _ _).mp (Option.some.inj hb')
      exact Option.noConfusion this.1
    · rw [if_neg hs] at hb'
      have hpair := Option.some.inj hb'
      have ht2 := (congrArg Prod.snd hpair).symm
      have h1 : ∀ o ∈ (writeLeafHashes t.tree
          ((idxs.map (fun i => i + t.num_leaves)).zip os)), hasRootBit o = false := by
        refine writeLeafHashes_rootFree _ t.tree h ?_
        intro pr hpr
        exact hos pr.2 (List.of_mem_zip hpr).2
      obtain ⟨h3, hfl3⟩ := bulkLoopRootFree
        ((idxs.map (fun i => i + t.num_leaves)).foldl (· + ·) 0
          + (idxs.map (fun i => i + t.num_leaves)).length + 1)
        { t with tree := writeLeafHashes t.tree ((idxs.map (fun i => i + t.num_leaves)).zip os) }
        (idxs.map (fun i => i + t.num_leaves)) h1 hf
      rw [show t2 = _ from ht2]
      exact ⟨h3, hfl3⟩

theorem applyOpRootFree (t t2 : BinaryMerkleTree) (op : TreeOp)
    (happ : applyOp t op = some t2)
    (h : ∀ o ∈ t.tree, hasRootBit o = false)
    (hf : Nat.testBit t.flags 3 = false)
    (ho : ∀ o ∈ opOutputs op, hasRootBit o = false) :
    (∀ o ∈ t2.tree, hasRootBit o = false) ∧ t2.flags = t.flags := by
  match op with
  | TreeOp.ins i o =>
    exact insert_leaf_rootFree t i o t2 happ h hf (ho o (by simp [opOutputs]))
  | TreeOp.bulk idxs os =>
    have happ' : (match t.bulk_insert_leaves idxs os with
        | some (some _, t3) => some t3
        | _ => none) = some t2 := happ
    cases hbv : t.bulk_insert_leaves idxs os with
    | none =>
      rw [hbv] at happ'
      exact Option.noConfusion happ'
    | some pr =>
      obtain ⟨fst, t3⟩ := pr
      cases fst with
      | none =>
        rw [hbv] at happ'
        exact Option.noConfusion happ'
      | some u =>
        rw [hbv] at happ'
        have ht3 := Option.some.inj happ'
        cases u
        rw [← ht3]
        exact bulkRootFree t idxs os t3 hbv h hf ho

theorem applySeqRootFree : ∀ (ops : List TreeOp) (t t2 : BinaryMerkleTree),
    applySeq t ops = some t2 →
    (∀ o ∈ t.tree, hasRootBit o = false) → Nat.testBit t.flags 3 = false →
    (∀ op ∈ ops, ∀ o ∈ opOutputs op, hasRootBit o = false) →
    ∀ o ∈ t2.tree, hasRootBit o = false := by
  intro ops
  induction ops with
  | nil =>
    intro t t2 happ h hf _
    cases Option.some.inj happ
    exact h
  | cons op rest ih =>
    intro t t2 happ h hf hops
    have happ' : (match applyOp t op with
        | none => none
        | some t3 => applySeq t3 rest) = some t2 := happ
    cases hop : applyOp t op with
    | none =>
      rw [hop] at happ'
      exact Option.noConfusion happ'
    | some t3 =>
      rw [hop] at happ'
      obtain ⟨h3, hfl3⟩ := applyOpRootFree t t3 op hop h hf (hops op (by simp))
      exact ih t3 t2 happ' h3 (by rw [hfl3]; exact hf)
        (fun op2 hop2 => hops op2 (by simp [hop2]))

/-- C8 counterexample: the claim says no Output stored in any tree slot
ever has the ROOT bit set, after any sequence of `insert_leaf` operations —
but `insert_leaf` stores the caller-supplied `Output` verbatim, so
inserting an `Output` whose flags already carry `ROOT` puts a ROOT-flagged
value into the leaf slot (slot 2 of the concrete two-leaf tree
`cexTreeSmall`). -/
theorem claim_C8_counterexample :
    (cexTreeSmall.insert_leaf 0 { dOut with flags := ROOT }).map
        (fun t2 => Nat.testBit ((t2.tree.getD 2 dOut).flags) 3)
      = some true := by decide

/-- C8 (amended: the supplied Outputs must themselves be ROOT-free, which
holds for every Output the library constructs): for every tree built by
`new_from_leaves` with flags = 0 from ROOT-free leaves, after any
successful sequence of `insert_leaf` and `bulk_insert_leaves` operations
whose supplied Outputs are ROOT-free, `root()` is a pure copy of tree slot
1 with `ROOT` OR-ed into its flags, the returned Output has the ROOT bit
set, and no Output stored in any tree slot has the ROOT bit set. -/
theorem claim_C8_root_flag (kw : List Nat) (leaves : List Output)
    (hleaves : ∀ o ∈ leaves, hasRootBit o = false)
    (ops : List TreeOp)
    (hops : ∀ op ∈ ops, ∀ o ∈ opOutputs op, hasRootBit o = false)
    (t2 : BinaryMerkleTree)
    (happ : applySeq (BinaryMerkleTree.new_from_leaves leaves kw 0) ops = some t2) :
    t2.root = { t2.tree.getD 1 dOut with
        flags := (t2.tree.getD 1 dOut).flags ||| ROOT }
    ∧ Nat.testBit t2.root.flags 3 = true
    ∧ ∀ o ∈ t2.tree, hasRootBit o = false := by
  have h0 : ∀ o ∈ (BinaryMerkleTree.new_from_leaves leaves kw 0).tree,
      hasRootBit o = false :=
    new_from_leaves_rootFree kw 0 (by decide) leaves hleaves
  have hfree := applySeqRootFree ops _ t2 happ h0
    (show Nat.testBit 0 3 = false by decide) hops
  refine ⟨rfl, ?_, hfree⟩
  show Nat.testBit ((t2.tree.getD 1 dOut).flags ||| ROOT) 3 = true
  rw [Nat.testBit_or, show Nat.testBit ROOT 3 = true by decide, Bool.or_true]

/-- C8 witness: the amended theorem applied to the concrete three-leaf tree
built from `cexLeaves3` followed by one `insert_leaf` of a fresh chunk
Output. -/
theorem claim_C8_witness :
    ∃ t2, applySeq (BinaryMerkleTree.new_from_leaves cexLeaves3 IV 0)
        [TreeOp.ins 0 (chunk_output IV 0 0 [9])] = some t2
      ∧ (t2.root = { t2.tree.getD 1 dOut with
            flags := (t2.tree.getD 1 dOut).flags ||| ROOT }
        ∧ Nat.testBit t2.root.flags 3 = true
        ∧ ∀ o ∈ t2.tree, hasRootBit o = false) :=
  ⟨_, rfl, claim_C8_root_flag IV cexLeaves3 (by decide)
    [TreeOp.ins 0 (chunk_output IV 0 0 [9])] (by decide) _ rfl⟩

/-- C7 counterexample: a bulk call whose index count (2) differs from its
output count (1), on a concrete two-leaf tree with strictly ascending
indices, returns the success value, not the "not sorted" failure the
claim predicts. -/
theorem claim_C7_counterexample :
    (cexTreeSmall.bulk_insert_leaves [0, 1] [chunk_output IV 0 0 [1]]).map Prod.fst
      = some (some ()) := by decide

/-- C7 amended: `bulk_insert_leaves` performs no length check at all.
On a well-formed tree, with a non-empty, strictly ascending index list
whose entries are all below `num_leaves` (so every vector access stays in
bounds), it returns the success value regardless of how many outputs are
supplied; the zip of indices with outputs silently truncates to the
shorter list.  Out-of-range indices instead panic on the vector write
itself, never via any length comparison. -/
theorem claim_C7_no_length_check (kw : List Nat) (f : Nat) (L : List Output)
    (t : BinaryMerkleTree) (hwf : TreeWF kw f L t) (idxs : List Nat)
    (outs : List Output) (hne : idxs ≠ []) (hasc : strictlyAscending idxs = true)
    (hrange : ∀ i ∈ idxs, i < t.num_leaves) :
    (t.bulk_insert_leaves idxs outs).map Prod.fst = some (some ()) := by
  unfold BinaryMerkleTree.bulk_insert_leaves
  have h1 : (idxs.map (fun i => i + t.num_leaves)).isEmpty = false :=
    map_add_ne_nil _ _ hne
  have h2 : strictlyAscending (idxs.map (fun i => i + t.num_leaves)) = true := by
    rw [strictlyAscending_iff_chain, chain_lt_map_add, ← strictlyAscending_iff_chain]
    exact hasc
  simp [h1, h2]

theorem claim_C7_witness :
    ([0, 1] : List Nat) ≠ [] ∧ strictlyAscending [0, 1] = true ∧
      (∀ i ∈ ([0, 1] : List Nat), i < cexTreeSmall.num_leaves) ∧
      (cexTreeSmall.bulk_insert_leaves [0, 1] []).map Prod.fst = some (some ()) :=
  ⟨by decide, by decide, by decide,
    claim_C7_no_length_check IV 0 [chunk_output IV 0 0 [], chunk_output IV 0 1 []]
      cexTreeSmall
      (build_live IV 0 [chunk_output IV 0 0 [], chunk_output IV 0 1 []] (by decide))
      [0, 1] [] (by decide) (by decide) (by decide)⟩
